import Mathlib

/-!
# chipStar `HipThreadIDPatterns` pass: a shallow embedding

The pass `llvm_passes/HipThreadIDPatterns.cpp` folds

    get_group_id(d) * get_local_size(d) + get_local_id(d)   -->   get_global_id(d)

on LLVM IR.  This file embeds the part of the LLVM IR object model the pass
touches (values with identity, instructions with operand lists, use counts,
basic blocks, functions, a module), then the five functions of the pass
(`isaFnCall`, `getCallOperand`, `isGetGlobalIDPattern`, `createTruncOrSelf`,
`HipThreadIDPatternsPass::run`), and proves properties of them.

Conventions.

* A `Value *` is a `Value`: a tag (instruction, function, anything else) and a
  number.  Two values are the same instance iff they are equal.
* The use list of a value is not stored: the number of uses is the number of
  operand slots of the instructions of the module that hold the value, which is the
  invariant LLVM keeps between operand lists and use lists.
* The operands of a call are its arguments followed by the called operand, as
  in `llvm::CallBase`.
* `cast<CallInst>` on a value that is not a call is the one fatal outcome the
  pass can reach; functions that may reach it return `Except Fatal`.
-/

namespace HipThreadIDPatterns

/-! ## The IR object model -/

/-- The first-class types the pass can meet: integers, vectors of integers,
pointers, and `void`. -/
inductive Ty where
  | int (bits : Nat)
  | vec (n : Nat) (bits : Nat)
  | ptr
  | void
  deriving DecidableEq, Repr

/-- The result of `Type::getScalarSizeInBits`. -/
def Ty.getScalarSizeInBits : Ty → Nat
  | .int bits => bits
  | .vec _ bits => bits
  | .ptr => 0
  | .void => 0

/-- A function type: result type and parameter types. -/
structure FunctionType where
  ret : Ty
  params : List Ty
  deriving DecidableEq, Repr

/-- A `Value *`.  `inst n` is the instruction whose identity is `n`, `func n` a
`Function`, `other n` any other value (a constant, an argument, ...). -/
inductive Value where
  | inst (id : Nat)
  | func (id : Nat)
  | other (id : Nat)
  deriving DecidableEq, Repr

/-- Opcodes of `BinaryOperator`. -/
inductive BinOp where
  | add
  | mul
  | otherBin (opcode : Nat)
  deriving DecidableEq, Repr

/-- Opcodes of `CastInst`. -/
inductive CastOp where
  | trunc
  | bitcast
  | otherCast (opcode : Nat)
  deriving DecidableEq, Repr

/-- The class of an instruction together with its operands.  A
`BinaryOperator` has two operands, a `CastInst` one; a `CallInst` has its
arguments and then the called operand, and carries the function type of the
call. -/
inductive Shape where
  | binop (op : BinOp) (lhs rhs : Value)
  | cast (op : CastOp) (src : Value)
  | call (fty : FunctionType) (args : List Value) (callee : Value)
  | otherInst (opcode : Nat) (ops : List Value)
  deriving DecidableEq, Repr

/-- An instruction: its identity, its name, its type, and its shape. -/
structure Instruction where
  id : Nat
  name : String
  ty : Ty
  shape : Shape
  deriving DecidableEq, Repr

/-- A basic block: its instructions in order. -/
structure BasicBlock where
  insts : List Instruction
  deriving DecidableEq, Repr

/-- A function: identity, name (empty when it has none), type, and blocks (none
for a declaration). -/
structure Function where
  id : Nat
  name : String
  fty : FunctionType
  blocks : List BasicBlock
  deriving DecidableEq, Repr

/-- A module: its functions in order. -/
structure Module where
  functions : List Function
  deriving DecidableEq, Repr

/-- The operand list of an instruction (`User::getOperand`). -/
def Shape.operands : Shape → List Value
  | .binop _ lhs rhs => [lhs, rhs]
  | .cast _ src => [src]
  | .call _ args callee => args ++ [callee]
  | .otherInst _ ops => ops

/-- The operand list of an instruction. -/
def Instruction.operands (I : Instruction) : List Value := I.shape.operands

/-- The value an instruction is. -/
def Instruction.value (I : Instruction) : Value := .inst I.id

/-- The instructions of a function, block after block. -/
def Function.insts (F : Function) : List Instruction :=
  F.blocks.flatMap BasicBlock.insts

/-- The instructions of a module, function after function. -/
def Module.insts (M : Module) : List Instruction :=
  M.functions.flatMap Function.insts

/-- The instruction a value is (`dyn_cast<Instruction>`), if it is one of the
module. -/
def Module.getInst (M : Module) : Value → Option Instruction
  | .inst n => M.insts.find? (fun I => I.id == n)
  | _ => none

/-- The function a value is (`dyn_cast<Function>`). -/
def Module.getFunction (M : Module) : Value → Option Function
  | .func n => M.functions.find? (fun F => F.id == n)
  | _ => none

/-- The number of uses of a value: the operand slots that hold it. -/
def Module.numUses (M : Module) (V : Value) : Nat :=
  (M.insts.map (fun I => I.operands.count V)).sum

/-- The predicate `Value::hasOneUse`. -/
def Module.hasOneUse (M : Module) (V : Value) : Bool :=
  M.numUses V == 1

/-- The predicate `Value::hasName`. -/
def Function.hasName (F : Function) : Bool := F.name != ""

/-- The result of `CallBase::getCalledFunction` for a call of function type
`fty` whose called operand is `callee`: the function called directly, if the
called operand is a function of the same type as the call. -/
def Module.getCalledFunction (M : Module) (fty : FunctionType) (callee : Value) :
    Option Function :=
  match M.getFunction callee with
  | some F => if F.fty = fty then some F else none
  | none => none


/-! ## The pass: probe, accessor, matcher -/

/-- The fatal outcomes: `cast<CallInst>` applied to a value that is not a call,
and `getOperand` asked for an operand the instruction does not have. -/
inductive Fatal where
  | castToCallInst
  | operandOutOfRange
  deriving DecidableEq, Repr

deriving instance DecidableEq for Except

/-- Mangled name of `get_group_id(uint)`. -/
def GetGroupId : String := "_Z12get_group_idj"
/-- Mangled name of `get_local_size(uint)`. -/
def GetLocalSize : String := "_Z14get_local_sizej"
/-- Mangled name of `get_local_id(uint)`. -/
def GetLocalId : String := "_Z12get_local_idj"
/-- Mangled name of `get_global_id(uint)`. -/
def GetGlobalId : String := "_Z13get_global_idj"

/-- Source `isaFnCall(V, Name)`: `V` is a `CallInst`, it has a called function,
the function has a name, and the name is `Name`. -/
def isaFnCall (M : Module) (V : Value) (Name : String) : Bool :=
  match M.getInst V with
  | some ⟨_, _, _, .call fty _ callee⟩ =>
    match M.getCalledFunction fty callee with
    | none => false
    | some Callee => if !Callee.hasName then false else Callee.name == Name
  | _ => false

/-- Source `getCallOperand(V, OpIdx)`: `cast<CallInst>(V)->getOperand(OpIdx)`.
The cast is fatal when `V` is not a call, and so is an index past the operand
list. -/
def getCallOperand (M : Module) (V : Value) (OpIdx : Nat) : Except Fatal Value :=
  match M.getInst V with
  | some ⟨_, _, _, .call _ args callee⟩ =>
    match (args ++ [callee])[OpIdx]? with
    | some Op => .ok Op
    | none => .error .operandOutOfRange
  | _ => .error .castToCallInst

/-- The pattern `m_TruncOrSelf(m_Value(X))` applied to `V`: the value bound to
`X`, which is the operand of `V` when `V` is a `trunc` and `V` itself when it
is not. -/
def m_TruncOrSelf (M : Module) (V : Value) : Value :=
  match M.getInst V with
  | some ⟨_, _, _, .cast .trunc src⟩ => src
  | _ => V

/-- The pattern `m_Muladd` of the source applied to `V`,
`m_Add(m_OneUse(m_Mul(m_TruncOrSelf(Mul0), m_TruncOrSelf(Mul1))), m_TruncOrSelf(Add0))`:
the bindings `(Mul0, Mul1, Add0)` when `V` matches. -/
def m_Muladd (M : Module) (V : Value) : Option (Value × Value × Value) :=
  match M.getInst V with
  | some ⟨_, _, _, .binop .add lhs rhs⟩ =>
    if M.hasOneUse lhs then
      match M.getInst lhs with
      | some ⟨_, _, _, .binop .mul a b⟩ =>
        some (m_TruncOrSelf M a, m_TruncOrSelf M b, m_TruncOrSelf M rhs)
      | _ => none
    else none
  | _ => none

/-- Source `isGetGlobalIDPattern(V)`: the dimension argument when `V` is the
root of the idiom, `none` (the null pointer) when it is not. -/
def isGetGlobalIDPattern (M : Module) (V : Value) : Except Fatal (Option Value) :=
  match m_Muladd M V with
  | some (Mul0, Mul1, Add0) =>
    if ((isaFnCall M Mul0 GetGroupId && isaFnCall M Mul1 GetLocalSize) ||
        (isaFnCall M Mul1 GetGroupId && isaFnCall M Mul0 GetLocalSize)) &&
        isaFnCall M Add0 GetLocalId then
      match getCallOperand M Mul0 0 with
      | .error e => .error e
      | .ok Arg0 =>
      match getCallOperand M Mul1 0 with
      | .error e => .error e
      | .ok Arg1 =>
      match getCallOperand M Add0 0 with
      | .error e => .error e
      | .ok Arg2 =>
        if Arg0 != Arg1 || Arg1 != Arg2 then .ok none
        else .ok (some Arg0)
    else .ok none
  | none => .ok none


/-! ## The IR operations the driver performs -/

/-- Apply `f` to element `i` of a list; the list is unchanged when it has no
such element. -/
def modifyAt {α : Type} (f : α → α) : Nat → List α → List α
  | _, [] => []
  | 0, x :: xs => f x :: xs
  | i + 1, x :: xs => x :: modifyAt f i xs

/-- Insert `x` before element `i` of a list (at the end when `i` is the
length). -/
def insertAt {α : Type} (x : α) : Nat → List α → List α
  | 0, xs => x :: xs
  | _ + 1, [] => []
  | i + 1, y :: ys => y :: insertAt x i ys

/-- The instruction at index `ii` of block `bi` of function `fi`. -/
def Module.instAt (M : Module) (fi bi ii : Nat) : Option Instruction :=
  match M.functions[fi]? with
  | none => none
  | some F =>
    match F.blocks[bi]? with
    | none => none
    | some BB => BB.insts[ii]?

/-- The number of blocks of function `fi`. -/
def Module.numBlocks (M : Module) (fi : Nat) : Nat :=
  match M.functions[fi]? with
  | none => 0
  | some F => F.blocks.length

/-- The number of instructions of block `bi` of function `fi`. -/
def Module.blockSize (M : Module) (fi bi : Nat) : Nat :=
  match M.functions[fi]? with
  | none => 0
  | some F =>
    match F.blocks[bi]? with
    | none => 0
    | some BB => BB.insts.length

/-- Insert `New` into block `bi` of function `fi`, before the instruction at
index `ii` (the `InsertBefore` argument of the instruction constructors). -/
def Module.insertBefore (M : Module) (fi bi ii : Nat) (New : Instruction) : Module :=
  { functions := modifyAt (fun F =>
      { F with blocks := modifyAt (fun BB => { insts := insertAt New ii BB.insts }) bi F.blocks })
      fi M.functions }

/-- The instruction with every operand slot holding `Old` set to `New`. -/
def Shape.replaceUsesOfWith (Old New : Value) : Shape → Shape
  | .binop op lhs rhs =>
    .binop op (if lhs = Old then New else lhs) (if rhs = Old then New else rhs)
  | .cast op src => .cast op (if src = Old then New else src)
  | .call fty args callee =>
    .call fty (args.map (fun a => if a = Old then New else a))
      (if callee = Old then New else callee)
  | .otherInst opcode ops => .otherInst opcode (ops.map (fun a => if a = Old then New else a))

/-- The instruction with every operand slot holding `Old` set to `New`
(`User::replaceUsesOfWith`). -/
def Instruction.replaceUsesOfWith (Old New : Value) (I : Instruction) : Instruction :=
  { I with shape := I.shape.replaceUsesOfWith Old New }

/-- Apply `f` to every instruction of a block. -/
def BasicBlock.mapInsts (f : Instruction → Instruction) (BB : BasicBlock) : BasicBlock :=
  { insts := BB.insts.map f }

/-- Apply `f` to every instruction of a function. -/
def Function.mapInsts (f : Instruction → Instruction) (F : Function) : Function :=
  { F with blocks := F.blocks.map (BasicBlock.mapInsts f) }

/-- Apply `f` to every instruction of a module. -/
def Module.mapInsts (f : Instruction → Instruction) (M : Module) : Module :=
  { functions := M.functions.map (Function.mapInsts f) }

/-- The method `Value::replaceAllUsesWith`: every operand slot of the module
that holds `Old` is set to `New`. -/
def Module.replaceAllUsesWith (M : Module) (Old New : Value) : Module :=
  M.mapInsts (Instruction.replaceUsesOfWith Old New)

/-- One more than the identity when the value is an instruction. -/
def Value.instBound : Value → Nat
  | .inst n => n + 1
  | _ => 0

/-- One more than the identity when the value is a function. -/
def Value.funcBound : Value → Nat
  | .func n => n + 1
  | _ => 0

/-- The identity a newly allocated instruction gets: one no instruction of the
module has and no operand slot refers to. -/
def Module.freshInstId (M : Module) : Nat :=
  (M.insts.map (fun I => max (I.id + 1) ((I.operands.map Value.instBound).foldr max 0))).foldr max 0

/-- The identity a newly allocated function gets: one no function of the
module has and no operand slot refers to. -/
def Module.freshFuncId (M : Module) : Nat :=
  max ((M.functions.map (fun F => F.id + 1)).foldr max 0)
    ((M.insts.map (fun I => (I.operands.map Value.funcBound).foldr max 0)).foldr max 0)

/-- A `FunctionCallee`: a function type and the value to call. -/
structure FunctionCallee where
  fty : FunctionType
  callee : Value
  deriving DecidableEq, Repr

/-- The method `Module::getOrInsertFunction(Name, RetTy, ParamTy)`: the function
of that name when the module has one, else a new declaration appended to the
function list.  The callee carries the requested function type in both cases. -/
def Module.getOrInsertFunction (M : Module) (Name : String) (FTy : FunctionType) :
    Module × FunctionCallee :=
  match M.functions.find? (fun F => F.name == Name) with
  | some F => (M, ⟨FTy, .func F.id⟩)
  | none =>
    ({ functions := M.functions ++ [⟨M.freshFuncId, Name, FTy, []⟩] },
      ⟨FTy, .func M.freshFuncId⟩)

/-- The constructor `CallInst::Create(Callee, Args, Name, InsertBefore)`: a new
call, inserted before the instruction at `(fi, bi, ii)`.  Returns the module
and the new instruction, which then sits at index `ii`. -/
def CallInst.Create (M : Module) (Callee : FunctionCallee) (Args : List Value)
    (Name : String) (fi bi ii : Nat) : Module × Instruction :=
  let CI : Instruction := ⟨M.freshInstId, Name, Callee.fty.ret, .call Callee.fty Args Callee.callee⟩
  (M.insertBefore fi bi ii CI, CI)

/-- The constructor `CastInst::CreateTruncOrBitCast(S, Ty, Name, InsertBefore)`:
a `bitcast` when the scalar sizes agree, else a `trunc`, inserted before the
instruction at `(fi, bi, ii)`. -/
def CastInst.CreateTruncOrBitCast (M : Module) (S : Instruction) (Ty : Ty)
    (Name : String) (fi bi ii : Nat) : Module × Instruction :=
  let Op : CastOp :=
    if S.ty.getScalarSizeInBits = Ty.getScalarSizeInBits then .bitcast else .trunc
  let CI : Instruction := ⟨M.freshInstId, Name, Ty, .cast Op S.value⟩
  (M.insertBefore fi bi ii CI, CI)


/-! ## The pass: cast helper and driver -/

/-- Source `createTruncOrSelf(V, Ty, InsertBefore)`: `V` itself when it already
has type `Ty`, else a new cast of `V` to `Ty` inserted before the instruction
at `(fi, bi, ii)`.  Returns the module, the resulting value, and the number of
instructions inserted (0 or 1). -/
def createTruncOrSelf (M : Module) (V : Instruction) (Ty : Ty) (fi bi ii : Nat) :
    Module × Value × Nat :=
  if V.ty = Ty then (M, V.value, 0)
  else
    let R := CastInst.CreateTruncOrBitCast M V Ty "" fi bi ii
    (R.1, R.2.value, 1)

/-- The result of the pass: which analyses are preserved. -/
inductive PreservedAnalyses where
  | none
  | all
  deriving DecidableEq, Repr

/-- A record of one rewrite: the matched instruction as it was when matched,
the dimension value, the inserted call, and the value that replaced the matched
instruction. -/
structure Rewritten where
  I : Instruction
  Dim : Value
  GIDCall : Value
  CastedGID : Value
  deriving DecidableEq, Repr

/-- The state of the driver: the module, the flag `Changed`, and a log of the
rewrites done so far, oldest first.  The log is not in the source; it records
what the loop body did so that properties of the rewrites can be stated. -/
structure PassState where
  M : Module
  Changed : Bool
  log : List Rewritten
  deriving DecidableEq, Repr

/-- The type `IntegerType::get(M.getContext(), 32)`. -/
def I32Ty : Ty := .int 32
/-- The type `IntegerType::get(M.getContext(), 64)`. -/
def I64Ty : Ty := .int 64

/-- The body of the `if` in the loop of `run`, for the instruction `I` at
`(fi, bi, ii)` with matched dimension `Dim`: get or insert the declaration,
create the call before `I`, cast it to the type of `I`, replace all uses of
`I`, set `Changed`.  Returns the state and the number of instructions inserted
before `I` (1 or 2). -/
def rewriteMatch (S : PassState) (fi bi ii : Nat) (I : Instruction) (Dim : Value) :
    PassState × Nat :=
  let GIDFn := S.M.getOrInsertFunction GetGlobalId ⟨I64Ty, [I32Ty]⟩
  let GIDCall := CallInst.Create GIDFn.1 GIDFn.2 [Dim] "gid" fi bi ii
  let CastedGID := createTruncOrSelf GIDCall.1 GIDCall.2 I.ty fi bi (ii + 1)
  let M4 := CastedGID.1.replaceAllUsesWith I.value CastedGID.2.1
  (⟨M4, true, S.log ++ [⟨I, Dim, GIDCall.2.value, CastedGID.2.1⟩]⟩, CastedGID.2.2 + 1)

/-- The first three statements of the body of the `if` in the loop of `run`,
before `replaceAllUsesWith`: the module with the declaration, the call and the
cast, and the value that will replace `I`. -/
def insertCallAndCast (S : PassState) (fi bi ii : Nat) (I : Instruction) (Dim : Value) :
    Module × Value :=
  let GIDFn := S.M.getOrInsertFunction GetGlobalId ⟨I64Ty, [I32Ty]⟩
  let GIDCall := CallInst.Create GIDFn.1 GIDFn.2 [Dim] "gid" fi bi ii
  let CastedGID := createTruncOrSelf GIDCall.1 GIDCall.2 I.ty fi bi (ii + 1)
  (CastedGID.1, CastedGID.2.1)

/-- The loop `for (auto &I : BB)` of `run` over block `bi` of function `fi`,
from the instruction at index `ii` on, with `r` instructions left to visit.
Instructions are inserted before the current one only, so after a rewrite that
inserted `k` instructions the current instruction is at `ii + k` and the next
one at `ii + k + 1`; the inserted ones are not visited. -/
def runInsts (fi bi : Nat) : Nat → Nat → PassState → Except Fatal PassState
  | 0, _, S => .ok S
  | r + 1, ii, S =>
    match S.M.instAt fi bi ii with
    | none => .ok S
    | some I =>
      match isGetGlobalIDPattern S.M I.value with
      | .error e => .error e
      | .ok none => runInsts fi bi r (ii + 1) S
      | .ok (some Dim) =>
        runInsts fi bi r (ii + (rewriteMatch S fi bi ii I Dim).2 + 1)
          (rewriteMatch S fi bi ii I Dim).1

/-- The loop `for (auto &BB : F)` of `run` over function `fi`, from block `bi`
on, with `r` blocks left to visit. -/
def runBlocks (fi : Nat) : Nat → Nat → PassState → Except Fatal PassState
  | 0, _, S => .ok S
  | r + 1, bi, S =>
    match runInsts fi bi (S.M.blockSize fi bi) 0 S with
    | .error e => .error e
    | .ok S1 => runBlocks fi r (bi + 1) S1

/-- The loop `for (auto &F : M)` of `run`, from function `fi` on, with `r`
functions left to visit. -/
def runFunctions : Nat → Nat → PassState → Except Fatal PassState
  | 0, _, S => .ok S
  | r + 1, fi, S =>
    match runBlocks fi (S.M.numBlocks fi) 0 S with
    | .error e => .error e
    | .ok S1 => runFunctions r (fi + 1) S1

/-- The three loops of `run` on module `M`, starting from `Changed = false`.
The functions visited are those of the module at entry: the one declaration
the body may append has no block, so visiting it runs no iteration
(`runLoops_appended`). -/
def runLoops (M : Module) : Except Fatal PassState :=
  runFunctions M.functions.length 0 ⟨M, false, []⟩

/-- Source `HipThreadIDPatternsPass::run(M, AM)`: the module after the pass and
the preserved analyses, `none` when something changed and `all` when nothing
did. -/
def run (M : Module) : Except Fatal (Module × PreservedAnalyses) :=
  match runLoops M with
  | .error e => .error e
  | .ok S => .ok (S.M, if S.Changed then PreservedAnalyses.none else PreservedAnalyses.all)

/-! ## Vocabulary of the specification -/

/-- The operands of `V` when `V` is an addition. -/
def asAdd (M : Module) (V : Value) : Option (Value × Value) :=
  match M.getInst V with
  | some I => match I.shape with
    | .binop .add lhs rhs => some (lhs, rhs)
    | _ => none
  | none => none

/-- The operands of `V` when `V` is a multiplication. -/
def asMul (M : Module) (V : Value) : Option (Value × Value) :=
  match M.getInst V with
  | some I => match I.shape with
    | .binop .mul a b => some (a, b)
    | _ => none
  | none => none

/-- The operand of `V` when `V` is a truncation. -/
def asTrunc (M : Module) (V : Value) : Option Value :=
  match M.getInst V with
  | some I => match I.shape with
    | .cast .trunc src => some src
    | _ => none
  | none => none

/-- The function type, arguments and called operand of `V` when `V` is a call. -/
def asCall (M : Module) (V : Value) : Option (FunctionType × List Value × Value) :=
  match M.getInst V with
  | some I => match I.shape with
    | .call fty args callee => some (fty, args, callee)
    | _ => none
  | none => none

/-- `Y` is `X` after unwrapping at most one truncation. -/
def Unwraps (M : Module) (X Y : Value) : Prop :=
  Y = X ∨ asTrunc M X = some Y

instance (M : Module) (X Y : Value) : Decidable (Unwraps M X Y) := by
  unfold Unwraps
  infer_instance

/-- The function `V` calls directly, when `V` is a call whose called operand is
a function of the type of the call. -/
def directCallee (M : Module) (V : Value) : Option Function :=
  match asCall M V with
  | none => none
  | some (fty, _, callee) => M.getCalledFunction fty callee

/-- `V` is a direct call to a function that has a name, and the name is `N`. -/
def DirectCallTo (M : Module) (V : Value) (N : String) : Prop :=
  match directCallee M V with
  | none => False
  | some F => F.name ≠ "" ∧ F.name = N

instance (M : Module) (V : Value) (N : String) : Decidable (DirectCallTo M V N) :=
  match h : directCallee M V with
  | none => isFalse (by unfold DirectCallTo; rw [h]; exact id)
  | some F => decidable_of_iff (F.name ≠ "" ∧ F.name = N) (by unfold DirectCallTo; rw [h])

/-- Operand 0 of the call `V`. -/
def operand0 (M : Module) (V : Value) : Option Value :=
  match asCall M V with
  | some (_, args, callee) => (args ++ [callee]).head?
  | none => none

/-- The idiom as the specification words it: `V` is an addition, its left
operand a multiplication with exactly one use, the multiplication operands
unwrap to direct calls to the group-index and group-size functions in either
order, the right operand unwraps to a direct call to the local-index function,
and operand 0 of the three calls is the one value `d`. -/
def GlobalIDIdiom (M : Module) (V d : Value) : Prop :=
  ∃ lhs rhs a b ca cb cc,
    asAdd M V = some (lhs, rhs) ∧ asMul M lhs = some (a, b) ∧ M.numUses lhs = 1 ∧
    Unwraps M a ca ∧ Unwraps M b cb ∧ Unwraps M rhs cc ∧
    ((DirectCallTo M ca GetGroupId ∧ DirectCallTo M cb GetLocalSize) ∨
      (DirectCallTo M cb GetGroupId ∧ DirectCallTo M ca GetLocalSize)) ∧
    DirectCallTo M cc GetLocalId ∧
    operand0 M ca = some d ∧ operand0 M cb = some d ∧ operand0 M cc = some d

/-- The instruction with its two operands exchanged when it is the
multiplication of identity `n`. -/
def Instruction.commuteMul (n : Nat) (I : Instruction) : Instruction :=
  match I.shape with
  | .binop .mul a b => if I.id = n then { I with shape := .binop .mul b a } else I
  | _ => I

/-- The module with the operands of the multiplication of identity `n`
exchanged: `mul a b` becomes `mul b a`. -/
def Module.commuteMul (M : Module) (n : Nat) : Module :=
  M.mapInsts (Instruction.commuteMul n)

/-! ## Example modules -/

/-- The function type `i64 (i32)` of the work-item functions. -/
def exFty : FunctionType := ⟨.int 64, [.int 32]⟩

/-- Declarations of the three recognised functions. -/
def exDecls : List Function :=
  [⟨0, GetGroupId, exFty, []⟩, ⟨1, GetLocalSize, exFty, []⟩, ⟨2, GetLocalId, exFty, []⟩]

/-- The three recognised calls on dimension `d0`, `d1`, `d2`, each truncated
to 32 bits: instructions 0 to 5. -/
def exCalls (d0 d1 d2 : Value) : List Instruction :=
  [⟨0, "g", .int 64, .call exFty [d0] (.func 0)⟩,
   ⟨1, "s", .int 64, .call exFty [d1] (.func 1)⟩,
   ⟨2, "l", .int 64, .call exFty [d2] (.func 2)⟩,
   ⟨3, "tg", .int 32, .cast .trunc (.inst 0)⟩,
   ⟨4, "ts", .int 32, .cast .trunc (.inst 1)⟩,
   ⟨5, "tl", .int 32, .cast .trunc (.inst 2)⟩]

/-- A module with the declarations and one function of one block. -/
def exModule (body : List Instruction) : Module :=
  ⟨exDecls ++ [⟨3, "kernel", ⟨.void, []⟩, [⟨body⟩]⟩]⟩

/-- The end-to-end scenario of the specification: for dimension 0,
`trunc(get_group_id(0)) * trunc(get_local_size(0)) + trunc(get_local_id(0))`
with a 32-bit result, used by one further instruction. -/
def exE2E : Module :=
  exModule (exCalls (.other 0) (.other 0) (.other 0) ++
    [⟨6, "m", .int 32, .binop .mul (.inst 3) (.inst 4)⟩,
     ⟨7, "a", .int 32, .binop .add (.inst 6) (.inst 5)⟩,
     ⟨8, "u", .void, .otherInst 33 [.inst 7, .other 9]⟩])

/-- The idiom with group index on dimension 0 and group size on dimension 1. -/
def exMixedDims : Module :=
  exModule (exCalls (.other 0) (.other 1) (.other 0) ++
    [⟨6, "m", .int 32, .binop .mul (.inst 3) (.inst 4)⟩,
     ⟨7, "a", .int 32, .binop .add (.inst 6) (.inst 5)⟩,
     ⟨8, "u", .void, .otherInst 33 [.inst 7, .other 9]⟩])

/-- The idiom with a multiplication that has a second use. -/
def exTwoUses : Module :=
  exModule (exCalls (.other 0) (.other 0) (.other 0) ++
    [⟨6, "m", .int 32, .binop .mul (.inst 3) (.inst 4)⟩,
     ⟨7, "a", .int 32, .binop .add (.inst 6) (.inst 5)⟩,
     ⟨8, "u", .void, .otherInst 33 [.inst 7, .inst 6]⟩])

/-- The idiom shape with the group-index call as the addend. -/
def exBadAddend : Module :=
  exModule (exCalls (.other 0) (.other 0) (.other 0) ++
    [⟨6, "m", .int 32, .binop .mul (.inst 3) (.inst 4)⟩,
     ⟨7, "a", .int 32, .binop .add (.inst 6) (.inst 3)⟩,
     ⟨8, "u", .void, .otherInst 33 [.inst 7, .other 9]⟩])

/-- The module `exE2E` after one run of the pass: the declaration of
`get_global_id` is appended, the call and its truncation stand before the
addition, and the user of the addition uses the truncation. -/
def exE2EAfter : Module :=
  ⟨exDecls ++ [⟨3, "kernel", ⟨.void, []⟩, [⟨exCalls (.other 0) (.other 0) (.other 0) ++
    [⟨6, "m", .int 32, .binop .mul (.inst 3) (.inst 4)⟩,
     ⟨9, "gid", .int 64, .call exFty [.other 0] (.func 4)⟩,
     ⟨10, "", .int 32, .cast .trunc (.inst 9)⟩,
     ⟨7, "a", .int 32, .binop .add (.inst 6) (.inst 5)⟩,
     ⟨8, "u", .void, .otherInst 33 [.inst 10, .other 9]⟩]⟩]⟩,
    ⟨4, GetGlobalId, exFty, []⟩]⟩

/-- The commuted form of the idiom: the call to `get_local_id` (truncated) is
the left operand of the addition and the multiplication is the right one. -/
def exCommutedAdd : Module :=
  exModule (exCalls (.other 0) (.other 0) (.other 0) ++
    [⟨6, "m", .int 32, .binop .mul (.inst 3) (.inst 4)⟩,
     ⟨7, "a", .int 32, .binop .add (.inst 5) (.inst 6)⟩,
     ⟨8, "u", .void, .otherInst 33 [.inst 7, .other 9]⟩])

/-- The commuted form on 64-bit values: the call to `get_local_id` itself is
the left operand of the addition. -/
def exCommutedAdd64 : Module :=
  exModule
    [⟨0, "g", .int 64, .call exFty [.other 0] (.func 0)⟩,
     ⟨1, "s", .int 64, .call exFty [.other 0] (.func 1)⟩,
     ⟨2, "l", .int 64, .call exFty [.other 0] (.func 2)⟩,
     ⟨6, "m", .int 64, .binop .mul (.inst 0) (.inst 1)⟩,
     ⟨7, "a", .int 64, .binop .add (.inst 2) (.inst 6)⟩,
     ⟨8, "u", .void, .otherInst 33 [.inst 7, .other 9]⟩]

/-- The expression `a * b + c` on three values that are not calls. -/
def exNoMatch : Module :=
  exModule
    [⟨6, "m", .int 32, .binop .mul (.other 1) (.other 2)⟩,
     ⟨7, "a", .int 32, .binop .add (.inst 6) (.other 3)⟩,
     ⟨8, "u", .void, .otherInst 33 [.inst 7, .other 9]⟩]

/-! ## A module seen from one of its blocks -/

/-- The module whose functions are `Fs1`, then `F` with blocks `Bs1`, a block
of instructions `l`, and `Bs2`, then `Fs2`. -/
def plug (Fs1 : List Function) (F : Function) (Bs1 : List BasicBlock) (l : List Instruction)
    (Bs2 : List BasicBlock) (Fs2 : List Function) : Module :=
  ⟨Fs1 ++ { F with blocks := Bs1 ++ ⟨l⟩ :: Bs2 } :: Fs2⟩

/-! ## The instructions the loop body creates -/

/-- The call to `get_global_id` the loop body creates, with identity `n`. -/
def gidCall (n : Nat) (Dim callee : Value) : Instruction :=
  ⟨n, "gid", I64Ty, .call ⟨I64Ty, [I32Ty]⟩ [Dim] callee⟩

/-- The cast of the call `src` to `Ty` the loop body creates, with identity `n`. -/
def gidCast (n : Nat) (Ty : Ty) (src : Value) : Instruction :=
  ⟨n, "", Ty,
    .cast (if I64Ty.getScalarSizeInBits = Ty.getScalarSizeInBits then .bitcast else .trunc) src⟩

/-- The instructions the loop body inserts before an instruction of type `Ty`:
the call, and the cast when `Ty` is not the 64-bit integer type. -/
def newInsts (n1 n2 : Nat) (Ty : Ty) (Dim callee : Value) : List Instruction :=
  if Ty = I64Ty then [gidCall n1 Dim callee]
  else [gidCall n1 Dim callee, gidCast n2 Ty (.inst n1)]

/-- The value the loop body substitutes for an instruction of type `Ty`. -/
def newValue (n1 n2 : Nat) (Ty : Ty) : Value :=
  if Ty = I64Ty then .inst n1 else .inst n2

/-! ## Invariants of the loops -/

/-- A property of the state that every rewrite preserves. -/
def StepInvariant (P : PassState → Prop) : Prop :=
  ∀ (S : PassState) (fi bi ii : Nat) (I : Instruction) (Dim : Value), P S →
    S.M.instAt fi bi ii = some I → isGetGlobalIDPattern S.M I.value = .ok (some Dim) →
    P (rewriteMatch S fi bi ii I Dim).1


/-! ## Vocabulary for the uses of a rewritten instruction -/

/-- The value that stands for `v` after the rewrites of `log`: the replacement
recorded for `v` when `v` was rewritten, and `v` itself when it was not. -/
def replacementOf (log : List Rewritten) (v : Value) : Value :=
  match log.find? (fun e => e.I.value == v) with
  | some e => e.CastedGID
  | none => v

/-- Every operand slot that holds an instruction holds an instruction of the
module. -/
def Closed (M : Module) : Prop :=
  ∀ J ∈ M.insts, ∀ n, Value.inst n ∈ J.operands → (M.getInst (.inst n)).isSome = true

/-- What the log records about types: for every rewrite, the inserted call is
in the module with the 64-bit integer type and function type `i64 (i32)`, the
replacement value is in the module with the type of the matched instruction,
it is the call itself when that type is the 64-bit integer type, and it is a
truncation of the call when that type is a narrower integer type. -/
def LogTyped (S : PassState) : Prop :=
  ∀ e ∈ S.log, ∃ G C, S.M.getInst e.GIDCall = some G ∧ G.ty = I64Ty ∧
    (∃ args callee, G.shape = .call ⟨I64Ty, [I32Ty]⟩ args callee) ∧
    S.M.getInst e.CastedGID = some C ∧ C.ty = e.I.ty ∧
    (e.I.ty = I64Ty → e.CastedGID = e.GIDCall) ∧
    (∀ w, e.I.ty = .int w → w < 64 → C.shape = .cast .trunc e.GIDCall)

/-- The number of instructions the rewrites of a log inserted: one for a
matched instruction of the 64-bit integer type, two for any other. -/
def insertedCount (log : List Rewritten) : Nat :=
  (log.map (fun e => if e.I.ty = I64Ty then 1 else 2)).sum

/-- What the log records about uses: every rewritten instruction has no use
left, it is older than any instruction yet to be created, and its replacement
is an instruction of the module that is not an addition. -/
def LogUses (S : PassState) : Prop :=
  ∀ e ∈ S.log, S.M.numUses e.I.value = 0 ∧ e.I.id < S.M.freshInstId ∧
    ∃ C, S.M.getInst e.CastedGID = some C ∧ ∀ lhs rhs, C.shape ≠ .binop .add lhs rhs

/-- Every operand slot of the module `M0` at entry is still there and holds
what stands for its old value after the rewrites of the log. -/
def SlotsFollow (M0 : Module) (S : PassState) : Prop :=
  ∀ (n : Nat) (U : Instruction) (k : Nat) (v : Value),
    M0.getInst (.inst n) = some U → U.operands[k]? = some v →
    ∃ U', S.M.getInst (.inst n) = some U' ∧ U'.operands[k]? = some (replacementOf S.log v)

/-! ## Values computed by the instructions of the idiom -/

/-- The type of a value that is an instruction of the module. -/
def typeOf (M : Module) (V : Value) : Option Ty :=
  match M.getInst V with
  | some J => some J.ty
  | none => none

/-- The value `V` has type `t` when it is an instruction of the module. The
model records no type for a constant or an argument, so such a value agrees
with every type. -/
def typeAgrees (M : Module) (V : Value) (t : Ty) : Prop :=
  match typeOf M V with
  | some t' => t' = t
  | none => True

instance (M : Module) (V : Value) (t : Ty) : Decidable (typeAgrees M V t) := by
  unfold typeAgrees
  split <;> infer_instance

/-- The verifier rule for a binary operator, as far as the model records
types: an operand that is an instruction of the module has the type of the
result. An operand that is a constant or an argument is not constrained. -/
def Instruction.binopTyped (M : Module) (J : Instruction) : Prop :=
  match J.shape with
  | .binop _ a b => typeAgrees M a J.ty ∧ typeAgrees M b J.ty
  | _ => True

instance (M : Module) (J : Instruction) : Decidable (J.binopTyped M) := by
  unfold Instruction.binopTyped
  split <;> infer_instance

/-- The addition of the end-to-end scenario. -/
def exAdd : Instruction := ⟨7, "a", .int 32, .binop .add (.inst 6) (.inst 5)⟩

/-- The state of the driver at entry on the end-to-end scenario. -/
def exState : PassState := ⟨exE2E, false, []⟩

/-- The end-to-end scenario in a block that also adds a constant to the result
and truncates an argument: `add i32 %a, 1` and `trunc i64 %x to i32`. -/
def exE2EConst : Module :=
  exModule (exCalls (.other 0) (.other 0) (.other 0) ++
    [⟨6, "m", .int 32, .binop .mul (.inst 3) (.inst 4)⟩,
     ⟨7, "a", .int 32, .binop .add (.inst 6) (.inst 5)⟩,
     ⟨8, "c", .int 32, .binop .add (.inst 7) (.other 1)⟩,
     ⟨9, "t", .int 32, .cast .trunc (.other 2)⟩,
     ⟨10, "u", .void, .otherInst 33 [.inst 8, .inst 9]⟩])

/-- The instructions that stand before position `(fi, bi, ii)` in the order of
the traversal: those of the functions before `fi`, of the blocks of `fi`
before `bi`, and the first `ii` of block `bi`. -/
def visitedBefore (M : Module) (fi bi ii : Nat) : List Instruction :=
  (M.functions.take fi).flatMap Function.insts ++
    match M.functions[fi]? with
    | none => []
    | some F =>
      (F.blocks.take bi).flatMap BasicBlock.insts ++
        match F.blocks[bi]? with
        | none => []
        | some B => B.insts.take ii

/-- A property of the state and of the instructions before the cursor that
moving past an instruction without a match preserves and that a rewrite
preserves. -/
def CursorInvariant (P : PassState → List Instruction → Prop) : Prop :=
  (∀ (S : PassState) (fi bi ii : Nat) (I : Instruction),
    P S (visitedBefore S.M fi bi ii) → S.M.instAt fi bi ii = some I →
    isGetGlobalIDPattern S.M I.value = .ok none → P S (visitedBefore S.M fi bi (ii + 1))) ∧
  (∀ (S : PassState) (fi bi ii : Nat) (I : Instruction) (Dim : Value),
    P S (visitedBefore S.M fi bi ii) → S.M.instAt fi bi ii = some I →
    isGetGlobalIDPattern S.M I.value = .ok (some Dim) →
    P (rewriteMatch S fi bi ii I Dim).1
      (visitedBefore (rewriteMatch S fi bi ii I Dim).1.M fi bi
        (ii + (rewriteMatch S fi bi ii I Dim).2 + 1)))

/-- What the log records about the order of the traversal: the instructions of
the module have distinct identities, every rewritten instruction stands before
the cursor, and no instruction was rewritten twice. -/
def LogOnce (S : PassState) (before : List Instruction) : Prop :=
  (S.M.insts.map (fun J => J.id)).Nodup ∧
  (∀ e ∈ S.log, e.I.id ∈ before.map (fun J => J.id)) ∧
  (S.log.map (fun e => e.I.id)).Nodup

/-- The record of a rewrite with the operands of the multiplication of identity
`n` exchanged in the matched instruction. -/
def Rewritten.commuteMul (n : Nat) (e : Rewritten) : Rewritten :=
  { e with I := e.I.commuteMul n }

/-- The state of the driver with the operands of the multiplication of identity
`n` exchanged. -/
def PassState.commuteMul (n : Nat) (S : PassState) : PassState :=
  ⟨S.M.commuteMul n, S.Changed, S.log.map (Rewritten.commuteMul n)⟩

/-! ## Vocabulary for the frame of a run -/

/-- What identifies a function apart from its body: identity, name and
function type. -/
def Function.header (F : Function) : Nat × String × FunctionType := (F.id, F.name, F.fty)

/-- The opcode of an instruction. -/
inductive Opcode where
  | binop (op : BinOp)
  | cast (op : CastOp)
  | call
  | otherInst (opcode : Nat)
  deriving DecidableEq, Repr

/-- The opcode of a shape. -/
def Shape.opcode : Shape → Opcode
  | .binop op _ _ => .binop op
  | .cast op _ => .cast op
  | .call _ _ _ => .call
  | .otherInst opcode _ => .otherInst opcode

/-- What identifies an instruction apart from its operands: identity, name,
type and opcode. -/
def Instruction.frame (J : Instruction) : Nat × String × Ty × Opcode :=
  (J.id, J.name, J.ty, J.shape.opcode)

/-- The instructions of block `bi` of function `fi`, none when there is no
such block. -/
def Module.blockInsts (M : Module) (fi bi : Nat) : List Instruction :=
  match M.functions[fi]? with
  | none => []
  | some F =>
    match F.blocks[bi]? with
    | none => []
    | some BB => BB.insts

/-- Whether the matcher returns a dimension on `V`. -/
def isMatch (M : Module) (V : Value) : Bool :=
  match isGetGlobalIDPattern M V with
  | .ok (some _) => true
  | _ => false

/-! ## The loops with a trace of the instructions visited -/

/-- The loop `runInsts` with a trace: the value of every instruction the loop
condition `isGetGlobalIDPattern(&I)` is evaluated on is appended to the trace.
The trace is not in the source; it records the order of the traversal. -/
def runInstsTraced (fi bi : Nat) :
    Nat → Nat → PassState → List Value → Except Fatal (PassState × List Value)
  | 0, _, S, tr => .ok (S, tr)
  | r + 1, ii, S, tr =>
    match S.M.instAt fi bi ii with
    | none => .ok (S, tr)
    | some I =>
      match isGetGlobalIDPattern S.M I.value with
      | .error e => .error e
      | .ok none => runInstsTraced fi bi r (ii + 1) S (tr ++ [I.value])
      | .ok (some Dim) =>
        runInstsTraced fi bi r (ii + (rewriteMatch S fi bi ii I Dim).2 + 1)
          (rewriteMatch S fi bi ii I Dim).1 (tr ++ [I.value])

/-- The loop `runBlocks` with the trace. -/
def runBlocksTraced (fi : Nat) :
    Nat → Nat → PassState → List Value → Except Fatal (PassState × List Value)
  | 0, _, S, tr => .ok (S, tr)
  | r + 1, bi, S, tr =>
    match runInstsTraced fi bi (S.M.blockSize fi bi) 0 S tr with
    | .error e => .error e
    | .ok T => runBlocksTraced fi r (bi + 1) T.1 T.2

/-- The loop `runFunctions` with the trace. -/
def runFunctionsTraced :
    Nat → Nat → PassState → List Value → Except Fatal (PassState × List Value)
  | 0, _, S, tr => .ok (S, tr)
  | r + 1, fi, S, tr =>
    match runBlocksTraced fi (S.M.numBlocks fi) 0 S tr with
    | .error e => .error e
    | .ok T => runFunctionsTraced r (fi + 1) T.1 T.2

/-- The three loops of `run` on module `M` with the trace, which starts
empty. -/
def runLoopsTraced (M : Module) : Except Fatal (PassState × List Value) :=
  runFunctionsTraced M.functions.length 0 ⟨M, false, []⟩ []

/-- A property of the state, of the trace and of the instructions before the
cursor that moving past an instruction without a match preserves and that a
rewrite preserves. -/
def TracedInvariant (Q : PassState → List Value → List Instruction → Prop) : Prop :=
  (∀ (S : PassState) (tr : List Value) (fi bi ii : Nat) (I : Instruction),
    Q S tr (visitedBefore S.M fi bi ii) → S.M.instAt fi bi ii = some I →
    isGetGlobalIDPattern S.M I.value = .ok none →
    Q S (tr ++ [I.value]) (visitedBefore S.M fi bi (ii + 1))) ∧
  (∀ (S : PassState) (tr : List Value) (fi bi ii : Nat) (I : Instruction) (Dim : Value),
    Q S tr (visitedBefore S.M fi bi ii) → S.M.instAt fi bi ii = some I →
    isGetGlobalIDPattern S.M I.value = .ok (some Dim) →
    Q (rewriteMatch S fi bi ii I Dim).1 (tr ++ [I.value])
      (visitedBefore (rewriteMatch S fi bi ii I Dim).1.M fi bi
        (ii + (rewriteMatch S fi bi ii I Dim).2 + 1)))

/-- The state of a traversal of `M0` with the cursor after the instructions
`before`: the instructions of `M0` split into those done and those to do; the
instructions after the cursor are those to do, up to operands; the trace is
the instructions done; the log is the instructions done that match in `M0`;
the same values match as in `M0`; the functions have distinct identities; the
inserted values are not instructions of `M0` and the inserted calls are
distinct; and the functions past the first `n` have no block. -/
def MatchSetInv (M0 : Module) (n : Nat) (S : PassState) (tr : List Value)
    (before : List Instruction) : Prop :=
  ∃ after done todo, S.M.insts = before ++ after ∧ M0.insts = done ++ todo ∧
    after.map Instruction.frame = todo.map Instruction.frame ∧
    tr = done.map Instruction.value ∧
    S.log.map (fun e => e.I.frame) =
      (done.filter (fun J => isMatch M0 J.value)).map Instruction.frame ∧
    (∀ V, isMatch S.M V = isMatch M0 V) ∧
    (S.M.functions.map (fun F => F.id)).Nodup ∧
    M0.freshInstId ≤ S.M.freshInstId ∧
    (∀ e ∈ S.log, ∃ n1 n2, M0.freshInstId ≤ n1 ∧ n1 < S.M.freshInstId ∧
      M0.freshInstId ≤ n2 ∧ e.GIDCall = .inst n1 ∧ e.CastedGID = .inst n2) ∧
    (S.log.map (fun e => e.GIDCall)).Nodup ∧
    n ≤ S.M.functions.length ∧ ∀ fj, n ≤ fj → S.M.numBlocks fj = 0

/-! ## Vocabulary for the validity of the cast -/

/-- The type is an integer type of at most `n` bits. -/
def Ty.isIntUpTo (n : Nat) : Ty → Prop
  | .int w => w ≤ n
  | _ => False

instance (n : Nat) : (t : Ty) → Decidable (t.isIntUpTo n)
  | .int w => inferInstanceAs (Decidable (w ≤ n))
  | .vec _ _ => isFalse (fun h => h)
  | .ptr => isFalse (fun h => h)
  | .void => isFalse (fun h => h)

/-- The rule of the verifier for a truncation, as far as the model records
types: when the source is an instruction of the module, source and result are
integers, or vectors of integers of the same length, and the result is
narrower. A truncation of a constant or an argument is not constrained. -/
def Instruction.truncTyped (M : Module) (J : Instruction) : Prop :=
  match J.shape with
  | .cast .trunc src =>
    match typeOf M src, J.ty with
    | none, _ => True
    | some (.int ws), .int wd => wd < ws
    | some (.vec n ws), .vec m wd => n = m ∧ wd < ws
    | _, _ => False
  | _ => True

instance (M : Module) (J : Instruction) : Decidable (J.truncTyped M) := by
  unfold Instruction.truncTyped
  split
  · split <;> infer_instance
  · infer_instance

/-- The calls to the three recognised functions have an integer result of at
most 64 bits. -/
def RecognisedCallsUpTo64 (M : Module) : Prop :=
  ∀ J ∈ M.insts, ∀ N ∈ [GetGroupId, GetLocalSize, GetLocalId],
    DirectCallTo M J.value N → J.ty.isIntUpTo 64

instance (M : Module) : Decidable (RecognisedCallsUpTo64 M) := by
  unfold RecognisedCallsUpTo64
  infer_instance

/-- The frame of a run on the module `M0`: the instructions of `M0` are in
their blocks, in order, with identity, name, type and opcode as in `M0`; every
other instruction of a block is the call or the cast of a rewrite of the log;
every function has the blocks it had; and the functions are those of `M0`,
followed by at most one declaration, named `_Z13get_global_idj` and of type
`i64 (i32)`. -/
def FrameInv (M0 : Module) (S : PassState) : Prop :=
  M0.freshInstId ≤ S.M.freshInstId ∧
  M0.functions.length ≤ S.M.functions.length ∧
  (∀ fi, S.M.numBlocks fi = M0.numBlocks fi) ∧
  (∀ fi bi, ((S.M.blockInsts fi bi).filter (fun J => J.id < M0.freshInstId)).map
    Instruction.frame = (M0.blockInsts fi bi).map Instruction.frame) ∧
  (∀ fi bi, ∀ J ∈ S.M.blockInsts fi bi, M0.freshInstId ≤ J.id →
    ∃ e ∈ S.log, (J.value = e.GIDCall ∧ J.shape.opcode = .call) ∨
      (J.value = e.CastedGID ∧ ∃ op, J.shape.opcode = .cast op)) ∧
  (S.M.functions.map Function.header = M0.functions.map Function.header ∨
    ∃ k, S.M.functions.map Function.header =
      M0.functions.map Function.header ++ [(k, GetGlobalId, ⟨I64Ty, [I32Ty]⟩)])

/-! ## The matcher: characterisation -/

theorem isaFnCall_iff (M : Module) (V : Value) (N : String) :
    isaFnCall M V N = true ↔ DirectCallTo M V N := by
  unfold isaFnCall DirectCallTo directCallee asCall
  cases hI : M.getInst V with
  | none => simp
  | some I =>
    obtain ⟨id, name, ty, shape⟩ := I
    cases shape with
    | call fty args callee =>
      cases hF : M.getCalledFunction fty callee with
      | none => simp [hF]
      | some F =>
        simp only [hF]
        by_cases hn : F.name = ""
        · simp [Function.hasName, hn]
        · simp [Function.hasName, hn]
    | _ => simp

theorem DirectCallTo.asCall_isSome {M : Module} {V : Value} {N : String}
    (h : DirectCallTo M V N) : ∃ c, asCall M V = some c := by
  unfold DirectCallTo directCallee at h
  cases hc : asCall M V with
  | none => simp [hc] at h
  | some c => exact ⟨c, rfl⟩

theorem m_TruncOrSelf_eq (M : Module) (V : Value) :
    m_TruncOrSelf M V = (asTrunc M V).getD V := by
  unfold m_TruncOrSelf asTrunc
  cases hI : M.getInst V with
  | none => simp
  | some I =>
    obtain ⟨id, name, ty, shape⟩ := I
    cases shape with
    | cast op src => cases op <;> simp
    | _ => simp

theorem m_Muladd_eq (M : Module) (V : Value) :
    m_Muladd M V =
      match asAdd M V with
      | none => none
      | some (lhs, rhs) =>
        if M.numUses lhs = 1 then
          match asMul M lhs with
          | none => none
          | some (a, b) => some (m_TruncOrSelf M a, m_TruncOrSelf M b, m_TruncOrSelf M rhs)
        else none := by
  unfold m_Muladd asAdd
  cases hI : M.getInst V with
  | none => simp
  | some I =>
    obtain ⟨id, name, ty, shape⟩ := I
    cases shape with
    | binop op lhs rhs =>
      cases op with
      | add =>
        simp only [Module.hasOneUse, beq_iff_eq]
        by_cases h1 : M.numUses lhs = 1
        · simp only [h1, if_true]
          unfold asMul
          cases hL : M.getInst lhs with
          | none => simp
          | some L =>
            obtain ⟨id2, name2, ty2, shape2⟩ := L
            cases shape2 with
            | binop op2 a b => cases op2 <;> simp
            | _ => simp
        · simp [h1]
      | _ => simp
    | _ => simp

theorem getCallOperand_zero (M : Module) (V : Value) :
    getCallOperand M V 0 =
      match operand0 M V with
      | some d => .ok d
      | none => .error .castToCallInst := by
  unfold getCallOperand operand0 asCall
  cases hI : M.getInst V with
  | none => simp
  | some I =>
    obtain ⟨id, name, ty, shape⟩ := I
    cases shape with
    | call fty args callee => cases args <;> simp
    | _ => simp


theorem asTrunc_eq_none_of_asCall {M : Module} {X : Value}
    {c : FunctionType × List Value × Value} (h : asCall M X = some c) :
    asTrunc M X = none := by
  unfold asCall at h
  unfold asTrunc
  cases hI : M.getInst X with
  | none => simp
  | some I =>
    obtain ⟨id, name, ty, shape⟩ := I
    cases shape with
    | cast op src => simp [hI] at h
    | _ => simp

theorem unwraps_m_TruncOrSelf (M : Module) (X : Value) : Unwraps M X (m_TruncOrSelf M X) := by
  rw [m_TruncOrSelf_eq]
  unfold Unwraps
  cases h : asTrunc M X with
  | none => left; rfl
  | some Y => right; rfl

theorem m_TruncOrSelf_of_unwraps {M : Module} {X Y : Value} {N : String}
    (hu : Unwraps M X Y) (hc : DirectCallTo M Y N) : m_TruncOrSelf M X = Y := by
  rw [m_TruncOrSelf_eq]
  rcases hu with rfl | hu
  · obtain ⟨c, h⟩ := hc.asCall_isSome
    rw [asTrunc_eq_none_of_asCall h]
    rfl
  · rw [hu]
    rfl

theorem operand0_isSome_of_directCall {M : Module} {Y : Value} {N : String}
    (hc : DirectCallTo M Y N) : ∃ d, operand0 M Y = some d := by
  obtain ⟨⟨fty, args, callee⟩, h⟩ := hc.asCall_isSome
  unfold operand0
  rw [h]
  cases args with
  | nil => exact ⟨callee, rfl⟩
  | cons a as => exact ⟨a, rfl⟩

/-- The matcher in terms of the vocabulary: what it returns once the three
bindings are known to be calls with operand 0 `a0`, `a1`, `a2`. -/
theorem isGetGlobalIDPattern_of_bindings {M : Module} {V x y z a0 a1 a2 : Value}
    (hm : m_Muladd M V = some (x, y, z))
    (hxy : (DirectCallTo M x GetGroupId ∧ DirectCallTo M y GetLocalSize) ∨
      (DirectCallTo M y GetGroupId ∧ DirectCallTo M x GetLocalSize))
    (hz : DirectCallTo M z GetLocalId)
    (h0 : operand0 M x = some a0) (h1 : operand0 M y = some a1) (h2 : operand0 M z = some a2) :
    isGetGlobalIDPattern M V = .ok (if a0 = a1 ∧ a1 = a2 then some a0 else none) := by
  have hcond : (((isaFnCall M x GetGroupId && isaFnCall M y GetLocalSize) ||
        (isaFnCall M y GetGroupId && isaFnCall M x GetLocalSize)) &&
        isaFnCall M z GetLocalId) = true := by
    simp only [Bool.and_eq_true, Bool.or_eq_true, isaFnCall_iff]
    exact ⟨hxy, hz⟩
  unfold isGetGlobalIDPattern
  simp only [hm, hcond, if_true, getCallOperand_zero, h0, h1, h2]
  by_cases h : a0 = a1 ∧ a1 = a2
  · obtain ⟨rfl, rfl⟩ := h
    simp
  · rw [if_neg h]
    have : (a0 != a1 || a1 != a2) = true := by
      simp only [Bool.or_eq_true, bne_iff_ne, ne_eq]
      by_contra hc
      push_neg at hc
      exact h hc
    simp [this]

/-- The matcher returns no match when the bindings are not the three
recognised calls. -/
theorem isGetGlobalIDPattern_of_not_calls {M : Module} {V x y z : Value}
    (hm : m_Muladd M V = some (x, y, z))
    (hn : ¬ (((DirectCallTo M x GetGroupId ∧ DirectCallTo M y GetLocalSize) ∨
      (DirectCallTo M y GetGroupId ∧ DirectCallTo M x GetLocalSize)) ∧
      DirectCallTo M z GetLocalId)) :
    isGetGlobalIDPattern M V = .ok none := by
  have hcond : (((isaFnCall M x GetGroupId && isaFnCall M y GetLocalSize) ||
        (isaFnCall M y GetGroupId && isaFnCall M x GetLocalSize)) &&
        isaFnCall M z GetLocalId) = false := by
    rw [← Bool.not_eq_true]
    simp only [Bool.and_eq_true, Bool.or_eq_true, isaFnCall_iff]
    exact hn
  unfold isGetGlobalIDPattern
  simp only [hm, hcond, Bool.false_eq_true, if_false]

/-- The matcher returns no match when the structural pattern fails. -/
theorem isGetGlobalIDPattern_of_no_muladd {M : Module} {V : Value}
    (hm : m_Muladd M V = none) : isGetGlobalIDPattern M V = .ok none := by
  unfold isGetGlobalIDPattern
  simp only [hm]


theorem m_Muladd_eq_some_iff (M : Module) (V x y z : Value) :
    m_Muladd M V = some (x, y, z) ↔
      ∃ lhs rhs a b, asAdd M V = some (lhs, rhs) ∧ asMul M lhs = some (a, b) ∧
        M.numUses lhs = 1 ∧ x = m_TruncOrSelf M a ∧ y = m_TruncOrSelf M b ∧
        z = m_TruncOrSelf M rhs := by
  rw [m_Muladd_eq]
  cases hA : asAdd M V with
  | none => simp
  | some p =>
    obtain ⟨lhs, rhs⟩ := p
    by_cases h1 : M.numUses lhs = 1
    · cases hM : asMul M lhs with
      | none =>
        simp only [h1, if_true, hM, Option.some.injEq, Prod.mk.injEq]
        constructor
        · intro h; cases h
        · rintro ⟨l, r, a, b, ⟨rfl, rfl⟩, hm, _⟩
          rw [hM] at hm
          cases hm
      | some q =>
        obtain ⟨a, b⟩ := q
        simp only [h1, if_true, hM, Option.some.injEq, Prod.mk.injEq]
        constructor
        · rintro ⟨rfl, rfl, rfl⟩
          exact ⟨lhs, rhs, a, b, ⟨rfl, rfl⟩, hM, h1, rfl, rfl, rfl⟩
        · rintro ⟨l, r, a2, b2, ⟨rfl, rfl⟩, hm, _, rfl, rfl, rfl⟩
          rw [hM] at hm
          simp only [Option.some.injEq, Prod.mk.injEq] at hm
          obtain ⟨rfl, rfl⟩ := hm
          exact ⟨rfl, rfl, rfl⟩
    · simp only [h1, if_false, Option.some.injEq, Prod.mk.injEq]
      constructor
      · intro h; cases h
      · rintro ⟨l, r, a, b, ⟨rfl, rfl⟩, _, h, _⟩
        exact absurd h h1

theorem isGetGlobalIDPattern_some_imp {M : Module} {V d : Value}
    (h : isGetGlobalIDPattern M V = .ok (some d)) : GlobalIDIdiom M V d := by
  cases hm : m_Muladd M V with
  | none =>
    rw [isGetGlobalIDPattern_of_no_muladd hm] at h
    cases h
  | some t =>
    obtain ⟨x, y, z⟩ := t
    by_cases hc : ((DirectCallTo M x GetGroupId ∧ DirectCallTo M y GetLocalSize) ∨
        (DirectCallTo M y GetGroupId ∧ DirectCallTo M x GetLocalSize)) ∧
        DirectCallTo M z GetLocalId
    · obtain ⟨hxy, hz⟩ := hc
      have hx : ∃ N, DirectCallTo M x N := by
        rcases hxy with h1 | h1
        · exact ⟨_, h1.1⟩
        · exact ⟨_, h1.2⟩
      have hy : ∃ N, DirectCallTo M y N := by
        rcases hxy with h1 | h1
        · exact ⟨_, h1.2⟩
        · exact ⟨_, h1.1⟩
      obtain ⟨_, hx⟩ := hx
      obtain ⟨_, hy⟩ := hy
      obtain ⟨a0, h0⟩ := operand0_isSome_of_directCall hx
      obtain ⟨a1, h1⟩ := operand0_isSome_of_directCall hy
      obtain ⟨a2, h2⟩ := operand0_isSome_of_directCall hz
      rw [isGetGlobalIDPattern_of_bindings hm hxy hz h0 h1 h2] at h
      by_cases he : a0 = a1 ∧ a1 = a2
      · rw [if_pos he] at h
        simp only [Except.ok.injEq, Option.some.injEq] at h
        obtain ⟨rfl, rfl⟩ := he
        subst h
        obtain ⟨lhs, rhs, a, b, hA, hM, hU, rfl, rfl, rfl⟩ := (m_Muladd_eq_some_iff M V _ _ _).1 hm
        exact ⟨lhs, rhs, a, b, _, _, _, hA, hM, hU, unwraps_m_TruncOrSelf M a,
          unwraps_m_TruncOrSelf M b, unwraps_m_TruncOrSelf M rhs, hxy, hz, h0, h1, h2⟩
      · rw [if_neg he] at h
        cases h
    · rw [isGetGlobalIDPattern_of_not_calls hm hc] at h
      cases h

theorem isGetGlobalIDPattern_of_idiom {M : Module} {V d : Value}
    (h : GlobalIDIdiom M V d) : isGetGlobalIDPattern M V = .ok (some d) := by
  obtain ⟨lhs, rhs, a, b, ca, cb, cc, hA, hM, hU, ua, ub, uc, hxy, hz, h0, h1, h2⟩ := h
  have hx : ∃ N, DirectCallTo M ca N := by
    rcases hxy with h1 | h1
    · exact ⟨_, h1.1⟩
    · exact ⟨_, h1.2⟩
  have hy : ∃ N, DirectCallTo M cb N := by
    rcases hxy with h1 | h1
    · exact ⟨_, h1.2⟩
    · exact ⟨_, h1.1⟩
  obtain ⟨_, hx⟩ := hx
  obtain ⟨_, hy⟩ := hy
  have hm : m_Muladd M V = some (ca, cb, cc) :=
    (m_Muladd_eq_some_iff M V _ _ _).2 ⟨lhs, rhs, a, b, hA, hM, hU,
      (m_TruncOrSelf_of_unwraps ua hx).symm, (m_TruncOrSelf_of_unwraps ub hy).symm,
      (m_TruncOrSelf_of_unwraps uc hz).symm⟩
  rw [isGetGlobalIDPattern_of_bindings hm hxy hz h0 h1 h2]
  simp

/-- The matcher never reaches a fatal outcome: it returns a dimension or no
match. -/
theorem isGetGlobalIDPattern_ok (M : Module) (V : Value) :
    ∃ r, isGetGlobalIDPattern M V = .ok r := by
  cases hm : m_Muladd M V with
  | none => exact ⟨_, isGetGlobalIDPattern_of_no_muladd hm⟩
  | some t =>
    obtain ⟨x, y, z⟩ := t
    by_cases hc : ((DirectCallTo M x GetGroupId ∧ DirectCallTo M y GetLocalSize) ∨
        (DirectCallTo M y GetGroupId ∧ DirectCallTo M x GetLocalSize)) ∧
        DirectCallTo M z GetLocalId
    · obtain ⟨hxy, hz⟩ := hc
      have hx : ∃ N, DirectCallTo M x N := by
        rcases hxy with h1 | h1
        · exact ⟨_, h1.1⟩
        · exact ⟨_, h1.2⟩
      have hy : ∃ N, DirectCallTo M y N := by
        rcases hxy with h1 | h1
        · exact ⟨_, h1.2⟩
        · exact ⟨_, h1.1⟩
      obtain ⟨_, hx⟩ := hx
      obtain ⟨_, hy⟩ := hy
      obtain ⟨a0, h0⟩ := operand0_isSome_of_directCall hx
      obtain ⟨a1, h1⟩ := operand0_isSome_of_directCall hy
      obtain ⟨a2, h2⟩ := operand0_isSome_of_directCall hz
      exact ⟨_, isGetGlobalIDPattern_of_bindings hm hxy hz h0 h1 h2⟩
    · exact ⟨_, isGetGlobalIDPattern_of_not_calls hm hc⟩

/-- C1. The matcher returns the dimension `d` exactly when `V` is an addition
whose left operand is a one-use multiplication of the group-index and
group-size calls (in either order, each possibly under one truncation), whose
right operand is the local-index call (possibly under one truncation), and
operand 0 of the three calls is the same value `d`; in every other case it
returns no match. -/
theorem isGetGlobalIDPattern_spec (M : Module) (V : Value) :
    (∀ d, isGetGlobalIDPattern M V = .ok (some d) ↔ GlobalIDIdiom M V d) ∧
    ((∀ d, ¬ GlobalIDIdiom M V d) → isGetGlobalIDPattern M V = .ok none) := by
  refine ⟨fun d => ⟨isGetGlobalIDPattern_some_imp, isGetGlobalIDPattern_of_idiom⟩, ?_⟩
  intro hno
  obtain ⟨r, hr⟩ := isGetGlobalIDPattern_ok M V
  cases r with
  | none => exact hr
  | some d => exact absurd (isGetGlobalIDPattern_some_imp hr) (hno d)

/-! ## The matcher: negative cases -/

/-- One iteration of the instruction loop at an instruction the matcher
rejects leaves the state as it is. -/
theorem runInsts_one_of_noMatch {S : PassState} {fi bi ii : Nat} {I : Instruction}
    (hI : S.M.instAt fi bi ii = some I)
    (hm : isGetGlobalIDPattern S.M I.value = .ok none) :
    runInsts fi bi 1 ii S = .ok S := by
  simp only [runInsts, hI, hm]

/-- C8. An instruction with the shape of the idiom and the three recognised
calls, whose calls do not all have the same value as operand 0, is not
matched, and the loop body of the driver leaves the state unchanged at it. -/
theorem isGetGlobalIDPattern_dim_mismatch (M : Module) (V lhs rhs a b ca cb cc d0 d1 d2 : Value)
    (hA : asAdd M V = some (lhs, rhs)) (hM : asMul M lhs = some (a, b))
    (ua : Unwraps M a ca) (ub : Unwraps M b cb) (uc : Unwraps M rhs cc)
    (hxy : (DirectCallTo M ca GetGroupId ∧ DirectCallTo M cb GetLocalSize) ∨
      (DirectCallTo M cb GetGroupId ∧ DirectCallTo M ca GetLocalSize))
    (hz : DirectCallTo M cc GetLocalId)
    (h0 : operand0 M ca = some d0) (h1 : operand0 M cb = some d1)
    (h2 : operand0 M cc = some d2) (hne : ¬ (d0 = d1 ∧ d1 = d2)) :
    isGetGlobalIDPattern M V = .ok none ∧
    ∀ (S : PassState) (fi bi ii : Nat) (I : Instruction), S.M = M →
      M.instAt fi bi ii = some I → I.value = V → runInsts fi bi 1 ii S = .ok S := by
  have hmatch : isGetGlobalIDPattern M V = .ok none := by
    by_cases hU : M.numUses lhs = 1
    · have hx : ∃ N, DirectCallTo M ca N := by
        rcases hxy with h | h
        · exact ⟨_, h.1⟩
        · exact ⟨_, h.2⟩
      have hy : ∃ N, DirectCallTo M cb N := by
        rcases hxy with h | h
        · exact ⟨_, h.2⟩
        · exact ⟨_, h.1⟩
      obtain ⟨_, hx⟩ := hx
      obtain ⟨_, hy⟩ := hy
      have hm : m_Muladd M V = some (ca, cb, cc) :=
        (m_Muladd_eq_some_iff M V _ _ _).2 ⟨lhs, rhs, a, b, hA, hM, hU,
          (m_TruncOrSelf_of_unwraps ua hx).symm, (m_TruncOrSelf_of_unwraps ub hy).symm,
          (m_TruncOrSelf_of_unwraps uc hz).symm⟩
      rw [isGetGlobalIDPattern_of_bindings hm hxy hz h0 h1 h2, if_neg hne]
    · apply isGetGlobalIDPattern_of_no_muladd
      rw [m_Muladd_eq, hA]
      simp only [hU, if_false]
  refine ⟨hmatch, ?_⟩
  intro S fi bi ii I hS hI hV
  subst hS
  subst hV
  exact runInsts_one_of_noMatch hI hmatch

/-- C8 at a concrete input: group index on dimension 0, group size on
dimension 1. -/
theorem isGetGlobalIDPattern_dim_mismatch_witness :
    isGetGlobalIDPattern exMixedDims (.inst 7) = .ok none ∧
    ∀ (S : PassState) (fi bi ii : Nat) (I : Instruction), S.M = exMixedDims →
      exMixedDims.instAt fi bi ii = some I → I.value = .inst 7 →
      runInsts fi bi 1 ii S = .ok S :=
  isGetGlobalIDPattern_dim_mismatch exMixedDims (.inst 7) (.inst 6) (.inst 5) (.inst 3) (.inst 4)
    (.inst 0) (.inst 1) (.inst 2) (.other 0) (.other 1) (.other 0)
    (by decide) (by decide) (by decide) (by decide) (by decide) (by decide) (by decide)
    (by decide) (by decide) (by decide) (by decide)

/-- C9. An addition whose left operand is a multiplication with more than one
use is not matched, whatever the operands of the multiplication and the
addend are. -/
theorem isGetGlobalIDPattern_mul_multi_use (M : Module) (V lhs rhs a b : Value)
    (hA : asAdd M V = some (lhs, rhs)) (_hM : asMul M lhs = some (a, b))
    (hU : 1 < M.numUses lhs) :
    isGetGlobalIDPattern M V = .ok none := by
  apply isGetGlobalIDPattern_of_no_muladd
  rw [m_Muladd_eq, hA]
  have : ¬ M.numUses lhs = 1 := by omega
  simp only [this, if_false]

/-- C9 at a concrete input: the multiplication of the three recognised calls
on the same dimension has two uses. -/
theorem isGetGlobalIDPattern_mul_multi_use_witness :
    (asMul exTwoUses (.inst 6) = some (.inst 3, .inst 4) ∧
      DirectCallTo exTwoUses (.inst 0) GetGroupId ∧
      DirectCallTo exTwoUses (.inst 1) GetLocalSize ∧
      DirectCallTo exTwoUses (.inst 2) GetLocalId ∧
      exTwoUses.numUses (.inst 6) = 2) ∧
    isGetGlobalIDPattern exTwoUses (.inst 7) = .ok none :=
  ⟨by decide,
    isGetGlobalIDPattern_mul_multi_use exTwoUses (.inst 7) (.inst 6) (.inst 5) (.inst 3) (.inst 4)
      (by decide) (by decide) (by decide)⟩

/-- C10. An addition whose right operand, after the unwrapping of one
truncation that the matcher applies, is not a direct call to the local-index
function is not matched, whatever its left operand is. -/
theorem isGetGlobalIDPattern_addend_required (M : Module) (V lhs rhs : Value)
    (hA : asAdd M V = some (lhs, rhs))
    (hz : ¬ DirectCallTo M (m_TruncOrSelf M rhs) GetLocalId) :
    isGetGlobalIDPattern M V = .ok none := by
  cases hm : m_Muladd M V with
  | none => exact isGetGlobalIDPattern_of_no_muladd hm
  | some t =>
    obtain ⟨x, y, z⟩ := t
    obtain ⟨l, r, a, b, hA2, _, _, _, _, rfl⟩ := (m_Muladd_eq_some_iff M V _ _ _).1 hm
    rw [hA] at hA2
    simp only [Option.some.injEq, Prod.mk.injEq] at hA2
    obtain ⟨rfl, rfl⟩ := hA2
    exact isGetGlobalIDPattern_of_not_calls hm (fun h => hz h.2)

/-- C10 at a concrete input: the addend is the truncated group-index call. -/
theorem isGetGlobalIDPattern_addend_required_witness :
    isGetGlobalIDPattern exBadAddend (.inst 7) = .ok none :=
  isGetGlobalIDPattern_addend_required exBadAddend (.inst 7) (.inst 6) (.inst 3)
    (by decide) (by decide)
/-! ## Mapping over the instructions of a module -/

theorem fn_insts_mapInsts (f : Instruction → Instruction) (F : Function) :
    (F.mapInsts f).insts = F.insts.map f := by
  unfold Function.mapInsts Function.insts
  simp only [List.flatMap_map, List.map_flatMap]
  rfl

theorem mod_insts_mapInsts (f : Instruction → Instruction) (M : Module) :
    (M.mapInsts f).insts = M.insts.map f := by
  unfold Module.mapInsts Module.insts
  simp only [List.flatMap_map, List.map_flatMap, fn_insts_mapInsts]

theorem getInst_mapInsts {f : Instruction → Instruction} (hid : ∀ I, (f I).id = I.id)
    (M : Module) (V : Value) : (M.mapInsts f).getInst V = (M.getInst V).map f := by
  cases V with
  | inst n =>
    simp only [Module.getInst, mod_insts_mapInsts, List.find?_map]
    congr 1
    apply congrArg (fun p => List.find? p M.insts)
    funext I
    simp [hid]
  | func n => rfl
  | other n => rfl

theorem getFunction_mapInsts (f : Instruction → Instruction) (M : Module) (V : Value) :
    (M.mapInsts f).getFunction V = (M.getFunction V).map (Function.mapInsts f) := by
  cases V with
  | func n =>
    simp only [Module.getFunction, Module.mapInsts, List.find?_map]
    rfl
  | inst n => rfl
  | other n => rfl

theorem getCalledFunction_mapInsts (f : Instruction → Instruction) (M : Module)
    (fty : FunctionType) (callee : Value) :
    (M.mapInsts f).getCalledFunction fty callee =
      (M.getCalledFunction fty callee).map (Function.mapInsts f) := by
  unfold Module.getCalledFunction
  rw [getFunction_mapInsts]
  cases h : M.getFunction callee with
  | none => rfl
  | some F =>
    have hfty : (Function.mapInsts f F).fty = F.fty := rfl
    simp only [Option.map_some', hfty]
    by_cases hf : F.fty = fty
    · simp [hf]
    · simp [hf]

/-! ## Order of the multiplication operands -/

theorem commuteMul_id (n : Nat) (I : Instruction) : (I.commuteMul n).id = I.id := by
  unfold Instruction.commuteMul
  split
  · split <;> rfl
  · rfl

theorem commuteMul_count (n : Nat) (I : Instruction) (V : Value) :
    (I.commuteMul n).operands.count V = I.operands.count V := by
  unfold Instruction.commuteMul
  split
  next a b h =>
    split
    · simp only [Instruction.operands, h, Shape.operands, List.count_cons, List.count_nil]
      omega
    · rfl
  · rfl

theorem numUses_commuteMul (M : Module) (n : Nat) (V : Value) :
    (M.commuteMul n).numUses V = M.numUses V := by
  unfold Module.numUses Module.commuteMul
  rw [mod_insts_mapInsts, List.map_map]
  congr 1
  apply List.map_congr_left
  intro I _
  exact commuteMul_count n I V

theorem asAdd_commuteMul (M : Module) (n : Nat) (V : Value) :
    asAdd (M.commuteMul n) V = asAdd M V := by
  unfold asAdd Module.commuteMul
  rw [getInst_mapInsts (commuteMul_id n)]
  cases M.getInst V with
  | none => rfl
  | some I =>
    obtain ⟨id, name, ty, shape⟩ := I
    cases shape with
    | binop op a b =>
      cases op with
      | mul => by_cases h : id = n <;> simp [Instruction.commuteMul, h]
      | _ => rfl
    | _ => rfl

theorem asTrunc_commuteMul (M : Module) (n : Nat) (V : Value) :
    asTrunc (M.commuteMul n) V = asTrunc M V := by
  unfold asTrunc Module.commuteMul
  rw [getInst_mapInsts (commuteMul_id n)]
  cases M.getInst V with
  | none => rfl
  | some I =>
    obtain ⟨id, name, ty, shape⟩ := I
    cases shape with
    | binop op a b =>
      cases op with
      | mul => by_cases h : id = n <;> simp [Instruction.commuteMul, h]
      | _ => rfl
    | _ => rfl

theorem asCall_commuteMul (M : Module) (n : Nat) (V : Value) :
    asCall (M.commuteMul n) V = asCall M V := by
  unfold asCall Module.commuteMul
  rw [getInst_mapInsts (commuteMul_id n)]
  cases M.getInst V with
  | none => rfl
  | some I =>
    obtain ⟨id, name, ty, shape⟩ := I
    cases shape with
    | binop op a b =>
      cases op with
      | mul => by_cases h : id = n <;> simp [Instruction.commuteMul, h]
      | _ => rfl
    | _ => rfl

theorem asMul_commuteMul (M : Module) (n : Nat) (V : Value) :
    asMul (M.commuteMul n) V = asMul M V ∨
      asMul (M.commuteMul n) V = (asMul M V).map (fun p => (p.2, p.1)) := by
  unfold asMul Module.commuteMul
  rw [getInst_mapInsts (commuteMul_id n)]
  cases M.getInst V with
  | none => left; rfl
  | some I =>
    obtain ⟨id, name, ty, shape⟩ := I
    cases shape with
    | binop op a b =>
      cases op with
      | mul =>
        by_cases h : id = n
        · right; simp [Instruction.commuteMul, h]
        · left; simp [Instruction.commuteMul, h]
      | _ => left; rfl
    | _ => left; rfl

theorem DirectCallTo_commuteMul (M : Module) (n : Nat) (V : Value) (N : String) :
    DirectCallTo (M.commuteMul n) V N ↔ DirectCallTo M V N := by
  unfold DirectCallTo directCallee
  rw [asCall_commuteMul]
  cases asCall M V with
  | none => exact Iff.rfl
  | some c =>
    obtain ⟨fty, args, callee⟩ := c
    simp only [Module.commuteMul, getCalledFunction_mapInsts]
    cases M.getCalledFunction fty callee with
    | none => exact Iff.rfl
    | some F => exact Iff.rfl

theorem operand0_commuteMul (M : Module) (n : Nat) (V : Value) :
    operand0 (M.commuteMul n) V = operand0 M V := by
  unfold operand0
  rw [asCall_commuteMul]

theorem Unwraps_commuteMul (M : Module) (n : Nat) (X Y : Value) :
    Unwraps (M.commuteMul n) X Y ↔ Unwraps M X Y := by
  unfold Unwraps
  rw [asTrunc_commuteMul]

/-- The idiom holds in one module when it holds in another with the same
additions, truncations, calls and use counts, and the same multiplications up
to the order of their operands. -/
theorem GlobalIDIdiom_of_commuted {M M2 : Module} {V d : Value}
    (hadd : ∀ X, asAdd M2 X = asAdd M X)
    (hmul : ∀ X, asMul M2 X = asMul M X ∨ asMul M2 X = (asMul M X).map (fun p => (p.2, p.1)))
    (huses : ∀ X, M2.numUses X = M.numUses X)
    (hunw : ∀ X Y, Unwraps M2 X Y ↔ Unwraps M X Y)
    (hcall : ∀ X N, DirectCallTo M2 X N ↔ DirectCallTo M X N)
    (hop : ∀ X, operand0 M2 X = operand0 M X)
    (h : GlobalIDIdiom M V d) : GlobalIDIdiom M2 V d := by
  obtain ⟨lhs, rhs, a, b, ca, cb, cc, hA, hM, hU, ua, ub, uc, hxy, hz, h0, h1, h2⟩ := h
  rcases hmul lhs with hm | hm
  · refine ⟨lhs, rhs, a, b, ca, cb, cc, ?_, ?_, ?_, ?_, ?_, ?_, ?_, ?_, ?_, ?_, ?_⟩
    · rw [hadd]; exact hA
    · rw [hm]; exact hM
    · rw [huses]; exact hU
    · exact (hunw _ _).2 ua
    · exact (hunw _ _).2 ub
    · exact (hunw _ _).2 uc
    · simpa only [hcall] using hxy
    · exact (hcall _ _).2 hz
    · rw [hop]; exact h0
    · rw [hop]; exact h1
    · rw [hop]; exact h2
  · refine ⟨lhs, rhs, b, a, cb, ca, cc, ?_, ?_, ?_, ?_, ?_, ?_, ?_, ?_, ?_, ?_, ?_⟩
    · rw [hadd]; exact hA
    · rw [hm, hM]; rfl
    · rw [huses]; exact hU
    · exact (hunw _ _).2 ub
    · exact (hunw _ _).2 ua
    · exact (hunw _ _).2 uc
    · simpa only [hcall] using hxy.symm
    · exact (hcall _ _).2 hz
    · rw [hop]; exact h1
    · rw [hop]; exact h0
    · rw [hop]; exact h2

theorem GlobalIDIdiom_commuteMul (M : Module) (n : Nat) (V d : Value) :
    GlobalIDIdiom (M.commuteMul n) V d ↔ GlobalIDIdiom M V d := by
  constructor
  · intro h
    refine @GlobalIDIdiom_of_commuted (M.commuteMul n) M V d ?_ ?_ ?_ ?_ ?_ ?_ h
    · intro X; exact (asAdd_commuteMul M n X).symm
    · intro X
      rcases asMul_commuteMul M n X with hm | hm
      · left; exact hm.symm
      · right
        rw [hm]
        cases asMul M X with
        | none => rfl
        | some p => rfl
    · intro X; exact (numUses_commuteMul M n X).symm
    · intro X Y; exact (Unwraps_commuteMul M n X Y).symm
    · intro X N; exact (DirectCallTo_commuteMul M n X N).symm
    · intro X; exact (operand0_commuteMul M n X).symm
  · intro h
    exact GlobalIDIdiom_of_commuted (asAdd_commuteMul M n) (asMul_commuteMul M n)
      (numUses_commuteMul M n) (Unwraps_commuteMul M n) (DirectCallTo_commuteMul M n)
      (operand0_commuteMul M n) h

/-- The result of the matcher is determined by the set of dimensions for which
the idiom holds. -/
theorem isGetGlobalIDPattern_congr {M M2 : Module} {V V2 : Value}
    (h : ∀ d, GlobalIDIdiom M V d ↔ GlobalIDIdiom M2 V2 d) :
    isGetGlobalIDPattern M V = isGetGlobalIDPattern M2 V2 := by
  obtain ⟨r, hr⟩ := isGetGlobalIDPattern_ok M V
  obtain ⟨r2, hr2⟩ := isGetGlobalIDPattern_ok M2 V2
  rw [hr, hr2]
  cases r with
  | none =>
    cases r2 with
    | none => rfl
    | some d2 =>
      have h1 := isGetGlobalIDPattern_of_idiom ((h d2).2 (isGetGlobalIDPattern_some_imp hr2))
      rw [hr] at h1
      cases h1
  | some d =>
    have h1 := isGetGlobalIDPattern_of_idiom ((h d).1 (isGetGlobalIDPattern_some_imp hr))
    rw [hr2] at h1
    rw [h1]

theorem getInst_id {M : Module} {n : Nat} {I : Instruction}
    (h : M.getInst (.inst n) = some I) : I.id = n := by
  unfold Module.getInst at h
  have := List.find?_some h
  simpa using this

theorem asMul_commuteMul_self (M : Module) (n : Nat) :
    asMul (M.commuteMul n) (.inst n) = (asMul M (.inst n)).map (fun p => (p.2, p.1)) := by
  unfold asMul Module.commuteMul
  rw [getInst_mapInsts (commuteMul_id n)]
  cases h : M.getInst (.inst n) with
  | none => rfl
  | some I =>
    have hid := getInst_id h
    obtain ⟨id, name, ty, shape⟩ := I
    simp only at hid
    cases shape with
    | binop op a b =>
      cases op with
      | mul => simp [Instruction.commuteMul, hid]
      | _ => rfl
    | _ => rfl

/-! ## Lists: modification and insertion at an index -/

theorem modifyAt_append_cons {α : Type} (f : α → α) (l1 : List α) (x : α) (l2 : List α) :
    modifyAt f l1.length (l1 ++ x :: l2) = l1 ++ f x :: l2 := by
  induction l1 with
  | nil => rfl
  | cons y ys ih =>
    rw [List.cons_append, List.length_cons]
    simp only [modifyAt]
    rw [ih]
    rfl

theorem insertAt_append {α : Type} (x : α) (p q : List α) :
    insertAt x p.length (p ++ q) = p ++ x :: q := by
  induction p with
  | nil => rfl
  | cons y ys ih =>
    rw [List.cons_append, List.length_cons]
    simp only [insertAt]
    rw [ih]
    rfl

theorem getElem?_split {α : Type} {l : List α} {i : Nat} {x : α} (h : l[i]? = some x) :
    ∃ l1 l2, l = l1 ++ x :: l2 ∧ l1.length = i := by
  induction l generalizing i with
  | nil => simp at h
  | cons y ys ih =>
    cases i with
    | zero =>
      simp only [List.getElem?_cons_zero, Option.some.injEq] at h
      subst h
      exact ⟨[], ys, rfl, rfl⟩
    | succ j =>
      simp only [List.getElem?_cons_succ] at h
      obtain ⟨l1, l2, rfl, rfl⟩ := ih h
      exact ⟨y :: l1, l2, rfl, rfl⟩

theorem getElem?_append_cons_length {α : Type} (l1 : List α) (x : α) (l2 : List α) :
    (l1 ++ x :: l2)[l1.length]? = some x := by
  induction l1 with
  | nil => simp
  | cons y ys ih => simpa using ih

/-! ## Positions in a module -/

theorem instAt_plug {M : Module} {fi bi ii : Nat} {I : Instruction}
    (h : M.instAt fi bi ii = some I) :
    ∃ Fs1 F Bs1 p q Bs2 Fs2, M = plug Fs1 F Bs1 (p ++ I :: q) Bs2 Fs2 ∧
      Fs1.length = fi ∧ Bs1.length = bi ∧ p.length = ii := by
  unfold Module.instAt at h
  cases hF : M.functions[fi]? with
  | none => simp [hF] at h
  | some F =>
    simp only [hF] at h
    cases hB : F.blocks[bi]? with
    | none => simp [hB] at h
    | some B =>
      simp only [hB] at h
      obtain ⟨Fs1, Fs2, hFs, hfi⟩ := getElem?_split hF
      obtain ⟨Bs1, Bs2, hBs, hbi⟩ := getElem?_split hB
      obtain ⟨p, q, hp, hii⟩ := getElem?_split h
      refine ⟨Fs1, F, Bs1, p, q, Bs2, Fs2, ?_, hfi, hbi, hii⟩
      obtain ⟨fns⟩ := M
      obtain ⟨fid, fname, fty, blocks⟩ := F
      obtain ⟨insts⟩ := B
      simp only at hFs hBs hp
      subst hFs hBs hp
      rfl

theorem insts_plug (Fs1 : List Function) (F : Function) (Bs1 : List BasicBlock)
    (l : List Instruction) (Bs2 : List BasicBlock) (Fs2 : List Function) :
    (plug Fs1 F Bs1 l Bs2 Fs2).insts =
      (Fs1.flatMap Function.insts ++ Bs1.flatMap BasicBlock.insts) ++ l ++
        (Bs2.flatMap BasicBlock.insts ++ Fs2.flatMap Function.insts) := by
  simp [plug, Module.insts, Function.insts, BasicBlock.insts, List.flatMap_append,
    List.flatMap_cons]

theorem insertBefore_plug (Fs1 : List Function) (F : Function) (Bs1 : List BasicBlock)
    (p q : List Instruction) (Bs2 : List BasicBlock) (Fs2 : List Function) (X : Instruction) :
    (plug Fs1 F Bs1 (p ++ q) Bs2 Fs2).insertBefore Fs1.length Bs1.length p.length X =
      plug Fs1 F Bs1 (p ++ X :: q) Bs2 Fs2 := by
  simp only [plug, Module.insertBefore, modifyAt_append_cons, insertAt_append]

theorem instAt_of_plug (Fs1 : List Function) (F : Function) (Bs1 : List BasicBlock)
    (p q : List Instruction) (Bs2 : List BasicBlock) (Fs2 : List Function) (I : Instruction) :
    (plug Fs1 F Bs1 (p ++ I :: q) Bs2 Fs2).instAt Fs1.length Bs1.length p.length = some I := by
  simp only [plug, Module.instAt, getElem?_append_cons_length]
/-! ## Fresh identities -/

theorem le_foldr_max_of_mem {l : List Nat} {a : Nat} (h : a ∈ l) : a ≤ l.foldr max 0 := by
  induction l with
  | nil => cases h
  | cons x xs ih =>
    simp only [List.foldr_cons]
    rcases List.mem_cons.1 h with rfl | h
    · exact le_max_left _ _
    · exact le_trans (ih h) (le_max_right _ _)

theorem id_lt_freshInstId {M : Module} {J : Instruction} (h : J ∈ M.insts) :
    J.id < M.freshInstId := by
  have h1 : max (J.id + 1) ((J.operands.map Value.instBound).foldr max 0) ≤ M.freshInstId :=
    le_foldr_max_of_mem (List.mem_map.2 ⟨J, h, rfl⟩)
  have h2 := le_max_left (J.id + 1) ((J.operands.map Value.instBound).foldr max 0)
  omega

theorem operand_ne_freshInstId {M : Module} {J : Instruction} (h : J ∈ M.insts) {v : Value}
    (hv : v ∈ J.operands) {n : Nat} (hn : M.freshInstId ≤ n) : v ≠ .inst n := by
  have h1 : max (J.id + 1) ((J.operands.map Value.instBound).foldr max 0) ≤ M.freshInstId :=
    le_foldr_max_of_mem (List.mem_map.2 ⟨J, h, rfl⟩)
  have h2 := le_max_right (J.id + 1) ((J.operands.map Value.instBound).foldr max 0)
  have h3 : v.instBound ≤ (J.operands.map Value.instBound).foldr max 0 :=
    le_foldr_max_of_mem (List.mem_map.2 ⟨v, hv, rfl⟩)
  intro hvn
  subst hvn
  simp only [Value.instBound] at h3
  omega

/-! ## The loop body on a module seen from the current block -/

theorem getOrInsertFunction_plug (Fs1 : List Function) (F : Function) (Bs1 : List BasicBlock)
    (l : List Instruction) (Bs2 : List BasicBlock) (Fs2 : List Function) (N : String)
    (T : FunctionType) :
    ∃ Fs2' k, (plug Fs1 F Bs1 l Bs2 Fs2).getOrInsertFunction N T =
      (plug Fs1 F Bs1 l Bs2 Fs2', ⟨T, .func k⟩) ∧
      Fs2'.flatMap Function.insts = Fs2.flatMap Function.insts ∧
      ∃ extra, Fs2' = Fs2 ++ extra ∧ ∀ G ∈ extra, G.blocks = [] := by
  unfold Module.getOrInsertFunction
  cases (plug Fs1 F Bs1 l Bs2 Fs2).functions.find? (fun F => F.name == N) with
  | some G => exact ⟨Fs2, G.id, rfl, rfl, [], by simp, fun G hG => by cases hG⟩
  | none =>
    refine ⟨Fs2 ++ [⟨(plug Fs1 F Bs1 l Bs2 Fs2).freshFuncId, N, T, []⟩],
      (plug Fs1 F Bs1 l Bs2 Fs2).freshFuncId, ?_, ?_, _, rfl, ?_⟩
    · simp only [plug, List.append_assoc, List.cons_append]
    · simp [List.flatMap_append, Function.insts]
    · intro G hG
      simp only [List.mem_singleton] at hG
      rw [hG]

theorem freshInstId_congr {M M2 : Module} (h : M2.insts = M.insts) :
    M2.freshInstId = M.freshInstId := by
  unfold Module.freshInstId
  rw [h]

theorem replaceAllUsesWith_plug (Fs1 : List Function) (F : Function) (Bs1 : List BasicBlock)
    (l : List Instruction) (Bs2 : List BasicBlock) (Fs2 : List Function) (Old New : Value) :
    ((plug Fs1 F Bs1 l Bs2 Fs2).replaceAllUsesWith Old New).insts =
      (plug Fs1 F Bs1 l Bs2 Fs2).insts.map (Instruction.replaceUsesOfWith Old New) := by
  unfold Module.replaceAllUsesWith
  rw [mod_insts_mapInsts]

theorem insertBefore_plug_snoc (Fs1 : List Function) (F : Function) (Bs1 : List BasicBlock)
    (p q : List Instruction) (Bs2 : List BasicBlock) (Fs2 : List Function) (G X : Instruction) :
    (plug Fs1 F Bs1 (p ++ G :: q) Bs2 Fs2).insertBefore Fs1.length Bs1.length (p.length + 1) X =
      plug Fs1 F Bs1 (p ++ G :: X :: q) Bs2 Fs2 := by
  have e1 : p ++ G :: q = (p ++ [G]) ++ q := by simp
  have e2 : p.length + 1 = (p ++ [G]).length := by simp
  rw [e1, e2, insertBefore_plug]
  simp

/-- The loop body at the instruction `I` of a module seen from the block of
`I`: the new instructions go before `I`, then all uses of `I` are replaced. -/
theorem rewriteMatch_plug (S : PassState) (Fs1 : List Function) (F : Function)
    (Bs1 : List BasicBlock) (p q : List Instruction) (Bs2 : List BasicBlock)
    (Fs2 : List Function) (I : Instruction) (Dim : Value)
    (hM : S.M = plug Fs1 F Bs1 (p ++ I :: q) Bs2 Fs2) :
    ∃ Fs2' k n2,
      (Fs2'.flatMap Function.insts = Fs2.flatMap Function.insts ∧
        ∃ extra, Fs2' = Fs2 ++ extra ∧ ∀ G ∈ extra, G.blocks = []) ∧
      S.M.freshInstId < n2 ∧ Dim ≠ .inst n2 ∧
      (∀ J ∈ S.M.insts, J.id < n2 ∧ ∀ v ∈ J.operands, v ≠ .inst n2) ∧
      rewriteMatch S Fs1.length Bs1.length p.length I Dim =
        (⟨(plug Fs1 F Bs1 (p ++ newInsts S.M.freshInstId n2 I.ty Dim (.func k) ++ I :: q) Bs2
              Fs2').replaceAllUsesWith I.value (newValue S.M.freshInstId n2 I.ty), true,
            S.log ++ [⟨I, Dim, .inst S.M.freshInstId, newValue S.M.freshInstId n2 I.ty⟩]⟩,
          (newInsts S.M.freshInstId n2 I.ty Dim (.func k)).length) := by
  obtain ⟨Fs2', k, hg, hFs, hextra⟩ :=
    getOrInsertFunction_plug Fs1 F Bs1 (p ++ I :: q) Bs2 Fs2 GetGlobalId ⟨I64Ty, [I32Ty]⟩
  have hfresh : (plug Fs1 F Bs1 (p ++ I :: q) Bs2 Fs2').freshInstId = S.M.freshInstId := by
    apply freshInstId_congr
    rw [hM, insts_plug, insts_plug, hFs]
  have hM2 : plug Fs1 F Bs1 (p ++ gidCall S.M.freshInstId Dim (.func k) :: I :: q) Bs2 Fs2' =
      ((plug Fs1 F Bs1 (p ++ I :: q) Bs2 Fs2').insertBefore Fs1.length Bs1.length p.length
        (gidCall S.M.freshInstId Dim (.func k))) := by
    rw [insertBefore_plug]
  have hG : gidCall S.M.freshInstId Dim (.func k) ∈
      (plug Fs1 F Bs1 (p ++ gidCall S.M.freshInstId Dim (.func k) :: I :: q) Bs2 Fs2').insts := by
    simp only [insts_plug]
    simp
  have hsub : ∀ J ∈ S.M.insts,
      J ∈ (plug Fs1 F Bs1 (p ++ gidCall S.M.freshInstId Dim (.func k) :: I :: q) Bs2 Fs2').insts := by
    intro J hJ
    rw [hM, insts_plug] at hJ
    simp only [insts_plug, hFs]
    simp only [List.mem_append, List.mem_cons] at hJ ⊢
    tauto
  refine ⟨Fs2', k,
    (plug Fs1 F Bs1 (p ++ gidCall S.M.freshInstId Dim (.func k) :: I :: q) Bs2 Fs2').freshInstId,
    ⟨hFs, hextra⟩, id_lt_freshInstId hG, ?_, ?_, ?_⟩
  · exact operand_ne_freshInstId hG (by simp [gidCall, Instruction.operands, Shape.operands])
      (le_refl _)
  · intro J hJ
    exact ⟨id_lt_freshInstId (hsub J hJ),
      fun v hv => operand_ne_freshInstId (hsub J hJ) hv (le_refl _)⟩
  · rw [hM2]
    by_cases hty : I.ty = I64Ty
    · have hty2 : I64Ty = I.ty := hty.symm
      simp only [rewriteMatch, hM, hg, CallInst.Create, insertBefore_plug, createTruncOrSelf]
      rw [hM] at hfresh
      simp only [hfresh, hty2, if_true, Instruction.value, newInsts, newValue, gidCall,
        List.append_assoc, List.cons_append, List.nil_append, List.length_cons, List.length_nil]
    · have hty2 : ¬ I64Ty = I.ty := fun h => hty h.symm
      simp only [rewriteMatch, hM, hg, CallInst.Create, insertBefore_plug, createTruncOrSelf,
        CastInst.CreateTruncOrBitCast]
      rw [hM] at hfresh
      simp only [hfresh, hty, hty2, if_false, Instruction.value, newInsts, newValue, gidCall,
        gidCast, insertBefore_plug_snoc,
        List.append_assoc, List.cons_append, List.nil_append, List.length_cons, List.length_nil]
/-! ## The loops of the driver: invariants -/

theorem runInsts_inv {P : PassState → Prop} (hP : StepInvariant P) (fi bi : Nat) :
    ∀ (r ii : Nat) (S : PassState), P S → ∃ S', runInsts fi bi r ii S = .ok S' ∧ P S' := by
  intro r
  induction r with
  | zero => intro ii S h; exact ⟨S, rfl, h⟩
  | succ r ih =>
    intro ii S h
    simp only [runInsts]
    cases hI : S.M.instAt fi bi ii with
    | none => exact ⟨S, rfl, h⟩
    | some I =>
      obtain ⟨res, hres⟩ := isGetGlobalIDPattern_ok S.M I.value
      cases res with
      | none =>
        simp only [hres]
        exact ih (ii + 1) S h
      | some Dim =>
        simp only [hres]
        exact ih _ _ (hP S fi bi ii I Dim h hI hres)

theorem runBlocks_inv {P : PassState → Prop} (hP : StepInvariant P) (fi : Nat) :
    ∀ (r bi : Nat) (S : PassState), P S → ∃ S', runBlocks fi r bi S = .ok S' ∧ P S' := by
  intro r
  induction r with
  | zero => intro bi S h; exact ⟨S, rfl, h⟩
  | succ r ih =>
    intro bi S h
    simp only [runBlocks]
    obtain ⟨S1, h1, hP1⟩ := runInsts_inv hP fi bi (S.M.blockSize fi bi) 0 S h
    simp only [h1]
    exact ih (bi + 1) S1 hP1

theorem runFunctions_inv {P : PassState → Prop} (hP : StepInvariant P) :
    ∀ (r fi : Nat) (S : PassState), P S → ∃ S', runFunctions r fi S = .ok S' ∧ P S' := by
  intro r
  induction r with
  | zero => intro fi S h; exact ⟨S, rfl, h⟩
  | succ r ih =>
    intro fi S h
    simp only [runFunctions]
    obtain ⟨S1, h1, hP1⟩ := runBlocks_inv hP fi (S.M.numBlocks fi) 0 S h
    simp only [h1]
    exact ih (fi + 1) S1 hP1

/-- The loops of the driver end, and a property that holds at entry and that
every rewrite preserves holds at exit. -/
theorem runLoops_inv {P : PassState → Prop} (hP : StepInvariant P) (M : Module)
    (h0 : P ⟨M, false, []⟩) : ∃ S, runLoops M = .ok S ∧ P S :=
  runFunctions_inv hP M.functions.length 0 ⟨M, false, []⟩ h0
/-! ## Change reporting -/

theorem instAt_lt {M : Module} {fi bi ii : Nat} {I : Instruction}
    (h : M.instAt fi bi ii = some I) :
    fi < M.functions.length ∧ bi < M.numBlocks fi ∧ ii < M.blockSize fi bi := by
  unfold Module.instAt at h
  unfold Module.numBlocks Module.blockSize
  cases hF : M.functions[fi]? with
  | none => simp [hF] at h
  | some F =>
    simp only [hF] at h ⊢
    cases hB : F.blocks[bi]? with
    | none => simp [hB] at h
    | some B =>
      simp only [hB] at h ⊢
      have h1 := (List.getElem?_eq_some.1 hF).1
      have h2 := (List.getElem?_eq_some.1 hB).1
      have h3 := (List.getElem?_eq_some.1 h).1
      exact ⟨h1, h2, h3⟩

theorem instAt_mem {M : Module} {fi bi ii : Nat} {I : Instruction}
    (h : M.instAt fi bi ii = some I) : I ∈ M.insts := by
  obtain ⟨Fs1, F, Bs1, p, q, Bs2, Fs2, rfl, _, _, _⟩ := instAt_plug h
  rw [insts_plug]
  simp

theorem exists_instAt_of_mem {M : Module} {I : Instruction} (h : I ∈ M.insts) :
    ∃ fi bi ii, M.instAt fi bi ii = some I := by
  unfold Module.insts Function.insts BasicBlock.insts at h
  simp only [List.mem_flatMap] at h
  obtain ⟨F, hF, B, hB, hI⟩ := h
  obtain ⟨fi, hfi⟩ := List.getElem?_of_mem hF
  obtain ⟨bi, hbi⟩ := List.getElem?_of_mem hB
  obtain ⟨ii, hii⟩ := List.getElem?_of_mem hI
  exact ⟨fi, bi, ii, by simp only [Module.instAt, hfi, hbi, hii]⟩

theorem changed_stepInvariant : StepInvariant (fun S => S.Changed = true) := by
  intro S fi bi ii I Dim _ _ _
  rfl

/-- The instruction loop either sets `Changed` or leaves the state as it was,
having found no match at any instruction it visited. -/
theorem runInsts_changed_or (fi bi : Nat) :
    ∀ (r ii : Nat) (S : PassState), ∃ S', runInsts fi bi r ii S = .ok S' ∧
      (S'.Changed = true ∨ (S' = S ∧ ∀ j, j < r → ∀ I, S.M.instAt fi bi (ii + j) = some I →
        isGetGlobalIDPattern S.M I.value = .ok none)) := by
  intro r
  induction r with
  | zero =>
    intro ii S
    exact ⟨S, rfl, Or.inr ⟨rfl, fun j hj => absurd hj (Nat.not_lt_zero j)⟩⟩
  | succ r ih =>
    intro ii S
    simp only [runInsts]
    cases hI : S.M.instAt fi bi ii with
    | none =>
      refine ⟨S, rfl, Or.inr ⟨rfl, ?_⟩⟩
      intro j _ I hIj
      exfalso
      have h1 := (instAt_lt hIj).2.2
      unfold Module.instAt at hI
      unfold Module.blockSize at h1
      cases hF : S.M.functions[fi]? with
      | none => simp [hF] at h1
      | some F =>
        simp only [hF] at hI h1
        cases hB : F.blocks[bi]? with
        | none => simp [hB] at h1
        | some B =>
          simp only [hB] at hI h1
          have := List.getElem?_eq_none_iff.1 hI
          omega
    | some I =>
      obtain ⟨res, hres⟩ := isGetGlobalIDPattern_ok S.M I.value
      cases res with
      | none =>
        simp only [hres]
        obtain ⟨S', hS', h⟩ := ih (ii + 1) S
        refine ⟨S', hS', ?_⟩
        rcases h with h | ⟨rfl, h⟩
        · exact Or.inl h
        · refine Or.inr ⟨rfl, ?_⟩
          intro j hj J hJ
          cases j with
          | zero =>
            rw [Nat.add_zero, hI] at hJ
            cases hJ
            exact hres
          | succ j =>
            apply h j (by omega) J
            rw [← hJ]
            congr 1
            omega
      | some Dim =>
        simp only [hres]
        obtain ⟨S', hS', h⟩ := runInsts_inv changed_stepInvariant fi bi r
          (ii + (rewriteMatch S fi bi ii I Dim).2 + 1) (rewriteMatch S fi bi ii I Dim).1 rfl
        exact ⟨S', hS', Or.inl h⟩

theorem runInsts_changed_mono (fi bi r ii : Nat) (S : PassState) (h : S.Changed = true) :
    ∃ S', runInsts fi bi r ii S = .ok S' ∧ S'.Changed = true :=
  runInsts_inv changed_stepInvariant fi bi r ii S h

/-- The block loop either sets `Changed` or leaves the state as it was, having
found no match in any block it visited. -/
theorem runBlocks_changed_or (fi : Nat) :
    ∀ (r bi : Nat) (S : PassState), ∃ S', runBlocks fi r bi S = .ok S' ∧
      (S'.Changed = true ∨ (S' = S ∧ ∀ j, j < r → ∀ ii I,
        S.M.instAt fi (bi + j) ii = some I → isGetGlobalIDPattern S.M I.value = .ok none)) := by
  intro r
  induction r with
  | zero =>
    intro bi S
    exact ⟨S, rfl, Or.inr ⟨rfl, fun j hj => absurd hj (Nat.not_lt_zero j)⟩⟩
  | succ r ih =>
    intro bi S
    simp only [runBlocks]
    obtain ⟨S1, h1, hor⟩ := runInsts_changed_or fi bi (S.M.blockSize fi bi) 0 S
    simp only [h1]
    rcases hor with hc | ⟨rfl, hno⟩
    · obtain ⟨S', hS', h⟩ := runBlocks_inv changed_stepInvariant fi r (bi + 1) S1 hc
      exact ⟨S', hS', Or.inl h⟩
    · obtain ⟨S', hS', h⟩ := ih (bi + 1) S1
      refine ⟨S', hS', ?_⟩
      rcases h with h | ⟨rfl, h⟩
      · exact Or.inl h
      · refine Or.inr ⟨rfl, ?_⟩
        intro j hj ii J hJ
        cases j with
        | zero =>
          rw [Nat.add_zero] at hJ
          have := hno ii (instAt_lt hJ).2.2 J (by rw [Nat.zero_add]; exact hJ)
          exact this
        | succ j =>
          apply h j (by omega) ii J
          rw [← hJ]
          congr 1
          omega

/-- The function loop either sets `Changed` or leaves the state as it was,
having found no match in any function it visited. -/
theorem runFunctions_changed_or :
    ∀ (r fi : Nat) (S : PassState), ∃ S', runFunctions r fi S = .ok S' ∧
      (S'.Changed = true ∨ (S' = S ∧ ∀ j, j < r → ∀ bi ii I,
        S.M.instAt (fi + j) bi ii = some I → isGetGlobalIDPattern S.M I.value = .ok none)) := by
  intro r
  induction r with
  | zero =>
    intro fi S
    exact ⟨S, rfl, Or.inr ⟨rfl, fun j hj => absurd hj (Nat.not_lt_zero j)⟩⟩
  | succ r ih =>
    intro fi S
    simp only [runFunctions]
    obtain ⟨S1, h1, hor⟩ := runBlocks_changed_or fi (S.M.numBlocks fi) 0 S
    simp only [h1]
    rcases hor with hc | ⟨rfl, hno⟩
    · obtain ⟨S', hS', h⟩ := runFunctions_inv changed_stepInvariant r (fi + 1) S1 hc
      exact ⟨S', hS', Or.inl h⟩
    · obtain ⟨S', hS', h⟩ := ih (fi + 1) S1
      refine ⟨S', hS', ?_⟩
      rcases h with h | ⟨rfl, h⟩
      · exact Or.inl h
      · refine Or.inr ⟨rfl, ?_⟩
        intro j hj bi ii J hJ
        cases j with
        | zero =>
          rw [Nat.add_zero] at hJ
          exact hno bi (instAt_lt hJ).2.1 ii J (by rw [Nat.zero_add]; exact hJ)
        | succ j =>
          apply h j (by omega) bi ii J
          rw [← hJ]
          congr 1
          omega
/-- When no instruction of the module matches, the loops leave the state as it
is at entry. -/
theorem runLoops_of_noMatch {M : Module}
    (h : ∀ I ∈ M.insts, isGetGlobalIDPattern M I.value = .ok none) :
    runLoops M = .ok ⟨M, false, []⟩ := by
  have hP : StepInvariant (fun S => S = ⟨M, false, []⟩) := by
    intro S fi bi ii I Dim hS hI hm
    subst hS
    rw [h I (instAt_mem hI)] at hm
    cases hm
  obtain ⟨S, hS, rfl⟩ := runLoops_inv hP M rfl
  exact hS

/-- The loops end; `Changed` is set exactly when some instruction of the
module at entry matches, and a state with `Changed` not set is the state at
entry. -/
theorem runLoops_changed_iff (M : Module) :
    ∃ S, runLoops M = .ok S ∧
      (S.Changed = true ↔
        ∃ I ∈ M.insts, ∃ d, isGetGlobalIDPattern M I.value = .ok (some d)) ∧
      (S.Changed = false → S = ⟨M, false, []⟩) := by
  obtain ⟨S, hS, hor⟩ := runFunctions_changed_or M.functions.length 0 ⟨M, false, []⟩
  refine ⟨S, hS, ?_, ?_⟩
  · constructor
    · intro hc
      by_contra hno
      have hnm : ∀ I ∈ M.insts, isGetGlobalIDPattern M I.value = .ok none := by
        intro I hI
        obtain ⟨r, hr⟩ := isGetGlobalIDPattern_ok M I.value
        cases r with
        | none => exact hr
        | some d => exact absurd ⟨I, hI, d, hr⟩ hno
      have h2 := runLoops_of_noMatch hnm
      unfold runLoops at h2
      rw [hS] at h2
      cases h2
      cases hc
    · rintro ⟨I, hI, d, hd⟩
      rcases hor with hc | ⟨rfl, hno⟩
      · exact hc
      · exfalso
        obtain ⟨fi, bi, ii, hpos⟩ := exists_instAt_of_mem hI
        have := hno fi (instAt_lt hpos).1 bi ii I (by rw [Nat.zero_add]; exact hpos)
        rw [hd] at this
        cases this
  · intro hc
    rcases hor with h | ⟨rfl, _⟩
    · rw [hc] at h
      cases h
    · rfl

/-- C6. The driver reports a change (`PreservedAnalyses::none`) exactly when
some instruction of the module matches the idiom; when none matches, the
module is returned as it was, with no declaration added, and the driver
reports no change (`PreservedAnalyses::all`). -/
theorem run_changed_iff (M : Module) :
    ∃ M' pa, run M = .ok (M', pa) ∧
      (pa = PreservedAnalyses.none ↔
        ∃ I ∈ M.insts, ∃ d, isGetGlobalIDPattern M I.value = .ok (some d)) ∧
      ((∀ I ∈ M.insts, ∀ d, isGetGlobalIDPattern M I.value ≠ .ok (some d)) →
        M' = M ∧ pa = PreservedAnalyses.all) := by
  obtain ⟨S, hS, hiff, hun⟩ := runLoops_changed_iff M
  refine ⟨S.M, if S.Changed then PreservedAnalyses.none else PreservedAnalyses.all, ?_, ?_, ?_⟩
  · simp only [run, hS]
  · rw [← hiff]
    cases S.Changed <;> simp
  · intro hno
    have hc : S.Changed = false := by
      cases h : S.Changed with
      | false => rfl
      | true =>
        obtain ⟨I, hI, d, hd⟩ := hiff.1 h
        exact absurd hd (hno I hI d)
    rw [hun hc]
    exact ⟨rfl, rfl⟩
/-! ## The loop body on the instruction list of the module -/

/-- The loop body at a valid position, on the flat instruction list: the new
instructions go before `I` and every use of `I` is replaced by the new value. -/
theorem rewriteMatch_flat {S : PassState} {fi bi ii : Nat} {I : Instruction} (Dim : Value)
    (hI : S.M.instAt fi bi ii = some I) :
    ∃ pre post k n2, S.M.insts = pre ++ I :: post ∧
      S.M.freshInstId < n2 ∧ Dim ≠ .inst n2 ∧
      (∀ J ∈ S.M.insts, J.id < n2 ∧ ∀ v ∈ J.operands, v ≠ .inst n2) ∧
      (rewriteMatch S fi bi ii I Dim).1.M.insts =
        (pre ++ newInsts S.M.freshInstId n2 I.ty Dim (.func k) ++ I :: post).map
          (Instruction.replaceUsesOfWith I.value (newValue S.M.freshInstId n2 I.ty)) ∧
      (rewriteMatch S fi bi ii I Dim).1.log =
        S.log ++ [⟨I, Dim, .inst S.M.freshInstId, newValue S.M.freshInstId n2 I.ty⟩] ∧
      (rewriteMatch S fi bi ii I Dim).2 =
        (newInsts S.M.freshInstId n2 I.ty Dim (.func k)).length := by
  obtain ⟨Fs1, F, Bs1, p, q, Bs2, Fs2, hM, rfl, rfl, rfl⟩ := instAt_plug hI
  obtain ⟨Fs2', k, n2, ⟨hFs, _⟩, hlt, hDim, hfr, hrw⟩ :=
    rewriteMatch_plug S Fs1 F Bs1 p q Bs2 Fs2 I Dim hM
  refine ⟨(Fs1.flatMap Function.insts ++ Bs1.flatMap BasicBlock.insts) ++ p,
    q ++ (Bs2.flatMap BasicBlock.insts ++ Fs2.flatMap Function.insts), k, n2, ?_, hlt, hDim, hfr,
    ?_, ?_, ?_⟩
  · rw [hM, insts_plug]
    simp
  · rw [hrw]
    simp only
    rw [replaceAllUsesWith_plug, insts_plug, hFs]
    simp
  · rw [hrw]
  · rw [hrw]

theorem getInst_eq_find (M : Module) (n : Nat) :
    M.getInst (.inst n) = M.insts.find? (fun I => I.id == n) := rfl

theorem replaceUsesOfWith_id (Old New : Value) (I : Instruction) :
    (I.replaceUsesOfWith Old New).id = I.id := rfl

theorem replaceUsesOfWith_ty (Old New : Value) (I : Instruction) :
    (I.replaceUsesOfWith Old New).ty = I.ty := rfl

theorem find?_map_replaceUses (Old New : Value) (l : List Instruction) (n : Nat) :
    (l.map (Instruction.replaceUsesOfWith Old New)).find? (fun I => I.id == n) =
      (l.find? (fun I => I.id == n)).map (Instruction.replaceUsesOfWith Old New) := by
  rw [List.find?_map]
  rfl

theorem find?_eq_none_of_lt {l : List Instruction} {n : Nat} (h : ∀ J ∈ l, J.id < n) :
    l.find? (fun I => I.id == n) = none := by
  rw [List.find?_eq_none]
  intro J hJ
  have := h J hJ
  simp only [beq_iff_eq]
  omega

/-- An instruction of the module before the loop body is still found, with its
uses of `I` replaced, after it. -/
theorem getInst_rewriteMatch_old {S : PassState} {fi bi ii : Nat} {I : Instruction} (Dim : Value)
    (hI : S.M.instAt fi bi ii = some I) {n : Nat} {J : Instruction}
    (hJ : S.M.getInst (.inst n) = some J) :
    ∃ C, (rewriteMatch S fi bi ii I Dim).1.M.getInst (.inst n) =
      some (J.replaceUsesOfWith I.value C) ∧
      (rewriteMatch S fi bi ii I Dim).1.log.getLast? = some ⟨I, Dim, .inst S.M.freshInstId, C⟩ := by
  obtain ⟨pre, post, k, n2, hpre, hlt, hDim, hfr, hins, hlog, _⟩ := rewriteMatch_flat Dim hI
  refine ⟨newValue S.M.freshInstId n2 I.ty, ?_, ?_⟩
  · rw [getInst_eq_find, hins, find?_map_replaceUses]
    rw [getInst_eq_find, hpre] at hJ
    have hJmem : J ∈ S.M.insts := by
      rw [hpre]
      exact List.mem_of_find?_eq_some hJ
    have hJid : J.id = n := by simpa using List.find?_some hJ
    have hn1 : n < S.M.freshInstId := by
      rw [← hJid]
      exact id_lt_freshInstId hJmem
    have hnew : (newInsts S.M.freshInstId n2 I.ty Dim (.func k)).find? (fun I => I.id == n) =
        none := by
      apply List.find?_eq_none.2
      intro X hX
      simp only [beq_iff_eq]
      unfold newInsts at hX
      split at hX
      · simp only [List.mem_singleton] at hX
        subst hX
        simp only [gidCall]
        omega
      · simp only [List.mem_cons, List.mem_singleton, List.not_mem_nil, or_false] at hX
        rcases hX with rfl | rfl
        · simp only [gidCall]
          omega
        · simp only [gidCast]
          omega
    rw [List.append_assoc, List.find?_append, List.find?_append, hnew]
    rw [List.find?_append] at hJ
    cases hp : pre.find? (fun I => I.id == n) with
    | some X =>
      rw [hp] at hJ
      simp only [Option.or_some] at hJ ⊢
      rw [Option.some.inj hJ]
      rfl
    | none =>
      rw [hp] at hJ
      simp only [Option.none_or] at hJ ⊢
      rw [hJ]
      rfl
  · rw [hlog]
    simp
/-! ## Use preservation -/

theorem asAdd_getInst {M : Module} {V lhs rhs : Value} (h : asAdd M V = some (lhs, rhs)) :
    ∃ J, M.getInst V = some J ∧ J.shape = .binop .add lhs rhs := by
  unfold asAdd at h
  cases hJ : M.getInst V with
  | none => simp [hJ] at h
  | some J =>
    refine ⟨J, rfl, ?_⟩
    simp only [hJ] at h
    split at h
    next l r hs =>
      simp only [Option.some.injEq, Prod.mk.injEq] at h
      rw [hs, h.1, h.2]
    next => cases h

theorem getInst_mem {M : Module} {V : Value} {J : Instruction} (h : M.getInst V = some J) :
    J ∈ M.insts := by
  cases V with
  | inst n => exact List.mem_of_find?_eq_some h
  | func n => cases h
  | other n => cases h

theorem operand0_mem {M : Module} {V d : Value} (h : operand0 M V = some d) :
    ∃ J ∈ M.insts, d ∈ J.operands := by
  unfold operand0 asCall at h
  cases hJ : M.getInst V with
  | none => simp [hJ] at h
  | some J =>
    refine ⟨J, getInst_mem hJ, ?_⟩
    simp only [hJ] at h
    obtain ⟨id, name, ty, shape⟩ := J
    cases shape with
    | call fty args callee =>
      simp only at h
      exact List.mem_of_mem_head? h
    | _ => simp at h

/-- A matched instruction is an addition of the module, and the dimension the
matcher returns is held by an operand slot of the module. -/
theorem isGetGlobalIDPattern_some_facts {M : Module} {V d : Value}
    (h : isGetGlobalIDPattern M V = .ok (some d)) :
    (∃ J lhs rhs, M.getInst V = some J ∧ J.shape = .binop .add lhs rhs) ∧
    (∃ J ∈ M.insts, d ∈ J.operands) := by
  obtain ⟨lhs, rhs, a, b, ca, cb, cc, hA, _, _, _, _, _, _, _, h0, _, _⟩ :=
    isGetGlobalIDPattern_some_imp h
  obtain ⟨J, hJ, hs⟩ := asAdd_getInst hA
  exact ⟨⟨J, lhs, rhs, hJ, hs⟩, operand0_mem h0⟩

theorem count_map_replace_old {Old New : Value} (h : New ≠ Old) (l : List Value) :
    (l.map (fun a => if a = Old then New else a)).count Old = 0 := by
  rw [List.count_eq_zero]
  intro hmem
  obtain ⟨a, _, ha⟩ := List.mem_map.1 hmem
  by_cases hc : a = Old
  · rw [if_pos hc] at ha
    exact h ha
  · rw [if_neg hc] at ha
    exact hc ha

theorem count_map_replace_other {Old New x : Value} (h1 : x ≠ Old) (h2 : x ≠ New)
    (l : List Value) :
    (l.map (fun a => if a = Old then New else a)).count x = l.count x := by
  induction l with
  | nil => rfl
  | cons a as ih =>
    simp only [List.map_cons, List.count_cons, ih]
    by_cases hc : a = Old
    · subst hc
      simp [h1.symm, h2.symm]
    · simp [hc]

theorem operands_replaceUsesOfWith (Old New : Value) (I : Instruction) :
    (I.replaceUsesOfWith Old New).operands =
      I.operands.map (fun a => if a = Old then New else a) := by
  obtain ⟨id, name, ty, shape⟩ := I
  cases shape <;>
    simp [Instruction.replaceUsesOfWith, Instruction.operands, Shape.replaceUsesOfWith,
      Shape.operands]

theorem numUses_eq_zero_iff {M : Module} {x : Value} :
    M.numUses x = 0 ↔ ∀ J ∈ M.insts, x ∉ J.operands := by
  unfold Module.numUses
  rw [List.sum_eq_zero_iff]
  constructor
  · intro h J hJ
    exact List.count_eq_zero.1 (h _ (List.mem_map.2 ⟨J, hJ, rfl⟩))
  · intro h c hc
    obtain ⟨J, hJ, rfl⟩ := List.mem_map.1 hc
    exact List.count_eq_zero.2 (h J hJ)
theorem getInst_inst_of_some {M : Module} {V : Value} {J : Instruction}
    (h : M.getInst V = some J) : V = .inst J.id := by
  cases V with
  | inst n =>
    have : J.id = n := by simpa using List.find?_some h
    rw [this]
  | func n => cases h
  | other n => cases h

/-- The inserted call is found in the module after the loop body. -/
theorem getInst_rewriteMatch_call {S : PassState} {fi bi ii : Nat} {I : Instruction} (Dim : Value)
    (hI : S.M.instAt fi bi ii = some I) :
    ∃ k C, (rewriteMatch S fi bi ii I Dim).1.M.getInst (.inst S.M.freshInstId) =
      some ((gidCall S.M.freshInstId Dim (.func k)).replaceUsesOfWith I.value C) := by
  obtain ⟨pre, post, k, n2, hpre, hlt, hDim, hfr, hins, hlog, _⟩ := rewriteMatch_flat Dim hI
  refine ⟨k, newValue S.M.freshInstId n2 I.ty, ?_⟩
  rw [getInst_eq_find, hins, find?_map_replaceUses]
  have hp : pre.find? (fun I => I.id == S.M.freshInstId) = none := by
    apply find?_eq_none_of_lt
    intro J hJ
    apply id_lt_freshInstId
    rw [hpre]
    exact List.mem_append_left _ hJ
  rw [List.append_assoc, List.find?_append, hp, Option.none_or]
  unfold newInsts
  split <;> simp [gidCall]

/-- The value that replaces the matched instruction is found in the module
after the loop body: it is the inserted call when the types agree, and else
the inserted cast of that call. -/
theorem getInst_rewriteMatch_new {S : PassState} {fi bi ii : Nat} {I : Instruction} (Dim : Value)
    (hI : S.M.instAt fi bi ii = some I) :
    ∃ k n2 C, (rewriteMatch S fi bi ii I Dim).1.log =
        S.log ++ [⟨I, Dim, .inst S.M.freshInstId, newValue S.M.freshInstId n2 I.ty⟩] ∧
      S.M.freshInstId < n2 ∧
      (rewriteMatch S fi bi ii I Dim).1.M.getInst (newValue S.M.freshInstId n2 I.ty) = some C ∧
      (I.ty = I64Ty → C = (gidCall S.M.freshInstId Dim (.func k)).replaceUsesOfWith I.value
        (newValue S.M.freshInstId n2 I.ty)) ∧
      (I.ty ≠ I64Ty → C = gidCast n2 I.ty (.inst S.M.freshInstId)) := by
  obtain ⟨pre, post, k, n2, hpre, hlt, hDim, hfr, hins, hlog, _⟩ := rewriteMatch_flat Dim hI
  have hIlt : I.id < S.M.freshInstId := by
    apply id_lt_freshInstId
    rw [hpre]
    simp
  by_cases hty : I.ty = I64Ty
  · refine ⟨k, n2, _, hlog, hlt, ?_, fun _ => rfl, fun h => absurd hty h⟩
    have hnv : newValue S.M.freshInstId n2 I.ty = .inst S.M.freshInstId := by
      simp [newValue, hty]
    rw [hnv, getInst_eq_find, hins, find?_map_replaceUses]
    have hp : pre.find? (fun I => I.id == S.M.freshInstId) = none := by
      apply find?_eq_none_of_lt
      intro J hJ
      apply id_lt_freshInstId
      rw [hpre]
      exact List.mem_append_left _ hJ
    rw [List.append_assoc, List.find?_append, hp, Option.none_or]
    simp [newInsts, hty, gidCall, newValue]
  · refine ⟨k, n2, _, hlog, hlt, ?_, fun h => absurd h hty, fun _ => rfl⟩
    have hnv : newValue S.M.freshInstId n2 I.ty = .inst n2 := by
      simp [newValue, hty]
    rw [hnv, getInst_eq_find, hins, find?_map_replaceUses]
    have hp : pre.find? (fun I => I.id == n2) = none := by
      apply find?_eq_none_of_lt
      intro J hJ
      apply (hfr J _).1
      rw [hpre]
      exact List.mem_append_left _ hJ
    rw [List.append_assoc, List.find?_append, hp, Option.none_or]
    have hne : ¬ S.M.freshInstId = n2 := by omega
    have hne2 : ¬ Value.inst S.M.freshInstId = I.value := by
      simp only [Instruction.value, Value.inst.injEq]
      omega
    simp [newInsts, hty, gidCall, gidCast, hne, Instruction.replaceUsesOfWith,
      Shape.replaceUsesOfWith, hne2]
/-! ## Width preservation -/

theorem getInst_rewriteMatch_old_value {S : PassState} {fi bi ii : Nat} {I : Instruction}
    (Dim : Value) (hI : S.M.instAt fi bi ii = some I) {V : Value} {J : Instruction}
    (hJ : S.M.getInst V = some J) :
    ∃ C, (rewriteMatch S fi bi ii I Dim).1.M.getInst V = some (J.replaceUsesOfWith I.value C) := by
  have hV := getInst_inst_of_some hJ
  rw [hV] at hJ ⊢
  obtain ⟨C, hC, _⟩ := getInst_rewriteMatch_old Dim hI hJ
  exact ⟨C, hC⟩

/-- A value found in the module with a shape other than an addition is not
the instruction the matcher accepted. -/
theorem ne_matched_of_shape {M : Module} {V W d : Value} {J : Instruction}
    (hm : isGetGlobalIDPattern M W = .ok (some d)) (hJ : M.getInst V = some J)
    (hs : ∀ lhs rhs, J.shape ≠ .binop .add lhs rhs) : V ≠ W := by
  intro h
  subst h
  obtain ⟨⟨J2, lhs, rhs, hJ2, hs2⟩, _⟩ := isGetGlobalIDPattern_some_facts hm
  rw [hJ] at hJ2
  cases hJ2
  exact hs lhs rhs hs2

theorem logTyped_stepInvariant : StepInvariant LogTyped := by
  intro S fi bi ii I Dim hP hI hm e he
  obtain ⟨k, n2, C, hlog, hlt, hC, hC64, hCn⟩ := getInst_rewriteMatch_new Dim hI
  rw [hlog] at he
  rcases List.mem_append.1 he with he | he
  · obtain ⟨G, C0, hG, hGty, ⟨args, callee, hGs⟩, hC0, hC0ty, h64, hw⟩ := hP e he
    obtain ⟨X, hGX⟩ := getInst_rewriteMatch_old_value Dim hI hG
    obtain ⟨Y, hCY⟩ := getInst_rewriteMatch_old_value Dim hI hC0
    refine ⟨_, _, hGX, hGty, ?_, hCY, hC0ty, h64, ?_⟩
    · refine ⟨args.map (fun a => if a = I.value then X else a),
        if callee = I.value then X else callee, ?_⟩
      simp only [Instruction.replaceUsesOfWith, hGs, Shape.replaceUsesOfWith]
    · intro w hw1 hw2
      have hne : e.GIDCall ≠ I.value :=
        ne_matched_of_shape hm hG (by intro l r h; rw [hGs] at h; cases h)
      simp only [Instruction.replaceUsesOfWith, hw w hw1 hw2, Shape.replaceUsesOfWith,
        if_neg hne]
  · simp only [List.mem_singleton] at he
    obtain ⟨k2, X, hG⟩ := getInst_rewriteMatch_call Dim hI
    have heI : e.I = I := by rw [he]
    have heG : e.GIDCall = .inst S.M.freshInstId := by rw [he]
    have heC : e.CastedGID = newValue S.M.freshInstId n2 I.ty := by rw [he]
    rw [heI, heG, heC]
    refine ⟨_, C, hG, rfl, ?_, hC, ?_, ?_, ?_⟩
    · exact ⟨_, _, rfl⟩
    · by_cases hty : I.ty = I64Ty
      · rw [hC64 hty, hty]
        rfl
      · rw [hCn hty]
        rfl
    · intro hty
      simp only [newValue, hty, if_true]
    · intro w hw1 hw2
      have hty : I.ty ≠ I64Ty := by
        rw [hw1]
        intro h
        simp only [I64Ty, Ty.int.injEq] at h
        omega
      rw [hCn hty]
      have hbits : ¬ (64 = w) := by omega
      simp only [gidCast, hw1, I64Ty, Ty.getScalarSizeInBits, hbits, if_false]

theorem insertedCount_stepInvariant (M : Module) :
    StepInvariant (fun S => S.M.insts.length = M.insts.length + insertedCount S.log) := by
  intro S fi bi ii I Dim hP hI _
  obtain ⟨pre, post, k, n2, hpre, _, _, _, hins, hlog, _⟩ := rewriteMatch_flat Dim hI
  show (rewriteMatch S fi bi ii I Dim).1.M.insts.length =
    M.insts.length + insertedCount (rewriteMatch S fi bi ii I Dim).1.log
  have hP : S.M.insts.length = M.insts.length + insertedCount S.log := hP
  rw [hins, hlog, List.length_map]
  rw [hpre] at hP
  simp only [List.length_append, List.length_cons] at hP ⊢
  unfold insertedCount at hP ⊢
  simp only [List.map_append, List.sum_append, List.map_cons, List.map_nil, List.sum_cons,
    List.sum_nil]
  unfold newInsts
  split <;> simp only [List.length_cons, List.length_nil] <;> omega

/-- C4. Every rewrite of a run replaces the matched instruction by a value of
exactly its type: the inserted 64-bit call itself, with no cast created, when
the instruction has the 64-bit integer type, and a truncation of that call to
the type of the instruction when it has a narrower integer type. -/
theorem run_width_preservation (M : Module) :
    ∃ S, runLoops M = .ok S ∧
      (∀ e ∈ S.log, ∃ G C, S.M.getInst e.GIDCall = some G ∧ G.ty = I64Ty ∧
        (∃ args callee, G.shape = .call ⟨I64Ty, [I32Ty]⟩ args callee) ∧
        S.M.getInst e.CastedGID = some C ∧ C.ty = e.I.ty ∧
        (e.I.ty = I64Ty → e.CastedGID = e.GIDCall) ∧
        (∀ w, e.I.ty = .int w → w < 64 → C.shape = .cast .trunc e.GIDCall)) ∧
      S.M.insts.length = M.insts.length + insertedCount S.log := by
  have hP : StepInvariant (fun S => LogTyped S ∧
      S.M.insts.length = M.insts.length + insertedCount S.log) := by
    intro S fi bi ii I Dim h hI hm
    exact ⟨logTyped_stepInvariant S fi bi ii I Dim h.1 hI hm,
      insertedCount_stepInvariant M S fi bi ii I Dim h.2 hI hm⟩
  obtain ⟨S, hS, h1, h2⟩ := runLoops_inv hP M
    ⟨(fun e he => by cases he), (by simp [insertedCount])⟩
  exact ⟨S, hS, h1, h2⟩
/-! ## Use preservation: the loop body -/

theorem shape_replaceUsesOfWith_ne_add {Old New : Value} {J : Instruction}
    (h : ∀ lhs rhs, J.shape ≠ .binop .add lhs rhs) :
    ∀ lhs rhs, (J.replaceUsesOfWith Old New).shape ≠ .binop .add lhs rhs := by
  intro lhs rhs
  obtain ⟨id, name, ty, shape⟩ := J
  cases shape with
  | binop op a b =>
    cases op with
    | add => exact absurd rfl (h a b)
    | _ => simp [Instruction.replaceUsesOfWith, Shape.replaceUsesOfWith]
  | _ => simp [Instruction.replaceUsesOfWith, Shape.replaceUsesOfWith]

/-- Everything the proofs about uses need to know about one run of the loop
body at a valid position. -/
theorem rewriteMatch_facts {S : PassState} {fi bi ii : Nat} {I : Instruction} (Dim : Value)
    (hI : S.M.instAt fi bi ii = some I) :
    ∃ k n2 C',
      C' = newValue S.M.freshInstId n2 I.ty ∧ S.M.freshInstId < n2 ∧ I.id < S.M.freshInstId ∧
      (∀ J ∈ S.M.insts, J.id < S.M.freshInstId ∧
        ∀ v ∈ J.operands, v ≠ .inst S.M.freshInstId ∧ v ≠ .inst n2) ∧
      (rewriteMatch S fi bi ii I Dim).1.log = S.log ++ [⟨I, Dim, .inst S.M.freshInstId, C'⟩] ∧
      (∀ J', J' ∈ (rewriteMatch S fi bi ii I Dim).1.M.insts ↔
        ∃ J, J' = J.replaceUsesOfWith I.value C' ∧
          (J ∈ S.M.insts ∨ J ∈ newInsts S.M.freshInstId n2 I.ty Dim (.func k))) ∧
      (∀ V J, S.M.getInst V = some J →
        (rewriteMatch S fi bi ii I Dim).1.M.getInst V = some (J.replaceUsesOfWith I.value C')) ∧
      (rewriteMatch S fi bi ii I Dim).1.M.getInst (.inst S.M.freshInstId) =
        some ((gidCall S.M.freshInstId Dim (.func k)).replaceUsesOfWith I.value C') ∧
      (∃ C, (rewriteMatch S fi bi ii I Dim).1.M.getInst C' = some C ∧
        ∀ lhs rhs, C.shape ≠ .binop .add lhs rhs) := by
  obtain ⟨pre, post, k, n2, hpre, hlt, hDim, hfr, hins, hlog, _⟩ := rewriteMatch_flat Dim hI
  have hImem : I ∈ S.M.insts := instAt_mem hI
  refine ⟨k, n2, newValue S.M.freshInstId n2 I.ty, rfl, hlt, id_lt_freshInstId hImem, ?_, hlog,
    ?_, ?_, ?_, ?_⟩
  · intro J hJ
    exact ⟨id_lt_freshInstId hJ, fun v hv =>
      ⟨operand_ne_freshInstId hJ hv (le_refl _), (hfr J hJ).2 v hv⟩⟩
  · intro J'
    rw [hins, List.mem_map, hpre]
    constructor
    · rintro ⟨J, hJ, rfl⟩
      refine ⟨J, rfl, ?_⟩
      simp only [List.mem_append, List.mem_cons] at hJ ⊢
      tauto
    · rintro ⟨J, rfl, hJ⟩
      refine ⟨J, ?_, rfl⟩
      simp only [List.mem_append, List.mem_cons] at hJ ⊢
      tauto
  · intro V J hJ
    have hV := getInst_inst_of_some hJ
    rw [hV] at hJ ⊢
    obtain ⟨C, hC, hlast⟩ := getInst_rewriteMatch_old Dim hI hJ
    rw [hlog] at hlast
    simp only [List.getLast?_append, List.getLast?_singleton, Option.or_some,
      Option.some.injEq, Rewritten.mk.injEq, true_and] at hlast
    rw [hC, ← hlast]
  · rw [getInst_eq_find, hins, find?_map_replaceUses]
    have hp : pre.find? (fun I => I.id == S.M.freshInstId) = none := by
      apply find?_eq_none_of_lt
      intro J hJ
      apply id_lt_freshInstId
      rw [hpre]
      exact List.mem_append_left _ hJ
    rw [List.append_assoc, List.find?_append, hp, Option.none_or]
    unfold newInsts
    split <;> simp [gidCall]
  · have hIlt : I.id < S.M.freshInstId := id_lt_freshInstId hImem
    by_cases hty : I.ty = I64Ty
    · have hnv : newValue S.M.freshInstId n2 I.ty = .inst S.M.freshInstId := by
        simp [newValue, hty]
      rw [hnv, getInst_eq_find, hins, find?_map_replaceUses]
      have hp : pre.find? (fun I => I.id == S.M.freshInstId) = none := by
        apply find?_eq_none_of_lt
        intro J hJ
        apply id_lt_freshInstId
        rw [hpre]
        exact List.mem_append_left _ hJ
      rw [List.append_assoc, List.find?_append, hp, Option.none_or]
      refine ⟨(gidCall S.M.freshInstId Dim (.func k)).replaceUsesOfWith I.value
        (.inst S.M.freshInstId), ?_, ?_⟩
      · simp [newInsts, hty, gidCall, newValue]
      · intro lhs rhs
        simp [gidCall, Instruction.replaceUsesOfWith, Shape.replaceUsesOfWith]
    · have hnv : newValue S.M.freshInstId n2 I.ty = .inst n2 := by
        simp [newValue, hty]
      rw [hnv, getInst_eq_find, hins, find?_map_replaceUses]
      have hp : pre.find? (fun I => I.id == n2) = none := by
        apply find?_eq_none_of_lt
        intro J hJ
        apply (hfr J _).1
        rw [hpre]
        exact List.mem_append_left _ hJ
      rw [List.append_assoc, List.find?_append, hp, Option.none_or]
      have hne : ¬ S.M.freshInstId = n2 := by omega
      refine ⟨(gidCast n2 I.ty (.inst S.M.freshInstId)).replaceUsesOfWith I.value (.inst n2),
        ?_, ?_⟩
      · simp [newInsts, hty, gidCall, gidCast, hne, newValue]
      · intro lhs rhs
        simp [gidCast, Instruction.replaceUsesOfWith, Shape.replaceUsesOfWith]
theorem mem_newInsts_operands {n1 n2 : Nat} {Ty : Ty} {Dim callee : Value} {J : Instruction}
    (hJ : J ∈ newInsts n1 n2 Ty Dim callee) {v : Value} (hv : v ∈ J.operands) :
    v = Dim ∨ v = callee ∨ v = .inst n1 := by
  unfold newInsts at hJ
  split at hJ
  · simp only [List.mem_singleton] at hJ
    subst hJ
    simp only [gidCall, Instruction.operands, Shape.operands, List.cons_append, List.nil_append,
      List.mem_cons, List.mem_singleton, List.not_mem_nil, or_false] at hv
    tauto
  · simp only [List.mem_cons, List.mem_singleton, List.not_mem_nil, or_false] at hJ
    rcases hJ with rfl | rfl
    · simp only [gidCall, Instruction.operands, Shape.operands, List.cons_append,
        List.nil_append, List.mem_cons, List.mem_singleton, List.not_mem_nil, or_false] at hv
      tauto
    · simp only [gidCast, Instruction.operands, Shape.operands, List.mem_singleton] at hv
      tauto

theorem gidCall_mem_newInsts (n1 n2 : Nat) (Ty : Ty) (Dim callee : Value) :
    gidCall n1 Dim callee ∈ newInsts n1 n2 Ty Dim callee := by
  unfold newInsts
  split <;> simp

theorem newValue_ne_of_lt {n1 n2 m : Nat} (Ty : Ty) (h1 : m < n1) (h2 : n1 < n2) :
    newValue n1 n2 Ty ≠ .inst m := by
  unfold newValue
  split <;> simp <;> omega

theorem logUses_stepInvariant : StepInvariant LogUses := by
  intro S fi bi ii I Dim hP hI hm e he
  obtain ⟨k, n2, C', hC', hlt, hIlt, hfr, hlog, hmem, hold, hcall, hnew⟩ :=
    rewriteMatch_facts Dim hI
  obtain ⟨_, J0, hJ0, hDimJ0⟩ := isGetGlobalIDPattern_some_facts hm
  have hfresh : S.M.freshInstId < (rewriteMatch S fi bi ii I Dim).1.M.freshInstId := by
    have := id_lt_freshInstId (getInst_mem hcall)
    exact this
  rw [hlog] at he
  rcases List.mem_append.1 he with he | he
  · obtain ⟨hz, hid, C, hC, hCs⟩ := hP e he
    refine ⟨?_, by omega, ?_⟩
    · rw [numUses_eq_zero_iff] at hz ⊢
      intro J' hJ' hx
      obtain ⟨J, rfl, hJ⟩ := (hmem J').1 hJ'
      rw [operands_replaceUsesOfWith] at hx
      obtain ⟨a, ha, hax⟩ := List.mem_map.1 hx
      by_cases hc : a = I.value
      · rw [if_pos hc] at hax
        rw [hC'] at hax
        exact newValue_ne_of_lt I.ty hid hlt hax
      · rw [if_neg hc] at hax
        subst hax
        rcases hJ with hJ | hJ
        · exact hz J hJ ha
        · rcases mem_newInsts_operands hJ ha with h | h | h
          · rw [h] at hz
            exact hz J0 hJ0 hDimJ0
          · simp [Instruction.value] at h
          · simp only [Instruction.value, Value.inst.injEq] at h
            omega
    · exact ⟨_, hold _ _ hC, shape_replaceUsesOfWith_ne_add hCs⟩
  · simp only [List.mem_singleton] at he
    have heI : e.I = I := by rw [he]
    have heC : e.CastedGID = C' := by rw [he]
    rw [heI, heC]
    refine ⟨?_, by omega, hnew⟩
    rw [numUses_eq_zero_iff]
    intro J' hJ' hx
    obtain ⟨J, rfl, hJ⟩ := (hmem J').1 hJ'
    rw [operands_replaceUsesOfWith] at hx
    obtain ⟨a, ha, hax⟩ := List.mem_map.1 hx
    by_cases hc : a = I.value
    · rw [if_pos hc] at hax
      rw [hC'] at hax
      exact newValue_ne_of_lt I.ty hIlt hlt hax
    · rw [if_neg hc] at hax
      exact hc hax

theorem replacementOf_append_singleton (log : List Rewritten) (e : Rewritten) (v : Value) :
    replacementOf (log ++ [e]) v =
      match log.find? (fun e => e.I.value == v) with
      | some e0 => e0.CastedGID
      | none => if e.I.value = v then e.CastedGID else v := by
  unfold replacementOf
  rw [List.find?_append]
  cases log.find? (fun e => e.I.value == v) with
  | some e0 => rfl
  | none =>
    by_cases h : e.I.value = v
    · simp [h]
    · simp [h]

theorem slotsFollow_stepInvariant (M0 : Module) :
    StepInvariant (fun S => LogUses S ∧ SlotsFollow M0 S) := by
  intro S fi bi ii I Dim hP hI hm
  refine ⟨logUses_stepInvariant S fi bi ii I Dim hP.1 hI hm, ?_⟩
  obtain ⟨k, n2, C', hC', hlt, hIlt, hfr, hlog, hmem, hold, hcall, hnew⟩ :=
    rewriteMatch_facts Dim hI
  show SlotsFollow M0 (rewriteMatch S fi bi ii I Dim).1
  intro n U j v hU hv
  obtain ⟨U1, hU1, hU1v⟩ := hP.2 n U j v hU hv
  refine ⟨_, hold _ _ hU1, ?_⟩
  rw [operands_replaceUsesOfWith, List.getElem?_map, hU1v, hlog, replacementOf_append_singleton]
  simp only [Option.map_some', Option.some.injEq]
  unfold replacementOf
  cases hf : S.log.find? (fun e => e.I.value == v) with
  | some e0 =>
    simp only
    have he0 : e0 ∈ S.log := List.mem_of_find?_eq_some hf
    obtain ⟨_, _, C, hC, hCs⟩ := hP.1 e0 he0
    have hne : e0.CastedGID ≠ I.value := ne_matched_of_shape hm hC hCs
    rw [if_neg hne]
  | none =>
    simp only
    by_cases hvI : v = I.value
    · rw [if_pos hvI, if_pos hvI.symm]
    · rw [if_neg hvI, if_neg (fun h => hvI h.symm)]
theorem closed_stepInvariant : StepInvariant (fun S => Closed S.M) := by
  intro S fi bi ii I Dim hP hI hm
  obtain ⟨k, n2, C', hC', hlt, hIlt, hfr, hlog, hmem, hold, hcall, hnew⟩ :=
    rewriteMatch_facts Dim hI
  obtain ⟨_, J0, hJ0, hDimJ0⟩ := isGetGlobalIDPattern_some_facts hm
  show Closed (rewriteMatch S fi bi ii I Dim).1.M
  intro J' hJ' n hn
  obtain ⟨J, rfl, hJ⟩ := (hmem J').1 hJ'
  rw [operands_replaceUsesOfWith] at hn
  obtain ⟨a, ha, han⟩ := List.mem_map.1 hn
  have hofS : ∀ J1 ∈ S.M.insts, Value.inst n ∈ J1.operands →
      ((rewriteMatch S fi bi ii I Dim).1.M.getInst (.inst n)).isSome = true := by
    intro J1 hJ1 h1
    have h2 := hP J1 hJ1 n h1
    obtain ⟨X, hX⟩ := Option.isSome_iff_exists.1 h2
    rw [hold _ _ hX]
    rfl
  by_cases hc : a = I.value
  · rw [if_pos hc] at han
    obtain ⟨C, hC, _⟩ := hnew
    rw [← han, hC]
    rfl
  · rw [if_neg hc] at han
    subst han
    rcases hJ with hJ | hJ
    · exact hofS J hJ ha
    · rcases mem_newInsts_operands hJ ha with h | h | h
      · rw [← h] at hDimJ0
        exact hofS J0 hJ0 hDimJ0
      · cases h
      · rw [h, hcall]
        rfl

/-! ## The scenarios of the specification -/

/-- The end-to-end scenario: one run inserts the 64-bit call and its
truncation to 32 bits, moves the user to the truncation, and reports a
change. -/
theorem run_exE2E : run exE2E = .ok (exE2EAfter, PreservedAnalyses.none) := by decide

/-- The scenario without a match: the module is returned as it is and no
change is reported. -/
theorem run_exNoMatch : run exNoMatch = .ok (exNoMatch, PreservedAnalyses.all) := by decide

/-- The log of the end-to-end scenario: the addition was rewritten to the
truncation `10` of the call `9` on dimension 0. -/
theorem runLoops_exE2E_log :
    (runLoops exE2E).map (fun S => S.log) =
      .ok [⟨⟨7, "a", .int 32, .binop .add (.inst 6) (.inst 5)⟩, .other 0, .inst 9, .inst 10⟩] := by
  decide

/-- C2, refuted as stated: a second run on the result of the end-to-end
scenario matches the addition again and does not return the module it was
given. -/
theorem run_not_idempotent :
    run exE2E = .ok (exE2EAfter, PreservedAnalyses.none) ∧
    isGetGlobalIDPattern exE2EAfter (.inst 7) = .ok (some (.other 0)) ∧
    (run exE2EAfter).map (fun r => r.2) = .ok PreservedAnalyses.none ∧
    (run exE2EAfter).map (fun r => r.1) ≠ .ok exE2EAfter := by decide
/-! ## A rewritten instruction still matches -/

/-- A function of the module is still found after the loop body, with the same
name and type. -/
theorem getFunction_rewriteMatch {S : PassState} {fi bi ii : Nat} {I : Instruction} (Dim : Value)
    (hI : S.M.instAt fi bi ii = some I) {V : Value} {F : Function}
    (hF : S.M.getFunction V = some F) :
    ∃ F', (rewriteMatch S fi bi ii I Dim).1.M.getFunction V = some F' ∧
      F'.name = F.name ∧ F'.fty = F.fty := by
  obtain ⟨Fs1, F0, Bs1, p, q, Bs2, Fs2, hM, rfl, rfl, rfl⟩ := instAt_plug hI
  obtain ⟨Fs2', k, n2, ⟨_, extra, rfl, _⟩, _, _, _, hrw⟩ :=
    rewriteMatch_plug S Fs1 F0 Bs1 p q Bs2 Fs2 I Dim hM
  rw [hrw]
  simp only [Module.replaceAllUsesWith]
  rw [getFunction_mapInsts]
  cases V with
  | inst n => rw [hM] at hF; cases hF
  | other n => rw [hM] at hF; cases hF
  | func n =>
    rw [hM] at hF
    simp only [Module.getFunction, plug, List.find?_append, List.find?_cons] at hF ⊢
    cases h1 : Fs1.find? (fun F => F.id == n) with
    | some X =>
      rw [h1] at hF
      simp only [Option.or_some, Option.some.injEq] at hF
      subst hF
      exact ⟨_, rfl, rfl, rfl⟩
    | none =>
      rw [h1] at hF
      simp only [Option.none_or] at hF ⊢
      by_cases h0 : (F0.id == n) = true
      · simp only [h0] at hF ⊢
        simp only [Option.some.injEq] at hF
        subst hF
        exact ⟨_, rfl, rfl, rfl⟩
      · simp only [h0] at hF ⊢
        rw [hF]
        exact ⟨_, rfl, rfl, rfl⟩

theorem asAdd_of_replaced {M M2 : Module} {Old New : Value}
    (hold : ∀ V J, M.getInst V = some J → M2.getInst V = some (J.replaceUsesOfWith Old New))
    {V l r : Value} (h : asAdd M V = some (l, r)) :
    asAdd M2 V = some (if l = Old then New else l, if r = Old then New else r) := by
  unfold asAdd at h ⊢
  cases hJ : M.getInst V with
  | none => simp [hJ] at h
  | some J =>
    rw [hold V J hJ]
    rw [hJ] at h
    obtain ⟨id, name, ty, shape⟩ := J
    cases shape with
    | binop op a b =>
      cases op with
      | add =>
        simp only [Option.some.injEq, Prod.mk.injEq] at h
        obtain ⟨rfl, rfl⟩ := h
        rfl
      | _ => simp at h
    | _ => simp at h

theorem asMul_of_replaced {M M2 : Module} {Old New : Value}
    (hold : ∀ V J, M.getInst V = some J → M2.getInst V = some (J.replaceUsesOfWith Old New))
    {V l r : Value} (h : asMul M V = some (l, r)) :
    asMul M2 V = some (if l = Old then New else l, if r = Old then New else r) := by
  unfold asMul at h ⊢
  cases hJ : M.getInst V with
  | none => simp [hJ] at h
  | some J =>
    rw [hold V J hJ]
    rw [hJ] at h
    obtain ⟨id, name, ty, shape⟩ := J
    cases shape with
    | binop op a b =>
      cases op with
      | mul =>
        simp only [Option.some.injEq, Prod.mk.injEq] at h
        obtain ⟨rfl, rfl⟩ := h
        rfl
      | _ => simp at h
    | _ => simp at h

theorem asTrunc_of_replaced {M M2 : Module} {Old New : Value}
    (hold : ∀ V J, M.getInst V = some J → M2.getInst V = some (J.replaceUsesOfWith Old New))
    {V src : Value} (h : asTrunc M V = some src) :
    asTrunc M2 V = some (if src = Old then New else src) := by
  unfold asTrunc at h ⊢
  cases hJ : M.getInst V with
  | none => simp [hJ] at h
  | some J =>
    rw [hold V J hJ]
    rw [hJ] at h
    obtain ⟨id, name, ty, shape⟩ := J
    cases shape with
    | cast op a =>
      cases op with
      | trunc =>
        simp only [Option.some.injEq] at h
        subst h
        rfl
      | _ => simp at h
    | _ => simp at h

theorem asCall_of_replaced {M M2 : Module} {Old New : Value}
    (hold : ∀ V J, M.getInst V = some J → M2.getInst V = some (J.replaceUsesOfWith Old New))
    {V callee : Value} {fty : FunctionType} {args : List Value}
    (h : asCall M V = some (fty, args, callee)) :
    asCall M2 V = some (fty, args.map (fun a => if a = Old then New else a),
      if callee = Old then New else callee) := by
  unfold asCall at h ⊢
  cases hJ : M.getInst V with
  | none => simp [hJ] at h
  | some J =>
    rw [hold V J hJ]
    rw [hJ] at h
    obtain ⟨id, name, ty, shape⟩ := J
    cases shape with
    | call f a c =>
      simp only [Option.some.injEq, Prod.mk.injEq] at h
      obtain ⟨rfl, rfl, rfl⟩ := h
      rfl
    | _ => simp at h

theorem getFunction_func_of_some {M : Module} {V : Value} {F : Function}
    (h : M.getFunction V = some F) : ∃ n, V = .func n := by
  cases V with
  | func n => exact ⟨n, rfl⟩
  | inst n => cases h
  | other n => cases h

theorem DirectCallTo_of_replaced {M M2 : Module} {n : Nat} {New : Value}
    (hold : ∀ V J, M.getInst V = some J →
      M2.getInst V = some (J.replaceUsesOfWith (.inst n) New))
    (hfun : ∀ V F, M.getFunction V = some F →
      ∃ F', M2.getFunction V = some F' ∧ F'.name = F.name ∧ F'.fty = F.fty)
    {V : Value} {N : String} (h : DirectCallTo M V N) : DirectCallTo M2 V N := by
  unfold DirectCallTo directCallee at h ⊢
  cases hc : asCall M V with
  | none => simp [hc] at h
  | some c =>
    obtain ⟨fty, args, callee⟩ := c
    rw [asCall_of_replaced hold hc]
    simp only [hc] at h ⊢
    unfold Module.getCalledFunction at h ⊢
    cases hF : M.getFunction callee with
    | none => simp [hF] at h
    | some F =>
      obtain ⟨m, rfl⟩ := getFunction_func_of_some hF
      obtain ⟨F', hF', hn, hf⟩ := hfun _ _ hF
      have hne : ¬ (Value.func m = Value.inst n) := by simp
      simp only [hF, if_neg hne, hF', hf] at h ⊢
      by_cases hty : F.fty = fty
      · simp only [hty, if_true] at h ⊢
        rw [hn]
        exact h
      · simp [hty] at h

theorem operand0_of_replaced {M M2 : Module} {Old New : Value}
    (hold : ∀ V J, M.getInst V = some J → M2.getInst V = some (J.replaceUsesOfWith Old New))
    {V d : Value} (h : operand0 M V = some d) :
    operand0 M2 V = some (if d = Old then New else d) := by
  unfold operand0 at h ⊢
  cases hc : asCall M V with
  | none => simp [hc] at h
  | some c =>
    obtain ⟨fty, args, callee⟩ := c
    rw [asCall_of_replaced hold hc]
    simp only [hc] at h ⊢
    cases args with
    | nil =>
      simp only [List.nil_append, List.head?_cons, Option.some.injEq] at h
      subst h
      rfl
    | cons a as =>
      simp only [List.cons_append, List.head?_cons, Option.some.injEq] at h
      subst h
      rfl

theorem Unwraps_of_replaced {M M2 : Module} {Old New : Value}
    (hold : ∀ V J, M.getInst V = some J → M2.getInst V = some (J.replaceUsesOfWith Old New))
    {X Y : Value} (hY : Y ≠ Old) (h : Unwraps M X Y) : Unwraps M2 X Y := by
  rcases h with h | h
  · left; exact h
  · right
    rw [asTrunc_of_replaced hold h, if_neg hY]

theorem le_sum_of_mem {α : Type} (f : α → Nat) {l : List α} {a : α} (h : a ∈ l) :
    f a ≤ (l.map f).sum := by
  induction l with
  | nil => cases h
  | cons x xs ih =>
    simp only [List.map_cons, List.sum_cons]
    rcases List.mem_cons.1 h with rfl | h
    · omega
    · have := ih h
      omega

theorem add_le_sum_of_mem {α : Type} (f : α → Nat) {l : List α} {a b : α} (ha : a ∈ l)
    (hb : b ∈ l) (hab : a ≠ b) : f a + f b ≤ (l.map f).sum := by
  induction l with
  | nil => cases ha
  | cons x xs ih =>
    simp only [List.map_cons, List.sum_cons]
    rcases List.mem_cons.1 ha with ha1 | ha1
    · rcases List.mem_cons.1 hb with hb1 | hb1
      · exact absurd (ha1.trans hb1.symm) hab
      · have := le_sum_of_mem f hb1
        rw [ha1]
        omega
    · rcases List.mem_cons.1 hb with hb1 | hb1
      · have := le_sum_of_mem f ha1
        rw [hb1]
        omega
      · have := ih ha1 hb1
        omega

/-- A value held by operand slots of two different instructions has at least
two uses. -/
theorem two_le_numUses {M : Module} {J1 J2 : Instruction} {x : Value} (h1 : J1 ∈ M.insts)
    (h2 : J2 ∈ M.insts) (hne : J1 ≠ J2) (hx1 : x ∈ J1.operands) (hx2 : x ∈ J2.operands) :
    2 ≤ M.numUses x := by
  have := add_le_sum_of_mem (fun I => I.operands.count x) h1 h2 hne
  have c1 : 0 < J1.operands.count x := List.count_pos_iff.2 hx1
  have c2 : 0 < J2.operands.count x := List.count_pos_iff.2 hx2
  unfold Module.numUses
  simp only at this
  omega

/-- The loop body leaves the number of uses of a value as it was when the value
is an instruction older than the inserted ones, is not the matched instruction,
and is not the dimension. -/
theorem numUses_rewriteMatch {S : PassState} {fi bi ii : Nat} {I : Instruction} (Dim : Value)
    (hI : S.M.instAt fi bi ii = some I) {m : Nat} (hm : m < S.M.freshInstId)
    (hxI : Value.inst m ≠ I.value) (hxD : Value.inst m ≠ Dim) :
    (rewriteMatch S fi bi ii I Dim).1.M.numUses (.inst m) = S.M.numUses (.inst m) := by
  obtain ⟨pre, post, k, n2, hpre, hlt, hDim, hfr, hins, hlog, _⟩ := rewriteMatch_flat Dim hI
  have hxC : Value.inst m ≠ newValue S.M.freshInstId n2 I.ty :=
    fun h => newValue_ne_of_lt I.ty hm hlt h.symm
  have hcount : ∀ J : Instruction,
      (J.replaceUsesOfWith I.value (newValue S.M.freshInstId n2 I.ty)).operands.count (.inst m) =
        J.operands.count (.inst m) := by
    intro J
    rw [operands_replaceUsesOfWith]
    exact count_map_replace_other hxI hxC _
  have hnew : ((newInsts S.M.freshInstId n2 I.ty Dim (.func k)).map
      (fun J => J.operands.count (Value.inst m))).sum = 0 := by
    rw [List.sum_eq_zero_iff]
    intro c hc
    obtain ⟨J, hJ, rfl⟩ := List.mem_map.1 hc
    rw [List.count_eq_zero]
    intro hmem
    rcases mem_newInsts_operands hJ hmem with h | h | h
    · exact hxD h
    · cases h
    · simp only [Value.inst.injEq] at h
      omega
  unfold Module.numUses
  rw [hins, hpre, List.map_map]
  have hfun : ((fun I => I.operands.count (Value.inst m)) ∘
      Instruction.replaceUsesOfWith I.value (newValue S.M.freshInstId n2 I.ty)) =
      (fun I => I.operands.count (Value.inst m)) := by
    funext J
    exact hcount J
  rw [hfun]
  simp only [List.map_append, List.sum_append, hnew]
  omega

theorem asAdd_asMul_ne {M : Module} {V W : Value} {p q : Value × Value}
    (h1 : asAdd M V = some p) (h2 : asMul M W = some q) : W ≠ V := by
  intro h
  subst h
  unfold asAdd at h1
  unfold asMul at h2
  cases hJ : M.getInst W with
  | none => simp [hJ] at h1
  | some J =>
    rw [hJ] at h1 h2
    obtain ⟨id, name, ty, shape⟩ := J
    cases shape with
    | binop op a b => cases op <;> simp at h1 h2
    | _ => simp at h1

theorem asAdd_asTrunc_ne {M : Module} {V W : Value} {p : Value × Value} {q : Value}
    (h1 : asAdd M V = some p) (h2 : asTrunc M W = some q) : W ≠ V := by
  intro h
  subst h
  unfold asAdd at h1
  unfold asTrunc at h2
  cases hJ : M.getInst W with
  | none => simp [hJ] at h1
  | some J =>
    rw [hJ] at h1 h2
    obtain ⟨id, name, ty, shape⟩ := J
    cases shape with
    | binop op a b => simp at h2
    | _ => simp at h1

theorem asAdd_asCall_ne {M : Module} {V W : Value} {p : Value × Value}
    {q : FunctionType × List Value × Value}
    (h1 : asAdd M V = some p) (h2 : asCall M W = some q) : W ≠ V := by
  intro h
  subst h
  unfold asAdd at h1
  unfold asCall at h2
  cases hJ : M.getInst W with
  | none => simp [hJ] at h1
  | some J =>
    rw [hJ] at h1 h2
    obtain ⟨id, name, ty, shape⟩ := J
    cases shape with
    | binop op a b => simp at h2
    | _ => simp at h1

theorem asAdd_unwraps_ne {M : Module} {V X Y : Value} {p : Value × Value} {N : String}
    (h1 : asAdd M V = some p) (hu : Unwraps M X Y) (hc : DirectCallTo M Y N) : X ≠ V := by
  rcases hu with rfl | hu
  · obtain ⟨c, hcall⟩ := hc.asCall_isSome
    exact asAdd_asCall_ne h1 hcall
  · exact asAdd_asTrunc_ne h1 hu

theorem operand0_getInst {M : Module} {V d : Value} (h : operand0 M V = some d) :
    ∃ J, M.getInst V = some J ∧ d ∈ J.operands ∧
      ∃ fty args callee, J.shape = .call fty args callee := by
  unfold operand0 asCall at h
  cases hJ : M.getInst V with
  | none => simp [hJ] at h
  | some J =>
    refine ⟨J, rfl, ?_⟩
    simp only [hJ] at h
    obtain ⟨id, name, ty, shape⟩ := J
    cases shape with
    | call fty args callee =>
      simp only at h
      exact ⟨List.mem_of_mem_head? h, fty, args, callee, rfl⟩
    | _ => simp at h

/-- The instruction the loop body has just rewritten still matches in the
module the loop body leaves. -/
theorem isGetGlobalIDPattern_rewriteMatch {S : PassState} {fi bi ii : Nat} {I : Instruction}
    {Dim : Value} (hI : S.M.instAt fi bi ii = some I)
    (hm : isGetGlobalIDPattern S.M I.value = .ok (some Dim)) :
    ∃ d, isGetGlobalIDPattern (rewriteMatch S fi bi ii I Dim).1.M I.value = .ok (some d) := by
  obtain ⟨lhs, rhs, a, b, ca, cb, cc, hA, hM, hU, ua, ub, uc, hxy, hz, h0, h1, h2⟩ :=
    isGetGlobalIDPattern_some_imp hm
  obtain ⟨k, n2, C', hC', hlt, hIlt, hfr, hlog, hmem, hold, hcall, hnew⟩ :=
    rewriteMatch_facts Dim hI
  have hfun := fun V F => @getFunction_rewriteMatch S fi bi ii I Dim hI V F
  have hx : ∃ N, DirectCallTo S.M ca N := by
    rcases hxy with h | h
    · exact ⟨_, h.1⟩
    · exact ⟨_, h.2⟩
  have hy : ∃ N, DirectCallTo S.M cb N := by
    rcases hxy with h | h
    · exact ⟨_, h.2⟩
    · exact ⟨_, h.1⟩
  obtain ⟨Na, hx⟩ := hx
  obtain ⟨Nb, hy⟩ := hy
  have hlhs : lhs ≠ I.value := asAdd_asMul_ne hA hM
  have hrhs : rhs ≠ I.value := asAdd_unwraps_ne hA uc hz
  have ha : a ≠ I.value := asAdd_unwraps_ne hA ua hx
  have hb : b ≠ I.value := asAdd_unwraps_ne hA ub hy
  have hca : ca ≠ I.value := asAdd_asCall_ne hA hx.asCall_isSome.choose_spec
  have hcb : cb ≠ I.value := asAdd_asCall_ne hA hy.asCall_isSome.choose_spec
  have hcc : cc ≠ I.value := asAdd_asCall_ne hA hz.asCall_isSome.choose_spec
  have hA2 := asAdd_of_replaced hold hA
  rw [if_neg hlhs, if_neg hrhs] at hA2
  have hM2 := asMul_of_replaced hold hM
  rw [if_neg ha, if_neg hb] at hM2
  -- the multiplication keeps its single use
  have hU2 : (rewriteMatch S fi bi ii I Dim).1.M.numUses lhs = 1 := by
    obtain ⟨JI, hJI, hJIs⟩ := asAdd_getInst hA
    have hlJI : lhs ∈ JI.operands := by
      simp [Instruction.operands, hJIs, Shape.operands]
    obtain ⟨Jm, hJm⟩ : ∃ Jm, S.M.getInst lhs = some Jm := by
      unfold asMul at hM
      cases hg : S.M.getInst lhs with
      | none => simp [hg] at hM
      | some Jm => exact ⟨Jm, rfl⟩
    have hlv := getInst_inst_of_some hJm
    have hlt2 : Jm.id < S.M.freshInstId := id_lt_freshInstId (getInst_mem hJm)
    have hD : lhs ≠ Dim := by
      intro hD
      obtain ⟨Jc, hJc, hdJc, fty, args, callee, hJcs⟩ := operand0_getInst h0
      have hne : JI ≠ Jc := by
        intro h
        rw [h, hJcs] at hJIs
        cases hJIs
      have := two_le_numUses (getInst_mem hJI) (getInst_mem hJc) hne hlJI (hD ▸ hdJc)
      omega
    rw [hlv] at hlhs hD ⊢
    rw [numUses_rewriteMatch Dim hI hlt2 hlhs hD, ← hlv]
    exact hU
  have hdc : ∀ V N, DirectCallTo S.M V N →
      DirectCallTo (rewriteMatch S fi bi ii I Dim).1.M V N :=
    fun V N h => DirectCallTo_of_replaced hold hfun h
  apply Exists.intro (if Dim = I.value then C' else Dim)
  apply isGetGlobalIDPattern_of_idiom
  refine ⟨lhs, rhs, a, b, ca, cb, cc, hA2, hM2, hU2, Unwraps_of_replaced hold hca ua,
    Unwraps_of_replaced hold hcb ub, Unwraps_of_replaced hold hcc uc, ?_, hdc _ _ hz,
    operand0_of_replaced hold h0, operand0_of_replaced hold h1, operand0_of_replaced hold h2⟩
  rcases hxy with h | h
  · exact Or.inl ⟨hdc _ _ h.1, hdc _ _ h.2⟩
  · exact Or.inr ⟨hdc _ _ h.1, hdc _ _ h.2⟩

/-! ## Running the pass twice -/

theorem rematch_stepInvariant (M : Module) :
    StepInvariant (fun S => M.insts.length ≤ S.M.insts.length ∧ (S.Changed = true →
      (∃ I ∈ S.M.insts, ∃ d, isGetGlobalIDPattern S.M I.value = .ok (some d)) ∧
      M.insts.length < S.M.insts.length)) := by
  intro S fi bi ii I Dim hP hI hm
  obtain ⟨pre, post, k, n2, hpre, _, _, _, hins, _, _⟩ := rewriteMatch_flat Dim hI
  obtain ⟨k2, n3, C', _, _, _, _, _, hmem, _, _, _⟩ := rewriteMatch_facts Dim hI
  have hlen : S.M.insts.length < (rewriteMatch S fi bi ii I Dim).1.M.insts.length := by
    rw [hins, hpre]
    simp only [List.length_map, List.length_append, List.length_cons]
    have : 1 ≤ (newInsts S.M.freshInstId n2 I.ty Dim (.func k)).length := by
      unfold newInsts
      split <;> simp
    omega
  have h1 : M.insts.length ≤ S.M.insts.length := hP.1
  refine ⟨by omega, fun _ => ⟨?_, by omega⟩⟩
  obtain ⟨d, hd⟩ := isGetGlobalIDPattern_rewriteMatch hI hm
  exact ⟨I.replaceUsesOfWith I.value C', (hmem _).2 ⟨I, rfl, Or.inl (instAt_mem hI)⟩, d, hd⟩

/-- The loops on `M`: they end; `Changed` is set exactly when an instruction
of `M` matches; with `Changed` not set the state is the one at entry; with
`Changed` set the module has grown and has an instruction that matches. -/
theorem runLoops_summary (M : Module) :
    ∃ S, runLoops M = .ok S ∧
      (S.Changed = true ↔
        ∃ I ∈ M.insts, ∃ d, isGetGlobalIDPattern M I.value = .ok (some d)) ∧
      (S.Changed = false → S = ⟨M, false, []⟩) ∧
      (S.Changed = true →
        (∃ I ∈ S.M.insts, ∃ d, isGetGlobalIDPattern S.M I.value = .ok (some d)) ∧
        M.insts.length < S.M.insts.length) := by
  obtain ⟨S, hS, hiff, hun⟩ := runLoops_changed_iff M
  obtain ⟨S2, hS2, _, h2⟩ := runLoops_inv (rematch_stepInvariant M) M
    ⟨le_refl _, fun h => by cases h⟩
  rw [hS] at hS2
  cases hS2
  exact ⟨S, hS, hiff, hun, h2⟩

/-- C2, amended. The second run returns the module the first run produced
exactly when the first run reported no change, that is when no instruction of
the input matches; otherwise the module keeps an instruction that matches, and
the second run reports a change again and returns a module with more
instructions. Both runs report the same. -/
theorem run_twice (M : Module) :
    ∃ M1 pa M2, run M = .ok (M1, pa) ∧ run M1 = .ok (M2, pa) ∧
      (M2 = M1 ↔ pa = PreservedAnalyses.all) ∧
      (pa = PreservedAnalyses.all ↔
        ∀ I ∈ M.insts, ∀ d, isGetGlobalIDPattern M I.value ≠ .ok (some d)) ∧
      (pa = PreservedAnalyses.none → M1.insts.length < M2.insts.length) := by
  obtain ⟨S1, hS1, hiff1, hun1, hch1⟩ := runLoops_summary M
  obtain ⟨S2, hS2, hiff2, hun2, hch2⟩ := runLoops_summary S1.M
  have hr1 : run M = .ok (S1.M, if S1.Changed then PreservedAnalyses.none
      else PreservedAnalyses.all) := by
    simp only [run, hS1]
  have hr2 : run S1.M = .ok (S2.M, if S2.Changed then PreservedAnalyses.none
      else PreservedAnalyses.all) := by
    simp only [run, hS2]
  cases hc : S1.Changed with
  | false =>
    have hS1eq := hun1 hc
    have hMeq : S1.M = M := by rw [hS1eq]
    rw [hMeq] at hS2
    rw [hS1] at hS2
    cases hS2
    refine ⟨S1.M, _, S1.M, hr1, ?_, ?_, ?_, ?_⟩
    · rw [hMeq]
      simp only [run, hS1]
      rw [hMeq]
    · simp [hc]
    · simp only [hc, Bool.false_eq_true, if_false, true_iff]
      intro I hI d hd
      have := hiff1.2 ⟨I, hI, d, hd⟩
      rw [hc] at this
      cases this
    · simp [hc]
  | true =>
    obtain ⟨hm1, _⟩ := hch1 hc
    have hc2 : S2.Changed = true := hiff2.2 hm1
    obtain ⟨_, hlen⟩ := hch2 hc2
    refine ⟨S1.M, _, S2.M, hr1, ?_, ?_, ?_, ?_⟩
    · rw [hr2, hc, hc2]
    · simp only [hc, if_true]
      constructor
      · intro h
        rw [h] at hlen
        exact absurd hlen (lt_irrefl _)
      · intro h
        cases h
    · simp only [hc, if_true]
      constructor
      · intro h
        cases h
      · intro h
        obtain ⟨I, hI, d, hd⟩ := hiff1.1 hc
        exact absurd hd (h I hI d)
    · intro _
      exact hlen
/-! ## Value preservation -/

theorem typeOf_of_typeAgrees {M : Module} {V : Value} {t : Ty} {J : Instruction}
    (h : typeAgrees M V t) (hJ : M.getInst V = some J) : typeOf M V = some t := by
  unfold typeAgrees at h
  unfold typeOf at h ⊢
  rw [hJ] at h ⊢
  simp only at h
  simp only [h]

theorem getInst_of_unwraps {M : Module} {x c : Value} {N : String} (hu : Unwraps M x c)
    (hd : DirectCallTo M c N) : ∃ J, M.getInst x = some J := by
  rcases hu with rfl | hu
  · obtain ⟨q, hq⟩ := hd.asCall_isSome
    unfold asCall at hq
    cases hg : M.getInst c with
    | none => simp [hg] at hq
    | some J => exact ⟨J, rfl⟩
  · unfold asTrunc at hu
    cases hg : M.getInst x with
    | none => simp [hg] at hu
    | some J => exact ⟨J, rfl⟩

theorem take_length_append {α : Type} (l1 l2 : List α) : (l1 ++ l2).take l1.length = l1 := by
  simp

theorem visitedBefore_plug (Fs1 : List Function) (F : Function) (Bs1 : List BasicBlock)
    (l : List Instruction) (Bs2 : List BasicBlock) (Fs2 : List Function) (i : Nat) :
    visitedBefore (plug Fs1 F Bs1 l Bs2 Fs2) Fs1.length Bs1.length i =
      Fs1.flatMap Function.insts ++ (Bs1.flatMap BasicBlock.insts ++ l.take i) := by
  simp only [visitedBefore, plug, getElem?_append_cons_length, take_length_append]

theorem blockSize_plug (Fs1 : List Function) (F : Function) (Bs1 : List BasicBlock)
    (l : List Instruction) (Bs2 : List BasicBlock) (Fs2 : List Function) :
    (plug Fs1 F Bs1 l Bs2 Fs2).blockSize Fs1.length Bs1.length = l.length := by
  simp only [Module.blockSize, plug, getElem?_append_cons_length]

theorem numBlocks_plug (Fs1 : List Function) (F : Function) (Bs1 : List BasicBlock)
    (l l2 : List Instruction) (Bs2 : List BasicBlock) (Fs2 Fs2' : List Function) (fj : Nat) :
    (plug Fs1 F Bs1 l Bs2 (Fs2 ++ Fs2')).numBlocks fj = (plug Fs1 F Bs1 l2 Bs2 Fs2).numBlocks fj ∨
      (plug Fs1 F Bs1 l2 Bs2 Fs2).functions.length ≤ fj := by
  by_cases h : fj < (plug Fs1 F Bs1 l2 Bs2 Fs2).functions.length
  · left
    simp only [plug, List.length_append, List.length_cons] at h
    simp only [Module.numBlocks, plug]
    by_cases h1 : fj < Fs1.length
    · simp [List.getElem?_append_left h1]
    · by_cases h2 : fj = Fs1.length
      · subst h2
        simp only [getElem?_append_cons_length, List.length_append, List.length_cons]
      · have h3 : Fs1.length ≤ fj := by omega
        rw [List.getElem?_append_right h3, List.getElem?_append_right h3]
        obtain ⟨j, hj⟩ : ∃ j, fj - Fs1.length = j + 1 := ⟨fj - Fs1.length - 1, by omega⟩
        rw [hj]
        simp only [List.getElem?_cons_succ]
        have h4 : j < Fs2.length := by omega
        rw [List.getElem?_append_left h4]
  · right
    omega

theorem numBlocks_mapInsts (f : Instruction → Instruction) (M : Module) (fj : Nat) :
    (M.mapInsts f).numBlocks fj = M.numBlocks fj := by
  simp only [Module.numBlocks, Module.mapInsts, List.getElem?_map]
  cases M.functions[fj]? with
  | none => rfl
  | some F => simp [Function.mapInsts]

theorem blockSize_mapInsts (f : Instruction → Instruction) (M : Module) (fj bj : Nat) :
    (M.mapInsts f).blockSize fj bj = M.blockSize fj bj := by
  simp only [Module.blockSize, Module.mapInsts, List.getElem?_map]
  cases M.functions[fj]? with
  | none => rfl
  | some F =>
    simp only [Option.map_some', Function.mapInsts, List.getElem?_map]
    cases F.blocks[bj]? with
    | none => rfl
    | some B => simp [BasicBlock.mapInsts]

theorem visitedBefore_mapInsts (f : Instruction → Instruction) (M : Module) (fj bj ij : Nat) :
    visitedBefore (M.mapInsts f) fj bj ij = (visitedBefore M fj bj ij).map f := by
  simp only [visitedBefore, Module.mapInsts, List.getElem?_map, ← List.map_take,
    List.flatMap_map, List.map_append, List.map_flatMap]
  congr 1
  · apply List.flatMap_congr
    intro F _
    exact fn_insts_mapInsts f F
  · cases M.functions[fj]? with
    | none => rfl
    | some F =>
      simp only [Option.map_some', Function.mapInsts, List.getElem?_map, ← List.map_take,
        List.flatMap_map, List.map_append, List.map_flatMap]
      congr 1
      cases F.blocks[bj]? with
      | none => rfl
      | some B => simp [BasicBlock.mapInsts, List.map_take]

theorem numBlocks_of_suffix (Fs1 : List Function) (F : Function) (Bs1 : List BasicBlock)
    (l l2 : List Instruction) (Bs2 : List BasicBlock) (Fs2 extra : List Function) (fj : Nat)
    (h : fj < (plug Fs1 F Bs1 l2 Bs2 Fs2).functions.length) :
    (plug Fs1 F Bs1 l Bs2 (Fs2 ++ extra)).numBlocks fj =
      (plug Fs1 F Bs1 l2 Bs2 Fs2).numBlocks fj := by
  rcases numBlocks_plug Fs1 F Bs1 l l2 Bs2 Fs2 extra fj with h1 | h1
  · exact h1
  · omega

/-- The loop body and the cursor: the instructions before the cursor after the
rewrite are those before it, the new ones and the matched instruction, with the
uses of the matched instruction replaced; the block has grown by the new
instructions; the other blocks and the functions at entry keep their place. -/
theorem rewriteMatch_cursor {S : PassState} {fi bi ii : Nat} {I : Instruction} (Dim : Value)
    (hI : S.M.instAt fi bi ii = some I) :
    ∃ k n2 rest,
      S.M.freshInstId < n2 ∧
      S.M.insts = visitedBefore S.M fi bi ii ++ I :: rest ∧
      (rewriteMatch S fi bi ii I Dim).1.M.insts =
        (visitedBefore S.M fi bi ii ++ newInsts S.M.freshInstId n2 I.ty Dim (.func k) ++
          I :: rest).map
          (Instruction.replaceUsesOfWith I.value (newValue S.M.freshInstId n2 I.ty)) ∧
      visitedBefore (rewriteMatch S fi bi ii I Dim).1.M fi bi
          (ii + (rewriteMatch S fi bi ii I Dim).2 + 1) =
        (visitedBefore S.M fi bi ii ++ newInsts S.M.freshInstId n2 I.ty Dim (.func k) ++ [I]).map
          (Instruction.replaceUsesOfWith I.value (newValue S.M.freshInstId n2 I.ty)) ∧
      (rewriteMatch S fi bi ii I Dim).1.M.blockSize fi bi =
        S.M.blockSize fi bi + (rewriteMatch S fi bi ii I Dim).2 ∧
      (∀ fj, fj < S.M.functions.length →
        (rewriteMatch S fi bi ii I Dim).1.M.numBlocks fj = S.M.numBlocks fj) ∧
      S.M.functions.length ≤ (rewriteMatch S fi bi ii I Dim).1.M.functions.length ∧
      (rewriteMatch S fi bi ii I Dim).1.log =
        S.log ++ [⟨I, Dim, .inst S.M.freshInstId, newValue S.M.freshInstId n2 I.ty⟩] := by
  obtain ⟨Fs1, F, Bs1, p, q, Bs2, Fs2, hM, rfl, rfl, rfl⟩ := instAt_plug hI
  obtain ⟨Fs2', k, n2, ⟨hFs, extra, rfl, _⟩, hlt, hDim, hfr, hrw⟩ :=
    rewriteMatch_plug S Fs1 F Bs1 p q Bs2 Fs2 I Dim hM
  have hvb : visitedBefore S.M Fs1.length Bs1.length p.length =
      Fs1.flatMap Function.insts ++ (Bs1.flatMap BasicBlock.insts ++ p) := by
    rw [hM, visitedBefore_plug, take_length_append]
  refine ⟨k, n2, q ++ (Bs2.flatMap BasicBlock.insts ++ Fs2.flatMap Function.insts), hlt, ?_, ?_,
    ?_, ?_, ?_, ?_, ?_⟩
  · rw [hvb, hM, insts_plug]
    simp
  · rw [hrw, hvb]
    simp only
    rw [replaceAllUsesWith_plug, insts_plug, hFs]
    simp
  · rw [hrw, hvb]
    simp only [Module.replaceAllUsesWith]
    rw [visitedBefore_mapInsts, visitedBefore_plug]
    have e : p.length + (newInsts S.M.freshInstId n2 I.ty Dim (.func k)).length + 1 =
        (p ++ newInsts S.M.freshInstId n2 I.ty Dim (.func k) ++ [I]).length := by
      simp only [List.length_append, List.length_cons, List.length_nil]
    have e2 : p ++ newInsts S.M.freshInstId n2 I.ty Dim (.func k) ++ I :: q =
        (p ++ newInsts S.M.freshInstId n2 I.ty Dim (.func k) ++ [I]) ++ q := by simp
    rw [e, e2, take_length_append]
    simp
  · rw [hrw]
    simp only [Module.replaceAllUsesWith]
    rw [blockSize_mapInsts, blockSize_plug, hM, blockSize_plug]
    simp only [List.length_append, List.length_cons]
    omega
  · intro fj hfj
    rw [hrw]
    simp only [Module.replaceAllUsesWith]
    rw [numBlocks_mapInsts, hM]
    rw [hM] at hfj
    exact numBlocks_of_suffix Fs1 F Bs1 _ _ Bs2 Fs2 extra fj hfj
  · rw [hrw, hM]
    simp only [Module.replaceAllUsesWith, Module.mapInsts, plug, List.length_map,
      List.length_append, List.length_cons]
    omega
  · rw [hrw]

theorem visitedBefore_zero (M : Module) : visitedBefore M 0 0 0 = [] := by
  unfold visitedBefore
  cases M.functions[0]? with
  | none => simp
  | some F =>
    cases hB : F.blocks[0]? with
    | none => simp [hB]
    | some B => simp [hB]

theorem visitedBefore_succ {M : Module} {fi bi ii : Nat} {I : Instruction}
    (h : M.instAt fi bi ii = some I) :
    visitedBefore M fi bi (ii + 1) = visitedBefore M fi bi ii ++ [I] := by
  unfold Module.instAt at h
  unfold visitedBefore
  cases hF : M.functions[fi]? with
  | none => simp [hF] at h
  | some F =>
    simp only [hF] at h ⊢
    cases hB : F.blocks[bi]? with
    | none => simp [hB] at h
    | some B =>
      simp only [hB] at h ⊢
      rw [List.take_succ, h]
      simp

theorem visitedBefore_block_end {M : Module} {fi bi : Nat} (h : bi < M.numBlocks fi) :
    visitedBefore M fi bi (M.blockSize fi bi) = visitedBefore M fi (bi + 1) 0 := by
  unfold Module.numBlocks at h
  unfold visitedBefore Module.blockSize
  cases hF : M.functions[fi]? with
  | none => simp [hF] at h
  | some F =>
    simp only [hF] at h ⊢
    obtain ⟨B, hB⟩ : ∃ B, F.blocks[bi]? = some B := by
      cases hB : F.blocks[bi]? with
      | none =>
        have := List.getElem?_eq_none_iff.1 hB
        omega
      | some B => exact ⟨B, rfl⟩
    simp only [hB, List.take_length]
    rw [List.take_succ, hB]
    cases F.blocks[bi + 1]? with
    | none => simp [BasicBlock.insts]
    | some B2 => simp [BasicBlock.insts]

theorem visitedBefore_function_end {M : Module} {fi : Nat} (h : fi < M.functions.length) :
    visitedBefore M fi (M.numBlocks fi) 0 = visitedBefore M (fi + 1) 0 0 := by
  unfold visitedBefore Module.numBlocks
  obtain ⟨F, hF⟩ : ∃ F, M.functions[fi]? = some F := by
    cases hF : M.functions[fi]? with
    | none =>
      have := List.getElem?_eq_none_iff.1 hF
      omega
    | some F => exact ⟨F, rfl⟩
  simp only [hF, List.take_length]
  have hnone : F.blocks[F.blocks.length]? = none := List.getElem?_eq_none (le_refl _)
  rw [hnone, List.take_succ, hF]
  cases hF2 : M.functions[fi + 1]? with
  | none => simp [Function.insts]
  | some F2 =>
    cases hB2 : F2.blocks[0]? with
    | none => simp [Function.insts, hB2]
    | some B2 => simp [Function.insts, hB2]

theorem instAt_isSome_of_lt {M : Module} {fi bi ii : Nat} (h : ii < M.blockSize fi bi) :
    ∃ I, M.instAt fi bi ii = some I := by
  unfold Module.blockSize at h
  unfold Module.instAt
  cases hF : M.functions[fi]? with
  | none => simp [hF] at h
  | some F =>
    simp only [hF] at h ⊢
    cases hB : F.blocks[bi]? with
    | none => simp [hB] at h
    | some B =>
      simp only [hB] at h ⊢
      cases hI : B.insts[ii]? with
      | none =>
        have := List.getElem?_eq_none_iff.1 hI
        omega
      | some I => exact ⟨I, rfl⟩

theorem runInsts_cursor {P : PassState → List Instruction → Prop} (hP : CursorInvariant P)
    (fi bi : Nat) :
    ∀ (r ii : Nat) (S : PassState), ii + r = S.M.blockSize fi bi →
      P S (visitedBefore S.M fi bi ii) →
      ∃ S', runInsts fi bi r ii S = .ok S' ∧
        P S' (visitedBefore S'.M fi bi (S'.M.blockSize fi bi)) ∧
        (∀ fj, fj < S.M.functions.length → S'.M.numBlocks fj = S.M.numBlocks fj) ∧
        S.M.functions.length ≤ S'.M.functions.length := by
  intro r
  induction r with
  | zero =>
    intro ii S hr h
    rw [Nat.add_zero] at hr
    rw [hr] at h
    exact ⟨S, rfl, h, fun _ _ => rfl, le_refl _⟩
  | succ r ih =>
    intro ii S hr h
    obtain ⟨I, hI⟩ := @instAt_isSome_of_lt S.M fi bi ii (by omega)
    simp only [runInsts, hI]
    obtain ⟨res, hres⟩ := isGetGlobalIDPattern_ok S.M I.value
    cases res with
    | none =>
      simp only [hres]
      exact ih (ii + 1) S (by omega) (hP.1 S fi bi ii I h hI hres)
    | some Dim =>
      simp only [hres]
      obtain ⟨k, n2, rest, _, _, _, _, hbs, hnb, hfl, _⟩ := rewriteMatch_cursor Dim hI
      obtain ⟨S', hS', hP', hnb', hfl'⟩ := ih (ii + (rewriteMatch S fi bi ii I Dim).2 + 1)
        (rewriteMatch S fi bi ii I Dim).1 (by rw [hbs]; omega) (hP.2 S fi bi ii I Dim h hI hres)
      refine ⟨S', hS', hP', ?_, le_trans hfl hfl'⟩
      intro fj hfj
      rw [hnb' fj (lt_of_lt_of_le hfj hfl), hnb fj hfj]

theorem runBlocks_cursor {P : PassState → List Instruction → Prop} (hP : CursorInvariant P)
    (fi : Nat) :
    ∀ (r bi : Nat) (S : PassState), bi + r = S.M.numBlocks fi → fi < S.M.functions.length →
      P S (visitedBefore S.M fi bi 0) →
      ∃ S', runBlocks fi r bi S = .ok S' ∧
        P S' (visitedBefore S'.M fi (S'.M.numBlocks fi) 0) ∧
        (∀ fj, fj < S.M.functions.length → S'.M.numBlocks fj = S.M.numBlocks fj) ∧
        S.M.functions.length ≤ S'.M.functions.length := by
  intro r
  induction r with
  | zero =>
    intro bi S hr _ h
    rw [Nat.add_zero] at hr
    rw [hr] at h
    exact ⟨S, rfl, h, fun _ _ => rfl, le_refl _⟩
  | succ r ih =>
    intro bi S hr hfi h
    simp only [runBlocks]
    obtain ⟨S1, hS1, hP1, hnb1, hfl1⟩ :=
      runInsts_cursor hP fi bi (S.M.blockSize fi bi) 0 S (by omega) h
    simp only [hS1]
    have hbi : bi < S1.M.numBlocks fi := by
      rw [hnb1 fi hfi]
      omega
    rw [visitedBefore_block_end hbi] at hP1
    obtain ⟨S', hS', hP', hnb', hfl'⟩ := ih (bi + 1) S1 (by rw [hnb1 fi hfi]; omega)
      (lt_of_lt_of_le hfi hfl1) hP1
    refine ⟨S', hS', hP', ?_, le_trans hfl1 hfl'⟩
    intro fj hfj
    rw [hnb' fj (lt_of_lt_of_le hfj hfl1), hnb1 fj hfj]

theorem runFunctions_cursor {P : PassState → List Instruction → Prop} (hP : CursorInvariant P)
    (n : Nat) :
    ∀ (r fi : Nat) (S : PassState), fi + r = n → n ≤ S.M.functions.length →
      P S (visitedBefore S.M fi 0 0) →
      ∃ S', runFunctions r fi S = .ok S' ∧ P S' (visitedBefore S'.M n 0 0) ∧
        n ≤ S'.M.functions.length := by
  intro r
  induction r with
  | zero =>
    intro fi S hr hn h
    rw [Nat.add_zero] at hr
    rw [hr] at h
    exact ⟨S, rfl, h, hn⟩
  | succ r ih =>
    intro fi S hr hn h
    simp only [runFunctions]
    have hfi : fi < S.M.functions.length := by omega
    obtain ⟨S1, hS1, hP1, _, hfl1⟩ :=
      runBlocks_cursor hP fi (S.M.numBlocks fi) 0 S (by omega) hfi h
    simp only [hS1]
    rw [visitedBefore_function_end (lt_of_lt_of_le hfi hfl1)] at hP1
    exact ih (fi + 1) S1 (by omega) (le_trans hn hfl1) hP1

/-- The loops of the driver end with the cursor past the last function of the
module at entry, and a property of the state and the instructions before the
cursor that holds at entry and is preserved by every move of the cursor holds
at exit. -/
theorem runLoops_cursor {P : PassState → List Instruction → Prop} (hP : CursorInvariant P)
    (M : Module) (h0 : P ⟨M, false, []⟩ []) :
    ∃ S, runLoops M = .ok S ∧ P S (visitedBefore S.M M.functions.length 0 0) := by
  have h0' : P ⟨M, false, []⟩ (visitedBefore (PassState.mk M false []).M 0 0 0) := by
    rw [visitedBefore_zero]
    exact h0
  obtain ⟨S, hS, hPS, _⟩ := runFunctions_cursor hP M.functions.length M.functions.length 0
    ⟨M, false, []⟩ (by omega) (le_refl _) h0'
  exact ⟨S, hS, hPS⟩
/-! ## Every instruction is rewritten at most once -/

theorem insts_eq_visitedBefore {M : Module} {fi bi ii : Nat} {I : Instruction}
    (h : M.instAt fi bi ii = some I) :
    ∃ rest, M.insts = visitedBefore M fi bi ii ++ I :: rest := by
  obtain ⟨Fs1, F, Bs1, p, q, Bs2, Fs2, rfl, rfl, rfl, rfl⟩ := instAt_plug h
  refine ⟨q ++ (Bs2.flatMap BasicBlock.insts ++ Fs2.flatMap Function.insts), ?_⟩
  rw [visitedBefore_plug, take_length_append, insts_plug]
  simp

theorem map_id_replaceUses (Old New : Value) (l : List Instruction) :
    (l.map (Instruction.replaceUsesOfWith Old New)).map (fun J => J.id) =
      l.map (fun J => J.id) := by
  rw [List.map_map]
  rfl

theorem newInsts_ids (n1 n2 : Nat) (Ty : Ty) (Dim callee : Value) (h : n1 < n2) :
    ((newInsts n1 n2 Ty Dim callee).map (fun J => J.id)).Nodup ∧
    ∀ m ∈ (newInsts n1 n2 Ty Dim callee).map (fun J => J.id), n1 ≤ m := by
  unfold newInsts
  split
  · simp [gidCall]
  · simp only [List.map_cons, List.map_nil, gidCall, gidCast]
    refine ⟨?_, ?_⟩
    · simp
      omega
    · intro m hm
      simp only [List.mem_cons, List.mem_singleton, List.not_mem_nil, or_false] at hm
      omega

theorem logOnce_cursorInvariant : CursorInvariant LogOnce := by
  refine ⟨?_, ?_⟩
  · intro S fi bi ii I h hI _
    refine ⟨h.1, ?_, h.2.2⟩
    intro e he
    rw [visitedBefore_succ hI, List.map_append]
    exact List.mem_append_left _ (h.2.1 e he)
  · intro S fi bi ii I Dim h hI _
    obtain ⟨hnd, hlogmem, hlognd⟩ := h
    obtain ⟨k, n2, rest, hlt, hins0, hins, hvb, _, _, _, hlog⟩ := rewriteMatch_cursor Dim hI
    obtain ⟨hnewnd, hnewge⟩ := newInsts_ids S.M.freshInstId n2 I.ty Dim (.func k) hlt
    have hold : ∀ m ∈ S.M.insts.map (fun J => J.id), m < S.M.freshInstId := by
      intro m hm
      obtain ⟨J, hJ, rfl⟩ := List.mem_map.1 hm
      exact id_lt_freshInstId hJ
    rw [hins0] at hnd hold
    have hInotin : I.id ∉ (visitedBefore S.M fi bi ii).map (fun J => J.id) := by
      rw [List.map_append, List.map_cons] at hnd
      have := (List.nodup_append.1 hnd).2.2
      intro hmem
      exact this hmem (List.mem_cons_self _ _)
    refine ⟨?_, ?_, ?_⟩
    · rw [hins, map_id_replaceUses]
      have hperm : List.Perm
          ((visitedBefore S.M fi bi ii ++ newInsts S.M.freshInstId n2 I.ty Dim (.func k) ++
            I :: rest).map (fun J => J.id))
          ((newInsts S.M.freshInstId n2 I.ty Dim (.func k)).map (fun J => J.id) ++
            (visitedBefore S.M fi bi ii ++ I :: rest).map (fun J => J.id)) := by
        simp only [List.map_append, List.append_assoc]
        exact List.perm_append_comm_assoc _ _ _
      rw [hperm.nodup_iff, List.nodup_append]
      refine ⟨hnewnd, hnd, ?_⟩
      intro m hm1 hm2
      have h1 := hnewge m hm1
      have h2 := hold m hm2
      omega
    · intro e he
      rw [hlog] at he
      rw [hvb, map_id_replaceUses]
      simp only [List.map_append, List.mem_append, List.map_cons, List.map_nil,
        List.mem_singleton]
      rcases List.mem_append.1 he with he | he
      · exact Or.inl (Or.inl (hlogmem e he))
      · simp only [List.mem_singleton] at he
        rw [he]
        exact Or.inr rfl
    · rw [hlog, List.map_append, List.nodup_append]
      refine ⟨hlognd, by simp, ?_⟩
      intro m hm1 hm2
      simp only [List.map_cons, List.map_nil, List.mem_singleton] at hm2
      subst hm2
      obtain ⟨e, he, hem⟩ := List.mem_map.1 hm1
      apply hInotin
      rw [← hem]
      exact hlogmem e he

theorem find?_eq_of_nodup {α β : Type} [DecidableEq β] (f : α → β) :
    ∀ (l : List α), (l.map f).Nodup → ∀ e ∈ l, l.find? (fun x => f x == f e) = some e := by
  intro l
  induction l with
  | nil => intro _ e he; cases he
  | cons x xs ih =>
    intro hnd e he
    rw [List.map_cons, List.nodup_cons] at hnd
    rcases List.mem_cons.1 he with rfl | he
    · rw [List.find?_cons_of_pos]
      simp
    · have hne : f x ≠ f e := by
        intro h
        apply hnd.1
        rw [h]
        exact List.mem_map.2 ⟨e, he, rfl⟩
      rw [List.find?_cons_of_neg]
      · exact ih hnd.2 e he
      · simpa using hne

/-- In a module whose instructions have distinct identities no instruction is
rewritten twice, so the replacement recorded for a rewritten instruction is the
one of its rewrite. -/
theorem runLoops_logOnce (M : Module) (hM : (M.insts.map (fun J => J.id)).Nodup) :
    ∃ S, runLoops M = .ok S ∧ (S.log.map (fun e => e.I.id)).Nodup ∧
      ∀ e ∈ S.log, replacementOf S.log e.I.value = e.CastedGID := by
  obtain ⟨S, hS, _, _, hnd⟩ := runLoops_cursor logOnce_cursorInvariant M
    ⟨hM, (fun e he => by cases he), List.nodup_nil⟩
  refine ⟨S, hS, hnd, ?_⟩
  intro e he
  unfold replacementOf
  have := find?_eq_of_nodup (fun e : Rewritten => e.I.id) S.log hnd e he
  have heq : (fun e' : Rewritten => e'.I.value == e.I.value) =
      (fun e' : Rewritten => e'.I.id == e.I.id) := by
    funext e'
    simp [Instruction.value]
  rw [heq, this]

/-- C5. After the run, every rewritten instruction has no use and its
replacement is an instruction of the module; every operand slot of the module
at entry holds the replacement recorded for its old value where that was a
rewritten instruction (and its old value where it was not), the recorded
replacement being the one of the rewrite of that instruction when the
instructions have distinct identities; and no operand slot refers to an
instruction that is not in the module if none did at entry. -/
theorem run_use_preservation (M : Module) :
    ∃ S, runLoops M = .ok S ∧
      (∀ e ∈ S.log, S.M.numUses e.I.value = 0 ∧ (S.M.getInst e.CastedGID).isSome = true) ∧
      (∀ (n : Nat) (U : Instruction) (k : Nat) (v : Value),
        M.getInst (.inst n) = some U → U.operands[k]? = some v →
        ∃ U', S.M.getInst (.inst n) = some U' ∧
          U'.operands[k]? = some (replacementOf S.log v)) ∧
      ((M.insts.map (fun J => J.id)).Nodup →
        ∀ e ∈ S.log, replacementOf S.log e.I.value = e.CastedGID) ∧
      (Closed M → Closed S.M) := by
  have hP : StepInvariant (fun S => (LogUses S ∧ SlotsFollow M S) ∧ (Closed M → Closed S.M)) := by
    intro S fi bi ii I Dim h hI hm
    exact ⟨slotsFollow_stepInvariant M S fi bi ii I Dim h.1 hI hm,
      fun hc => closed_stepInvariant S fi bi ii I Dim (h.2 hc) hI hm⟩
  have h0 : (LogUses ⟨M, false, []⟩ ∧ SlotsFollow M ⟨M, false, []⟩) ∧
      (Closed M → Closed (PassState.mk M false []).M) := by
    refine ⟨⟨fun e he => (by cases he), ?_⟩, fun h => h⟩
    intro n U k v hU hv
    exact ⟨U, hU, hv⟩
  obtain ⟨S, hS, ⟨h1, h2⟩, h3⟩ := runLoops_inv hP M h0
  refine ⟨S, hS, ?_, h2, ?_, h3⟩
  · intro e he
    obtain ⟨hz, _, C, hC, _⟩ := h1 e he
    exact ⟨hz, by rw [hC]; rfl⟩
  · intro hnd
    obtain ⟨S2, hS2, _, hrep⟩ := runLoops_logOnce M hnd
    rw [hS] at hS2
    cases hS2
    exact hrep
/-! ## Order of the multiplication operands: the driver -/

theorem modifyAt_map {α : Type} (g g2 h : α → α) (hc : ∀ x, g (h x) = h (g2 x)) :
    ∀ (i : Nat) (l : List α), modifyAt g i (l.map h) = (modifyAt g2 i l).map h := by
  intro i l
  induction l generalizing i with
  | nil => cases i <;> rfl
  | cons x xs ih =>
    cases i with
    | zero => simp [modifyAt, hc]
    | succ j => simp [modifyAt, ih]

theorem insertAt_map {α : Type} (h : α → α) (x : α) :
    ∀ (i : Nat) (l : List α), insertAt (h x) i (l.map h) = (insertAt x i l).map h := by
  intro i l
  induction l generalizing i with
  | nil => cases i <;> rfl
  | cons y ys ih =>
    cases i with
    | zero => rfl
    | succ j => simp [insertAt, ih]

theorem insertBefore_mapInsts (f : Instruction → Instruction) (M : Module) (fi bi ii : Nat)
    (X : Instruction) :
    (M.mapInsts f).insertBefore fi bi ii (f X) = (M.insertBefore fi bi ii X).mapInsts f := by
  simp only [Module.insertBefore, Module.mapInsts]
  congr 1
  apply modifyAt_map
  intro F
  simp only [Function.mapInsts]
  congr 1
  apply modifyAt_map
  intro B
  simp only [BasicBlock.mapInsts]
  congr 1
  exact insertAt_map f X ii B.insts

theorem instAt_mapInsts (f : Instruction → Instruction) (M : Module) (fi bi ii : Nat) :
    (M.mapInsts f).instAt fi bi ii = (M.instAt fi bi ii).map f := by
  simp only [Module.instAt, Module.mapInsts, List.getElem?_map]
  cases M.functions[fi]? with
  | none => rfl
  | some F =>
    simp only [Option.map_some', Function.mapInsts, List.getElem?_map]
    cases F.blocks[bi]? with
    | none => rfl
    | some B => simp [BasicBlock.mapInsts]

theorem mapInsts_comm (f g : Instruction → Instruction) (h : ∀ J, f (g J) = g (f J))
    (M : Module) : (M.mapInsts g).mapInsts f = (M.mapInsts f).mapInsts g := by
  simp only [Module.mapInsts, List.map_map]
  congr 1
  apply List.map_congr_left
  intro F _
  simp only [Function.comp_apply, Function.mapInsts, List.map_map]
  congr 1
  apply List.map_congr_left
  intro B _
  simp only [Function.comp_apply, BasicBlock.mapInsts, List.map_map]
  congr 1
  apply List.map_congr_left
  intro J _
  exact h J

theorem commuteMul_replaceUses (n : Nat) (Old New : Value) (J : Instruction) :
    (J.replaceUsesOfWith Old New).commuteMul n = (J.commuteMul n).replaceUsesOfWith Old New := by
  obtain ⟨id, name, ty, shape⟩ := J
  cases shape with
  | binop op a b =>
    cases op with
    | mul =>
      by_cases h : id = n <;>
        simp [Instruction.commuteMul, Instruction.replaceUsesOfWith, Shape.replaceUsesOfWith, h]
    | _ => rfl
  | _ => rfl

theorem replaceAllUsesWith_commuteMul (M : Module) (n : Nat) (Old New : Value) :
    (M.commuteMul n).replaceAllUsesWith Old New = (M.replaceAllUsesWith Old New).commuteMul n := by
  unfold Module.replaceAllUsesWith Module.commuteMul
  exact mapInsts_comm _ _ (fun J => (commuteMul_replaceUses n Old New J).symm) M

theorem commuteMul_value (n : Nat) (I : Instruction) : (I.commuteMul n).value = I.value := by
  unfold Instruction.value
  rw [commuteMul_id]

theorem commuteMul_ty (n : Nat) (I : Instruction) : (I.commuteMul n).ty = I.ty := by
  unfold Instruction.commuteMul
  split
  · split <;> rfl
  · rfl

theorem foldr_max_swap (f : Value → Nat) (a b : Value) :
    ([b, a].map f).foldr max 0 = ([a, b].map f).foldr max 0 := by
  simp only [List.map_cons, List.map_nil, List.foldr_cons, List.foldr_nil]
  omega

theorem commuteMul_bound (f : Value → Nat) (n : Nat) (J : Instruction) :
    ((J.commuteMul n).operands.map f).foldr max 0 = (J.operands.map f).foldr max 0 := by
  obtain ⟨id, name, ty, shape⟩ := J
  cases shape with
  | binop op a b =>
    cases op with
    | mul =>
      by_cases h : id = n
      · simp only [Instruction.commuteMul, h, if_true, Instruction.operands, Shape.operands]
        exact foldr_max_swap f a b
      · simp [Instruction.commuteMul, h]
    | _ => rfl
  | _ => rfl

theorem freshInstId_commuteMul (M : Module) (n : Nat) :
    (M.commuteMul n).freshInstId = M.freshInstId := by
  unfold Module.freshInstId Module.commuteMul
  rw [mod_insts_mapInsts, List.map_map]
  congr 1
  apply List.map_congr_left
  intro J _
  simp only [Function.comp_apply, commuteMul_id, commuteMul_bound]

theorem freshFuncId_commuteMul (M : Module) (n : Nat) :
    (M.commuteMul n).freshFuncId = M.freshFuncId := by
  unfold Module.freshFuncId
  congr 1
  · simp only [Module.commuteMul, Module.mapInsts, List.map_map]
    congr 1
  · unfold Module.commuteMul
    rw [mod_insts_mapInsts, List.map_map]
    congr 1
    apply List.map_congr_left
    intro J _
    simp only [Function.comp_apply, commuteMul_bound]

theorem getOrInsertFunction_commuteMul (M : Module) (n : Nat) (N : String) (T : FunctionType) :
    (M.commuteMul n).getOrInsertFunction N T =
      ((M.getOrInsertFunction N T).1.commuteMul n, (M.getOrInsertFunction N T).2) := by
  unfold Module.getOrInsertFunction
  rw [freshFuncId_commuteMul]
  have hfind : (M.commuteMul n).functions.find? (fun F => F.name == N) =
      (M.functions.find? (fun F => F.name == N)).map
        (Function.mapInsts (Instruction.commuteMul n)) := by
    simp only [Module.commuteMul, Module.mapInsts, List.find?_map]
    rfl
  rw [hfind]
  cases M.functions.find? (fun F => F.name == N) with
  | some F => rfl
  | none =>
    simp only [Option.map_none', Module.commuteMul, Module.mapInsts, List.map_append,
      List.map_cons, List.map_nil, Function.mapInsts]

theorem commuteMul_gidCall (n m : Nat) (Dim callee : Value) :
    (gidCall m Dim callee).commuteMul n = gidCall m Dim callee := rfl

theorem rewriteMatch_commuteMul (n : Nat) (S : PassState) (fi bi ii : Nat) (I : Instruction)
    (Dim : Value) :
    rewriteMatch (S.commuteMul n) fi bi ii (I.commuteMul n) Dim =
      ((rewriteMatch S fi bi ii I Dim).1.commuteMul n, (rewriteMatch S fi bi ii I Dim).2) := by
  have hins : ∀ (M : Module) (X : Instruction), X.commuteMul n = X →
      (M.commuteMul n).insertBefore fi bi ii X = (M.insertBefore fi bi ii X).commuteMul n := by
    intro M X hX
    have := insertBefore_mapInsts (Instruction.commuteMul n) M fi bi ii X
    rw [hX] at this
    exact this
  have hins1 : ∀ (M : Module) (X : Instruction), X.commuteMul n = X →
      (M.commuteMul n).insertBefore fi bi (ii + 1) X =
        (M.insertBefore fi bi (ii + 1) X).commuteMul n := by
    intro M X hX
    have := insertBefore_mapInsts (Instruction.commuteMul n) M fi bi (ii + 1) X
    rw [hX] at this
    exact this
  have hfty : (S.M.getOrInsertFunction GetGlobalId ⟨I64Ty, [I32Ty]⟩).2.fty =
      ⟨I64Ty, [I32Ty]⟩ := by
    unfold Module.getOrInsertFunction
    split <;> rfl
  simp only [rewriteMatch, PassState.commuteMul, getOrInsertFunction_commuteMul, CallInst.Create,
    freshInstId_commuteMul, commuteMul_ty, commuteMul_value, createTruncOrSelf,
    CastInst.CreateTruncOrBitCast, hfty]
  rw [hins _ _ rfl]
  by_cases hty : I64Ty = I.ty
  · simp only [if_pos hty, replaceAllUsesWith_commuteMul, List.map_append, List.map_cons,
      List.map_nil, Rewritten.commuteMul]
  · simp only [if_neg hty, freshInstId_commuteMul]
    rw [hins1 _ _ rfl]
    simp only [replaceAllUsesWith_commuteMul, List.map_append, List.map_cons, List.map_nil,
      Rewritten.commuteMul]

theorem runInsts_commuteMul (n fi bi : Nat) :
    ∀ (r ii : Nat) (S : PassState),
      runInsts fi bi r ii (S.commuteMul n) =
        (runInsts fi bi r ii S).map (PassState.commuteMul n) := by
  intro r
  induction r with
  | zero => intro ii S; rfl
  | succ r ih =>
    intro ii S
    simp only [runInsts]
    have hat : (S.commuteMul n).M.instAt fi bi ii =
        (S.M.instAt fi bi ii).map (Instruction.commuteMul n) :=
      instAt_mapInsts _ _ _ _ _
    rw [hat]
    cases hI : S.M.instAt fi bi ii with
    | none => rfl
    | some I =>
      simp only [Option.map_some', commuteMul_value]
      have hmatch : isGetGlobalIDPattern (S.commuteMul n).M I.value =
          isGetGlobalIDPattern S.M I.value :=
        isGetGlobalIDPattern_congr (fun d => GlobalIDIdiom_commuteMul S.M n I.value d)
      rw [hmatch]
      obtain ⟨res, hres⟩ := isGetGlobalIDPattern_ok S.M I.value
      rw [hres]
      cases res with
      | none => exact ih (ii + 1) S
      | some Dim =>
        simp only [rewriteMatch_commuteMul]
        exact ih _ _

theorem runBlocks_commuteMul (n fi : Nat) :
    ∀ (r bi : Nat) (S : PassState),
      runBlocks fi r bi (S.commuteMul n) =
        (runBlocks fi r bi S).map (PassState.commuteMul n) := by
  intro r
  induction r with
  | zero => intro bi S; rfl
  | succ r ih =>
    intro bi S
    simp only [runBlocks]
    have hbs : (S.commuteMul n).M.blockSize fi bi = S.M.blockSize fi bi :=
      blockSize_mapInsts _ _ _ _
    rw [hbs, runInsts_commuteMul]
    cases runInsts fi bi (S.M.blockSize fi bi) 0 S with
    | error e => rfl
    | ok S1 => exact ih (bi + 1) S1

theorem runFunctions_commuteMul (n : Nat) :
    ∀ (r fi : Nat) (S : PassState),
      runFunctions r fi (S.commuteMul n) =
        (runFunctions r fi S).map (PassState.commuteMul n) := by
  intro r
  induction r with
  | zero => intro fi S; rfl
  | succ r ih =>
    intro fi S
    simp only [runFunctions]
    have hnb : (S.commuteMul n).M.numBlocks fi = S.M.numBlocks fi :=
      numBlocks_mapInsts _ _ _
    rw [hnb, runBlocks_commuteMul]
    cases runBlocks fi (S.M.numBlocks fi) 0 S with
    | error e => rfl
    | ok S1 => exact ih (fi + 1) S1

/-- The driver on the module with the operands of a multiplication exchanged
does what it does on the module, with those operands exchanged. -/
theorem run_commuteMul (M : Module) (n : Nat) :
    run (M.commuteMul n) = (run M).map (fun r => (r.1.commuteMul n, r.2)) := by
  have h : runLoops (M.commuteMul n) = (runLoops M).map (PassState.commuteMul n) := by
    unfold runLoops
    have hlen : (M.commuteMul n).functions.length = M.functions.length := by
      simp [Module.commuteMul, Module.mapInsts]
    rw [hlen]
    exact runFunctions_commuteMul n M.functions.length 0 ⟨M, false, []⟩
  unfold run
  rw [h]
  cases runLoops M with
  | error e => rfl
  | ok S => rfl

/-- C7. Exchanging the two operands of a multiplication does not change what
the matcher returns: on `add (mul b a) c` it gives the same dimension, or no
match, as on `add (mul a b) c`; and the driver does on the module with the
operands exchanged what it does on the module, the operands exchanged. -/
theorem isGetGlobalIDPattern_commuteMul (M : Module) (n : Nat) :
    asMul (M.commuteMul n) (.inst n) = (asMul M (.inst n)).map (fun p => (p.2, p.1)) ∧
    (∀ V, isGetGlobalIDPattern (M.commuteMul n) V = isGetGlobalIDPattern M V) ∧
    run (M.commuteMul n) = (run M).map (fun r => (r.1.commuteMul n, r.2)) :=
  ⟨asMul_commuteMul_self M n,
    fun V => isGetGlobalIDPattern_congr (fun d => GlobalIDIdiom_commuteMul M n V d),
    run_commuteMul M n⟩
/-! ## The declaration the driver appends -/

/-- After the loop body, a position past the functions the module had holds
no block: what the body appends is a declaration. -/
theorem rewriteMatch_tail {S : PassState} {fi bi ii : Nat} {I : Instruction} (Dim : Value)
    (hI : S.M.instAt fi bi ii = some I) (fj : Nat) (hfj : S.M.functions.length ≤ fj) :
    (rewriteMatch S fi bi ii I Dim).1.M.numBlocks fj = 0 := by
  obtain ⟨Fs1, F, Bs1, p, q, Bs2, Fs2, hM, rfl, rfl, rfl⟩ := instAt_plug hI
  obtain ⟨Fs2', k, n2, ⟨_, extra, rfl, hextra⟩, _, _, _, hrw⟩ :=
    rewriteMatch_plug S Fs1 F Bs1 p q Bs2 Fs2 I Dim hM
  rw [hrw]
  simp only [Module.replaceAllUsesWith]
  rw [numBlocks_mapInsts]
  rw [hM] at hfj
  simp only [plug, List.length_append, List.length_cons] at hfj
  simp only [Module.numBlocks, plug]
  have h1 : Fs1.length ≤ fj := by omega
  rw [List.getElem?_append_right h1]
  obtain ⟨j, hj⟩ : ∃ j, fj - Fs1.length = j + 1 := ⟨fj - Fs1.length - 1, by omega⟩
  rw [hj, List.getElem?_cons_succ]
  have h2 : Fs2.length ≤ j := by omega
  rw [List.getElem?_append_right h2]
  cases hG : extra[j - Fs2.length]? with
  | none => rfl
  | some G =>
    have hmem : G ∈ extra := List.getElem?_mem hG
    simp only [hextra G hmem, List.length_nil]

theorem tail_stepInvariant (n : Nat) :
    StepInvariant (fun S => n ≤ S.M.functions.length ∧ ∀ fj, n ≤ fj → S.M.numBlocks fj = 0) := by
  intro S fi bi ii I Dim h hI _
  obtain ⟨k, n2, rest, _, _, _, _, _, hnb, hfl, _⟩ := rewriteMatch_cursor Dim hI
  refine ⟨le_trans h.1 hfl, ?_⟩
  intro fj hfj
  by_cases hlt : fj < S.M.functions.length
  · rw [hnb fj hlt]
    exact h.2 fj hfj
  · exact rewriteMatch_tail Dim hI fj (by omega)

theorem runFunctions_of_no_blocks (S : PassState) (n : Nat)
    (h : ∀ fj, n ≤ fj → S.M.numBlocks fj = 0) :
    ∀ (r fi : Nat), n ≤ fi → runFunctions r fi S = .ok S := by
  intro r
  induction r with
  | zero => intro fi _; rfl
  | succ r ih =>
    intro fi hfi
    simp only [runFunctions, h fi hfi, runBlocks]
    exact ih (fi + 1) (by omega)

/-- The functions the module has at exit beyond those it had at entry have no
block, so continuing the function loop over them, for any number of further
functions, leaves the state as it is: the loops of the driver over the
functions at entry are the loops over every function of the module. -/
theorem runLoops_appended (M : Module) :
    ∃ S, runLoops M = .ok S ∧ M.functions.length ≤ S.M.functions.length ∧
      (∀ fj, M.functions.length ≤ fj → S.M.numBlocks fj = 0) ∧
      ∀ r, runFunctions r M.functions.length S = .ok S := by
  have h0 : M.functions.length ≤ (PassState.mk M false []).M.functions.length ∧
      ∀ fj, M.functions.length ≤ fj → (PassState.mk M false []).M.numBlocks fj = 0 := by
    refine ⟨le_refl _, ?_⟩
    intro fj hfj
    simp only [Module.numBlocks]
    rw [List.getElem?_eq_none hfj]
  obtain ⟨S, hS, h1, h2⟩ := runLoops_inv (tail_stepInvariant M.functions.length) M h0
  exact ⟨S, hS, h1, h2, fun r => runFunctions_of_no_blocks S _ h2 r _ (le_refl _)⟩
/-! ## The addition is not commutative for the matcher -/

/-- The commuted scenarios: the modules are returned as they are. -/
theorem run_exCommutedAdd :
    run exCommutedAdd = .ok (exCommutedAdd, PreservedAnalyses.all) ∧
    run exCommutedAdd64 = .ok (exCommutedAdd64, PreservedAnalyses.all) := by
  constructor <;> decide

/-- C16. An addition whose left operand is not a multiplication is not
matched, whatever its right operand is, and the loop body of the driver
leaves the state unchanged at it; so the commuted form, with the call to
`get_local_id` on the left and the multiplication on the right, is neither
matched nor rewritten. -/
theorem isGetGlobalIDPattern_add_left_not_mul (M : Module) (V lhs rhs : Value)
    (hA : asAdd M V = some (lhs, rhs)) (hM : asMul M lhs = none) :
    isGetGlobalIDPattern M V = .ok none ∧
    ∀ (S : PassState) (fi bi ii : Nat) (I : Instruction), S.M = M →
      M.instAt fi bi ii = some I → I.value = V → runInsts fi bi 1 ii S = .ok S := by
  have hmatch : isGetGlobalIDPattern M V = .ok none := by
    apply isGetGlobalIDPattern_of_no_muladd
    rw [m_Muladd_eq]
    simp only [hA, hM]
    split <;> rfl
  refine ⟨hmatch, ?_⟩
  intro S fi bi ii I hS hI hV
  subst hS
  subst hV
  exact runInsts_one_of_noMatch hI hmatch

/-- C16 on the commuted forms of the end-to-end scenario: the left operand of
the addition `7` is the (truncated) call to `get_local_id`, the right one is
the multiplication of the group index and the group size on the same
dimension, and the addition is not matched. -/
theorem isGetGlobalIDPattern_add_left_not_mul_witness :
    (asAdd exCommutedAdd (.inst 7) = some (.inst 5, .inst 6) ∧
      Unwraps exCommutedAdd (.inst 5) (.inst 2) ∧
      DirectCallTo exCommutedAdd (.inst 2) GetLocalId ∧
      asMul exCommutedAdd (.inst 6) = some (.inst 3, .inst 4) ∧
      isGetGlobalIDPattern exCommutedAdd (.inst 7) = .ok none) ∧
    (asAdd exCommutedAdd64 (.inst 7) = some (.inst 2, .inst 6) ∧
      DirectCallTo exCommutedAdd64 (.inst 2) GetLocalId ∧
      asMul exCommutedAdd64 (.inst 6) = some (.inst 0, .inst 1) ∧
      DirectCallTo exCommutedAdd64 (.inst 0) GetGroupId ∧
      DirectCallTo exCommutedAdd64 (.inst 1) GetLocalSize ∧
      isGetGlobalIDPattern exCommutedAdd64 (.inst 7) = .ok none) :=
  ⟨⟨by decide, by decide, by decide, by decide,
    (isGetGlobalIDPattern_add_left_not_mul exCommutedAdd (.inst 7) (.inst 5) (.inst 6)
      (by decide) (by decide)).1⟩,
   ⟨by decide, by decide, by decide, by decide, by decide,
    (isGetGlobalIDPattern_add_left_not_mul exCommutedAdd64 (.inst 7) (.inst 2) (.inst 6)
      (by decide) (by decide)).1⟩⟩

/-! ## The probe and the accessor -/

/-- C11. The probe `isaFnCall(V, N)` is true exactly when `V` is a call
instruction whose callee operand is a function of the function type of the
call (a direct call), that function has a name, and the name is `N`; it is
false on a value that is not a call, on an indirect call, and on a call of a
function without a name. The probe is a function of the module and its
arguments to a truth value: it returns no module and changes none. -/
theorem isaFnCall_contract (M : Module) (V : Value) (N : String) :
    (isaFnCall M V N = true ↔
      ∃ fty args callee F, asCall M V = some (fty, args, callee) ∧
        M.getFunction callee = some F ∧ F.fty = fty ∧ F.name ≠ "" ∧ F.name = N) ∧
    (asCall M V = none → isaFnCall M V N = false) ∧
    (∀ fty args callee, asCall M V = some (fty, args, callee) →
      (M.getFunction callee = none ∨ ∃ F, M.getFunction callee = some F ∧ F.fty ≠ fty) →
      isaFnCall M V N = false) ∧
    (∀ fty args callee F, asCall M V = some (fty, args, callee) →
      M.getFunction callee = some F → F.name = "" → isaFnCall M V N = false) := by
  have key : isaFnCall M V N = true ↔
      ∃ fty args callee F, asCall M V = some (fty, args, callee) ∧
        M.getFunction callee = some F ∧ F.fty = fty ∧ F.name ≠ "" ∧ F.name = N := by
    rw [isaFnCall_iff]
    unfold DirectCallTo directCallee Module.getCalledFunction
    cases hC : asCall M V with
    | none => simp
    | some t =>
      obtain ⟨fty, args, callee⟩ := t
      cases hF : M.getFunction callee with
      | none => simp [hF]
      | some F =>
        by_cases hty : F.fty = fty
        · simp only [hF, hty, if_true]
          constructor
          · intro h
            exact ⟨fty, args, callee, F, rfl, hF, hty, h.1, h.2⟩
          · rintro ⟨fty1, args1, callee1, F1, h1, h2, _, h4, h5⟩
            cases h1
            rw [hF] at h2
            cases h2
            exact ⟨h4, h5⟩
        · simp only [hF, hty, if_false, false_iff]
          rintro ⟨fty1, args1, callee1, F1, h1, h2, h3, _⟩
          cases h1
          rw [hF] at h2
          cases h2
          exact hty h3
  refine ⟨key, ?_, ?_, ?_⟩
  · intro hC
    rw [Bool.eq_false_iff]
    intro h
    obtain ⟨fty, args, callee, F, h1, _⟩ := key.1 h
    rw [hC] at h1
    cases h1
  · intro fty args callee hC hF
    rw [Bool.eq_false_iff]
    intro h
    obtain ⟨fty1, args1, callee1, F, h1, h2, h3, _⟩ := key.1 h
    rw [hC] at h1
    cases h1
    rcases hF with hF | ⟨G, hG, hne⟩
    · rw [hF] at h2
      cases h2
    · rw [hG] at h2
      cases h2
      exact hne h3
  · intro fty args callee F hC hF hn
    rw [Bool.eq_false_iff]
    intro h
    obtain ⟨fty1, args1, callee1, F1, h1, h2, _, h4, _⟩ := key.1 h
    rw [hC] at h1
    cases h1
    rw [hF] at h2
    cases h2
    exact h4 hn

/-- C14. In the matcher the accessor `getCallOperand` is applied to the three
bound values only when the condition on the probes holds, and then each of
them is a call, so the accessor returns its operand 0; the probe `isaFnCall`
being true on a value makes the accessor succeed on it; hence the matcher
never fails, and neither does the driver. -/
theorem getCallOperand_safe (M : Module) :
    (∀ V N, isaFnCall M V N = true → ∃ d, getCallOperand M V 0 = .ok d) ∧
    (∀ V x y z, m_Muladd M V = some (x, y, z) →
      (((isaFnCall M x GetGroupId && isaFnCall M y GetLocalSize) ||
        (isaFnCall M y GetGroupId && isaFnCall M x GetLocalSize)) &&
        isaFnCall M z GetLocalId) = true →
      (∃ N, isaFnCall M x N = true) ∧ (∃ N, isaFnCall M y N = true) ∧
      (∃ N, isaFnCall M z N = true) ∧
      ∃ a0 a1 a2, getCallOperand M x 0 = .ok a0 ∧ getCallOperand M y 0 = .ok a1 ∧
        getCallOperand M z 0 = .ok a2) ∧
    (∀ V x y z, m_Muladd M V = some (x, y, z) →
      (((isaFnCall M x GetGroupId && isaFnCall M y GetLocalSize) ||
        (isaFnCall M y GetGroupId && isaFnCall M x GetLocalSize)) &&
        isaFnCall M z GetLocalId) = false →
      isGetGlobalIDPattern M V = .ok none) ∧
    (∀ V, m_Muladd M V = none → isGetGlobalIDPattern M V = .ok none) ∧
    (∀ V, ∃ r, isGetGlobalIDPattern M V = .ok r) ∧
    (∀ V e, isGetGlobalIDPattern M V ≠ .error e) ∧
    (∃ r, run M = .ok r) ∧ (∀ e, run M ≠ .error e) := by
  have hacc : ∀ V N, isaFnCall M V N = true → ∃ d, getCallOperand M V 0 = .ok d := by
    intro V N h
    rw [isaFnCall_iff] at h
    obtain ⟨d, hd⟩ := operand0_isSome_of_directCall h
    rw [getCallOperand_zero]
    exact ⟨d, by simp only [hd]⟩
  have hrun : ∃ r, run M = .ok r := by
    obtain ⟨S, hS, _⟩ := runLoops_inv (fun _ _ _ _ _ _ _ _ _ => trivial : StepInvariant (fun _ => True)) M trivial
    exact ⟨(S.M, if S.Changed then PreservedAnalyses.none else PreservedAnalyses.all),
      by simp only [run, hS]⟩
  refine ⟨hacc, ?_, ?_, ?_, isGetGlobalIDPattern_ok M, ?_, hrun, ?_⟩
  · intro V x y z _ hc
    simp only [Bool.and_eq_true, Bool.or_eq_true] at hc
    obtain ⟨hxy, hz⟩ := hc
    have hx : ∃ N, isaFnCall M x N = true := by
      rcases hxy with h | h
      · exact ⟨_, h.1⟩
      · exact ⟨_, h.2⟩
    have hy : ∃ N, isaFnCall M y N = true := by
      rcases hxy with h | h
      · exact ⟨_, h.2⟩
      · exact ⟨_, h.1⟩
    obtain ⟨a0, h0⟩ := hacc x _ hx.choose_spec
    obtain ⟨a1, h1⟩ := hacc y _ hy.choose_spec
    obtain ⟨a2, h2⟩ := hacc z _ hz
    exact ⟨hx, hy, ⟨_, hz⟩, a0, a1, a2, h0, h1, h2⟩
  · intro V x y z hm hc
    unfold isGetGlobalIDPattern
    simp only [hm, hc]
    rfl
  · intro V hm
    exact isGetGlobalIDPattern_of_no_muladd hm
  · intro V e h
    obtain ⟨r, hr⟩ := isGetGlobalIDPattern_ok M V
    rw [hr] at h
    cases h
  · intro e h
    obtain ⟨r, hr⟩ := hrun
    rw [hr] at h
    cases h
/-! ## The declaration the loop body calls -/

/-- The loop body at the instruction `I` of a module seen from the block of
`I`, given what `getOrInsertFunction` returned. -/
theorem rewriteMatch_plug_of (S : PassState) (Fs1 : List Function) (F : Function)
    (Bs1 : List BasicBlock) (p q : List Instruction) (Bs2 : List BasicBlock)
    (Fs2 : List Function) (I : Instruction) (Dim : Value)
    (hM : S.M = plug Fs1 F Bs1 (p ++ I :: q) Bs2 Fs2) (Fs2' : List Function) (k : Nat)
    (hg : (plug Fs1 F Bs1 (p ++ I :: q) Bs2 Fs2).getOrInsertFunction GetGlobalId
        ⟨I64Ty, [I32Ty]⟩ =
      (plug Fs1 F Bs1 (p ++ I :: q) Bs2 Fs2', ⟨⟨I64Ty, [I32Ty]⟩, .func k⟩))
    (hFs : Fs2'.flatMap Function.insts = Fs2.flatMap Function.insts) :
    ∃ n2, S.M.freshInstId < n2 ∧
      rewriteMatch S Fs1.length Bs1.length p.length I Dim =
        (⟨(plug Fs1 F Bs1 (p ++ newInsts S.M.freshInstId n2 I.ty Dim (.func k) ++ I :: q) Bs2
              Fs2').replaceAllUsesWith I.value (newValue S.M.freshInstId n2 I.ty), true,
            S.log ++ [⟨I, Dim, .inst S.M.freshInstId, newValue S.M.freshInstId n2 I.ty⟩]⟩,
          (newInsts S.M.freshInstId n2 I.ty Dim (.func k)).length) := by
  have hfresh : (plug Fs1 F Bs1 (p ++ I :: q) Bs2 Fs2').freshInstId = S.M.freshInstId := by
    apply freshInstId_congr
    rw [hM, insts_plug, insts_plug, hFs]
  have hM2 : plug Fs1 F Bs1 (p ++ gidCall S.M.freshInstId Dim (.func k) :: I :: q) Bs2 Fs2' =
      ((plug Fs1 F Bs1 (p ++ I :: q) Bs2 Fs2').insertBefore Fs1.length Bs1.length p.length
        (gidCall S.M.freshInstId Dim (.func k))) := by
    rw [insertBefore_plug]
  have hG : gidCall S.M.freshInstId Dim (.func k) ∈
      (plug Fs1 F Bs1 (p ++ gidCall S.M.freshInstId Dim (.func k) :: I :: q) Bs2 Fs2').insts := by
    simp only [insts_plug]
    simp
  refine ⟨(plug Fs1 F Bs1 (p ++ gidCall S.M.freshInstId Dim (.func k) :: I :: q) Bs2
    Fs2').freshInstId, id_lt_freshInstId hG, ?_⟩
  rw [hM2]
  by_cases hty : I.ty = I64Ty
  · have hty2 : I64Ty = I.ty := hty.symm
    simp only [rewriteMatch, hM, hg, CallInst.Create, insertBefore_plug, createTruncOrSelf]
    rw [hM] at hfresh
    simp only [hfresh, hty2, if_true, Instruction.value, newInsts, newValue, gidCall,
      List.append_assoc, List.cons_append, List.nil_append, List.length_cons, List.length_nil]
  · have hty2 : ¬ I64Ty = I.ty := fun h => hty h.symm
    simp only [rewriteMatch, hM, hg, CallInst.Create, insertBefore_plug, createTruncOrSelf,
      CastInst.CreateTruncOrBitCast]
    rw [hM] at hfresh
    simp only [hfresh, hty, hty2, if_false, Instruction.value, newInsts, newValue, gidCall,
      gidCast, insertBefore_plug_snoc,
      List.append_assoc, List.cons_append, List.nil_append, List.length_cons, List.length_nil]

theorem header_mapInsts (f : Instruction → Instruction) (F : Function) :
    (F.mapInsts f).header = F.header := rfl

theorem functions_header_mapInsts (f : Instruction → Instruction) (M : Module) :
    (M.mapInsts f).functions.map Function.header = M.functions.map Function.header := by
  simp only [Module.mapInsts, List.map_map]
  rfl

theorem functions_header_plug (Fs1 : List Function) (F : Function) (Bs1 : List BasicBlock)
    (l l2 : List Instruction) (Bs2 : List BasicBlock) (Fs2 extra : List Function) :
    (plug Fs1 F Bs1 l Bs2 (Fs2 ++ extra)).functions.map Function.header =
      (plug Fs1 F Bs1 l2 Bs2 Fs2).functions.map Function.header ++
        extra.map Function.header := by
  simp [plug, Function.header]

/-- The declarations after the loop body: those before it, and the declaration
of `get_global_id` appended when the module had no function of that name. The
inserted call calls the function of identity `k`, which has that name. -/
theorem rewriteMatch_functions {S : PassState} {fi bi ii : Nat} {I : Instruction} (Dim : Value)
    (hI : S.M.instAt fi bi ii = some I) :
    ∃ k extra,
      (rewriteMatch S fi bi ii I Dim).1.M.functions.map Function.header =
        S.M.functions.map Function.header ++ extra.map Function.header ∧
      (∃ C, (rewriteMatch S fi bi ii I Dim).1.M.getInst (.inst S.M.freshInstId) =
        some ((gidCall S.M.freshInstId Dim (.func k)).replaceUsesOfWith I.value C)) ∧
      ((extra = [] ∧ ∃ G ∈ S.M.functions, G.id = k ∧ G.name = GetGlobalId) ∨
        (extra = [⟨k, GetGlobalId, ⟨I64Ty, [I32Ty]⟩, []⟩] ∧ k = S.M.freshFuncId ∧
          ∀ G ∈ S.M.functions, G.name ≠ GetGlobalId)) := by
  obtain ⟨Fs1, F, Bs1, p, q, Bs2, Fs2, hM, rfl, rfl, rfl⟩ := instAt_plug hI
  have key : ∃ k extra,
      (plug Fs1 F Bs1 (p ++ I :: q) Bs2 Fs2).getOrInsertFunction GetGlobalId ⟨I64Ty, [I32Ty]⟩ =
        (plug Fs1 F Bs1 (p ++ I :: q) Bs2 (Fs2 ++ extra), ⟨⟨I64Ty, [I32Ty]⟩, .func k⟩) ∧
      ((extra = [] ∧ ∃ G ∈ S.M.functions, G.id = k ∧ G.name = GetGlobalId) ∨
        (extra = [⟨k, GetGlobalId, ⟨I64Ty, [I32Ty]⟩, []⟩] ∧ k = S.M.freshFuncId ∧
          ∀ G ∈ S.M.functions, G.name ≠ GetGlobalId)) := by
    rw [hM]
    unfold Module.getOrInsertFunction
    cases hf : (plug Fs1 F Bs1 (p ++ I :: q) Bs2 Fs2).functions.find?
        (fun F => F.name == GetGlobalId) with
    | some G =>
      refine ⟨G.id, [], by simp, Or.inl ⟨rfl, G, List.mem_of_find?_eq_some hf, rfl, ?_⟩⟩
      simpa using List.find?_some hf
    | none =>
      refine ⟨_, [⟨(plug Fs1 F Bs1 (p ++ I :: q) Bs2 Fs2).freshFuncId, GetGlobalId,
        ⟨I64Ty, [I32Ty]⟩, []⟩], ?_, Or.inr ⟨rfl, rfl, ?_⟩⟩
      · simp only [plug, List.append_assoc, List.cons_append]
      · intro G hG hn
        rw [List.find?_eq_none] at hf
        exact hf G hG (by simp [hn])
  obtain ⟨k, extra, hg, hcase⟩ := key
  have hFs : (Fs2 ++ extra).flatMap Function.insts = Fs2.flatMap Function.insts := by
    rcases hcase with ⟨rfl, _⟩ | ⟨rfl, _, _⟩
    · simp
    · simp [List.flatMap_append, Function.insts]
  obtain ⟨n2, hlt, hrw⟩ :=
    rewriteMatch_plug_of S Fs1 F Bs1 p q Bs2 Fs2 I Dim hM (Fs2 ++ extra) k hg hFs
  refine ⟨k, extra, ?_, ⟨newValue S.M.freshInstId n2 I.ty, ?_⟩, hcase⟩
  · rw [hrw]
    simp only [Module.replaceAllUsesWith]
    rw [functions_header_mapInsts, hM]
    exact functions_header_plug Fs1 F Bs1 _ _ Bs2 Fs2 extra
  · rw [hrw]
    simp only
    rw [getInst_eq_find, replaceAllUsesWith_plug, insts_plug, find?_map_replaceUses]
    have hp : (Fs1.flatMap Function.insts ++ Bs1.flatMap BasicBlock.insts ++ p).find?
        (fun I => I.id == S.M.freshInstId) = none := by
      apply find?_eq_none_of_lt
      intro J hJ
      apply id_lt_freshInstId
      rw [hM, insts_plug]
      simp only [List.mem_append, List.mem_cons] at hJ ⊢
      tauto
    have e : Fs1.flatMap Function.insts ++ Bs1.flatMap BasicBlock.insts ++
        (p ++ newInsts S.M.freshInstId n2 I.ty Dim (.func k) ++ I :: q) ++
        (Bs2.flatMap BasicBlock.insts ++ (Fs2 ++ extra).flatMap Function.insts) =
        (Fs1.flatMap Function.insts ++ Bs1.flatMap BasicBlock.insts ++ p) ++
        (newInsts S.M.freshInstId n2 I.ty Dim (.func k) ++ (I :: q ++
        (Bs2.flatMap BasicBlock.insts ++ (Fs2 ++ extra).flatMap Function.insts))) := by
      simp only [List.append_assoc, List.cons_append]
    rw [e, List.find?_append, hp, Option.none_or]
    unfold newInsts
    split <;> simp [gidCall]

theorem getFunction_header (M : Module) (n : Nat) :
    (M.getFunction (.func n)).map Function.header =
      (M.functions.map Function.header).find? (fun h => h.1 == n) := by
  simp only [Module.getFunction, List.find?_map]
  rfl

theorem id_lt_freshFuncId {M : Module} {G : Function} (h : G ∈ M.functions) :
    G.id < M.freshFuncId := by
  have h1 : G.id + 1 ≤ (M.functions.map (fun F => F.id + 1)).foldr max 0 :=
    le_foldr_max_of_mem (List.mem_map.2 ⟨G, h, rfl⟩)
  have h2 := le_max_left ((M.functions.map (fun F => F.id + 1)).foldr max 0)
    ((M.insts.map (fun I => (I.operands.map Value.funcBound).foldr max 0)).foldr max 0)
  unfold Module.freshFuncId
  omega

/-- The function lookups after the loop body: a function found after it was
found before it with the same name and type, or is the appended declaration
of `get_global_id`; with distinct function identities the callee of the
inserted call is a function of that name, and the identities stay distinct. -/
theorem rewriteMatch_callee {S : PassState} {fi bi ii : Nat} {I : Instruction} (Dim : Value)
    (hI : S.M.instAt fi bi ii = some I) :
    ∃ k,
      (∃ C, (rewriteMatch S fi bi ii I Dim).1.M.getInst (.inst S.M.freshInstId) =
        some ((gidCall S.M.freshInstId Dim (.func k)).replaceUsesOfWith I.value C)) ∧
      (∀ V F', (rewriteMatch S fi bi ii I Dim).1.M.getFunction V = some F' →
        (∃ F, S.M.getFunction V = some F ∧ F'.name = F.name ∧ F'.fty = F.fty) ∨
          F'.name = GetGlobalId) ∧
      ((S.M.functions.map (fun F => F.id)).Nodup →
        (∀ F', (rewriteMatch S fi bi ii I Dim).1.M.getFunction (.func k) = some F' →
          F'.name = GetGlobalId) ∧
        ((rewriteMatch S fi bi ii I Dim).1.M.functions.map (fun F => F.id)).Nodup) := by
  obtain ⟨k, extra, hh, hcall, hcase⟩ := rewriteMatch_functions Dim hI
  have hlook : ∀ n F', (rewriteMatch S fi bi ii I Dim).1.M.getFunction (.func n) = some F' →
      ((S.M.functions.map Function.header).find? (fun h => h.1 == n)).or
        ((extra.map Function.header).find? (fun h => h.1 == n)) = some F'.header := by
    intro n F' hF'
    have := getFunction_header (rewriteMatch S fi bi ii I Dim).1.M n
    rw [hF', hh, List.find?_append] at this
    exact this.symm
  have hids : (rewriteMatch S fi bi ii I Dim).1.M.functions.map (fun F => F.id) =
      S.M.functions.map (fun F => F.id) ++ extra.map (fun F => F.id) := by
    have := congrArg (List.map (fun h : Nat × String × FunctionType => h.1)) hh
    simpa [List.map_map, Function.comp_def, Function.header] using this
  refine ⟨k, hcall, ?_, ?_⟩
  · intro V F' hF'
    obtain ⟨n, rfl⟩ := getFunction_func_of_some hF'
    have h := hlook n F' hF'
    cases hold : S.M.getFunction (.func n) with
    | some F =>
      left
      have h2 := getFunction_header S.M n
      rw [hold] at h2
      rw [← h2] at h
      simp only [Option.map_some', Option.or_some, Option.some.injEq, Function.header,
        Prod.mk.injEq] at h
      exact ⟨F, rfl, h.2.1.symm, h.2.2.symm⟩
    | none =>
      right
      have h2 := getFunction_header S.M n
      rw [hold] at h2
      rw [← h2] at h
      simp only [Option.map_none', Option.none_or] at h
      have hmem := List.mem_of_find?_eq_some h
      rcases hcase with ⟨rfl, _⟩ | ⟨rfl, _, _⟩
      · cases hmem
      · simp only [List.map_cons, List.map_nil, List.mem_singleton, Function.header,
          Prod.mk.injEq] at hmem
        exact hmem.2.1
  · intro hnd
    constructor
    · intro F' hF'
      have h := hlook k F' hF'
      rcases hcase with ⟨rfl, G, hG, hGk, hGn⟩ | ⟨rfl, hk, _⟩
      · have h2 := getFunction_header S.M k
        have h3 : S.M.getFunction (.func k) = some G := by
          have := find?_eq_of_nodup (fun F : Function => F.id) S.M.functions hnd G hG
          simp only [hGk] at this
          exact this
        rw [h3] at h2
        rw [← h2] at h
        simp only [Option.map_some', Option.or_some, Option.some.injEq, Function.header,
          Prod.mk.injEq] at h
        rw [← h.2.1]
        exact hGn
      · have hnone : (S.M.functions.map Function.header).find? (fun h => h.1 == k) = none := by
          rw [List.find?_eq_none]
          intro x hx
          obtain ⟨G, hG, rfl⟩ := List.mem_map.1 hx
          have := id_lt_freshFuncId hG
          simp only [Function.header, beq_iff_eq]
          omega
        rw [hnone] at h
        simp only [List.map_cons, List.map_nil, Function.header, List.find?_cons, beq_self_eq_true,
          Option.none_or, Option.some.injEq, Prod.mk.injEq] at h
        exact h.2.1.symm
    · rw [hids]
      rcases hcase with ⟨rfl, _⟩ | ⟨rfl, hk, _⟩
      · simpa using hnd
      · simp only [List.map_cons, List.map_nil]
        rw [List.nodup_append]
        refine ⟨hnd, List.nodup_singleton _, ?_⟩
        intro a ha hb
        simp only [List.mem_singleton] at hb
        obtain ⟨G, hG, rfl⟩ := List.mem_map.1 ha
        have := id_lt_freshFuncId hG
        omega

/-- One run of the loop body at a valid position, for the proofs about the
instructions that match after it: the facts of `rewriteMatch_facts`, what an
instruction found after the loop body was before it, and the function
lookups. -/
theorem rewriteMatch_facts2 {S : PassState} {fi bi ii : Nat} {I : Instruction} (Dim : Value)
    (hI : S.M.instAt fi bi ii = some I) :
    ∃ k n2 C',
      C' = newValue S.M.freshInstId n2 I.ty ∧ S.M.freshInstId < n2 ∧ I.id < S.M.freshInstId ∧
      (∀ J ∈ S.M.insts, J.id < S.M.freshInstId ∧
        ∀ v ∈ J.operands, v ≠ .inst S.M.freshInstId ∧ v ≠ .inst n2) ∧
      (rewriteMatch S fi bi ii I Dim).1.log = S.log ++ [⟨I, Dim, .inst S.M.freshInstId, C'⟩] ∧
      (∀ J', J' ∈ (rewriteMatch S fi bi ii I Dim).1.M.insts ↔
        ∃ J, J' = J.replaceUsesOfWith I.value C' ∧
          (J ∈ S.M.insts ∨ J ∈ newInsts S.M.freshInstId n2 I.ty Dim (.func k))) ∧
      (∀ V J, S.M.getInst V = some J →
        (rewriteMatch S fi bi ii I Dim).1.M.getInst V = some (J.replaceUsesOfWith I.value C')) ∧
      (∀ V J', (rewriteMatch S fi bi ii I Dim).1.M.getInst V = some J' →
        (∃ J, S.M.getInst V = some J ∧ J' = J.replaceUsesOfWith I.value C') ∨
        (S.M.getInst V = none ∧
          ((V = .inst S.M.freshInstId ∧
              J'.shape = .call ⟨I64Ty, [I32Ty]⟩ [if Dim = I.value then C' else Dim] (.func k)) ∨
            (V = .inst n2 ∧ ∃ op, J'.shape = .cast op (.inst S.M.freshInstId))))) ∧
      (∀ V F, S.M.getFunction V = some F →
        ∃ F', (rewriteMatch S fi bi ii I Dim).1.M.getFunction V = some F' ∧
          F'.name = F.name ∧ F'.fty = F.fty) ∧
      (∀ V F', (rewriteMatch S fi bi ii I Dim).1.M.getFunction V = some F' →
        (∃ F, S.M.getFunction V = some F ∧ F'.name = F.name ∧ F'.fty = F.fty) ∨
          F'.name = GetGlobalId) ∧
      ((S.M.functions.map (fun F => F.id)).Nodup →
        (∀ F', (rewriteMatch S fi bi ii I Dim).1.M.getFunction (.func k) = some F' →
          F'.name = GetGlobalId) ∧
        ((rewriteMatch S fi bi ii I Dim).1.M.functions.map (fun F => F.id)).Nodup) := by
  obtain ⟨k, n2, C', hC', hlt, hIlt, hfr, hlog, hmem, hold, hcall, _⟩ :=
    rewriteMatch_facts Dim hI
  obtain ⟨k2, ⟨C2, hcall2⟩, hfb, hnd⟩ := rewriteMatch_callee Dim hI
  have hk : k2 = k := by
    rw [hcall] at hcall2
    simp only [gidCall, Instruction.replaceUsesOfWith, Shape.replaceUsesOfWith,
      Instruction.value, Option.some.injEq, Instruction.mk.injEq, Shape.call.injEq,
      reduceCtorEq, if_false] at hcall2
    have := hcall2.2.2.2.2
    simp only [Value.func.injEq] at this
    exact this.2.symm
  subst hk
  refine ⟨k2, n2, C', hC', hlt, hIlt, hfr, hlog, hmem, hold, ?_,
    (fun V F => @getFunction_rewriteMatch S fi bi ii I Dim hI V F), hfb, hnd⟩
  intro V J' hJ'
  cases hS : S.M.getInst V with
  | some J =>
    left
    rw [hold V J hS] at hJ'
    exact ⟨J, rfl, (Option.some.inj hJ').symm⟩
  | none =>
    right
    refine ⟨rfl, ?_⟩
    have hV := getInst_inst_of_some hJ'
    obtain ⟨J, rfl, hJ⟩ := (hmem J').1 (getInst_mem hJ')
    rw [replaceUsesOfWith_id] at hV
    rcases hJ with hJ | hJ
    · exfalso
      rw [hV, getInst_eq_find, List.find?_eq_none] at hS
      exact hS J hJ (by simp)
    · unfold newInsts at hJ
      split at hJ
      · simp only [List.mem_singleton] at hJ
        subst hJ
        left
        refine ⟨hV, ?_⟩
        simp [gidCall, Instruction.replaceUsesOfWith, Shape.replaceUsesOfWith, Instruction.value]
      · simp only [List.mem_cons, List.mem_singleton, List.not_mem_nil, or_false] at hJ
        rcases hJ with rfl | rfl
        · left
          refine ⟨hV, ?_⟩
          simp [gidCall, Instruction.replaceUsesOfWith, Shape.replaceUsesOfWith,
            Instruction.value]
        · right
          have hne : ¬ (S.M.freshInstId = I.id) := by omega
          refine ⟨hV,
            (if I64Ty.getScalarSizeInBits = I.ty.getScalarSizeInBits then .bitcast else .trunc),
            ?_⟩
          simp only [gidCast, Instruction.replaceUsesOfWith, Shape.replaceUsesOfWith,
            Instruction.value, Value.inst.injEq, hne, if_false]

/-! ## The instructions that match are the same after a rewrite -/

/-- An instruction that matches before the loop body rewrites `I` matches after
it. -/
theorem isGetGlobalIDPattern_rewriteMatch_fwd {S : PassState} {fi bi ii : Nat}
    {I : Instruction} {Dim : Value} (hI : S.M.instAt fi bi ii = some I)
    (hm : isGetGlobalIDPattern S.M I.value = .ok (some Dim)) {V d : Value}
    (hV : isGetGlobalIDPattern S.M V = .ok (some d)) :
    ∃ d', isGetGlobalIDPattern (rewriteMatch S fi bi ii I Dim).1.M V = .ok (some d') := by
  obtain ⟨lhsI, rhsI, aI, bI, caI, cbI, ccI, hAI, _, _, _, _, _, _, _, h0I, _, _⟩ :=
    isGetGlobalIDPattern_some_imp hm
  obtain ⟨lhs, rhs, a, b, ca, cb, cc, hA, hM, hU, ua, ub, uc, hxy, hz, h0, h1, h2⟩ :=
    isGetGlobalIDPattern_some_imp hV
  obtain ⟨k, n2, C', hC', hlt, hIlt, hfr, hlog, hmem, hold, hcall, hnew⟩ :=
    rewriteMatch_facts Dim hI
  have hfun := fun V F => @getFunction_rewriteMatch S fi bi ii I Dim hI V F
  have hx : ∃ N, DirectCallTo S.M ca N := by
    rcases hxy with h | h
    · exact ⟨_, h.1⟩
    · exact ⟨_, h.2⟩
  have hy : ∃ N, DirectCallTo S.M cb N := by
    rcases hxy with h | h
    · exact ⟨_, h.2⟩
    · exact ⟨_, h.1⟩
  obtain ⟨Na, hx⟩ := hx
  obtain ⟨Nb, hy⟩ := hy
  have hlhs : lhs ≠ I.value := asAdd_asMul_ne hAI hM
  have hrhs : rhs ≠ I.value := asAdd_unwraps_ne hAI uc hz
  have ha : a ≠ I.value := asAdd_unwraps_ne hAI ua hx
  have hb : b ≠ I.value := asAdd_unwraps_ne hAI ub hy
  have hca : ca ≠ I.value := asAdd_asCall_ne hAI hx.asCall_isSome.choose_spec
  have hcb : cb ≠ I.value := asAdd_asCall_ne hAI hy.asCall_isSome.choose_spec
  have hcc : cc ≠ I.value := asAdd_asCall_ne hAI hz.asCall_isSome.choose_spec
  have hA2 := asAdd_of_replaced hold hA
  rw [if_neg hlhs, if_neg hrhs] at hA2
  have hM2 := asMul_of_replaced hold hM
  rw [if_neg ha, if_neg hb] at hM2
  have hU2 : (rewriteMatch S fi bi ii I Dim).1.M.numUses lhs = 1 := by
    obtain ⟨JV, hJV, hJVs⟩ := asAdd_getInst hA
    have hlJV : lhs ∈ JV.operands := by
      simp [Instruction.operands, hJVs, Shape.operands]
    obtain ⟨Jm, hJm⟩ : ∃ Jm, S.M.getInst lhs = some Jm := by
      unfold asMul at hM
      cases hg : S.M.getInst lhs with
      | none => simp [hg] at hM
      | some Jm => exact ⟨Jm, rfl⟩
    have hlv := getInst_inst_of_some hJm
    have hlt2 : Jm.id < S.M.freshInstId := id_lt_freshInstId (getInst_mem hJm)
    have hD : lhs ≠ Dim := by
      intro hD
      obtain ⟨Jc, hJc, hdJc, fty, args, callee, hJcs⟩ := operand0_getInst h0I
      have hne : JV ≠ Jc := by
        intro h
        rw [h, hJcs] at hJVs
        cases hJVs
      have := two_le_numUses (getInst_mem hJV) (getInst_mem hJc) hne hlJV (hD ▸ hdJc)
      omega
    rw [hlv] at hlhs hD ⊢
    rw [numUses_rewriteMatch Dim hI hlt2 hlhs hD, ← hlv]
    exact hU
  have hdc : ∀ V N, DirectCallTo S.M V N →
      DirectCallTo (rewriteMatch S fi bi ii I Dim).1.M V N :=
    fun V N h => DirectCallTo_of_replaced hold hfun h
  apply Exists.intro (if d = I.value then C' else d)
  apply isGetGlobalIDPattern_of_idiom
  refine ⟨lhs, rhs, a, b, ca, cb, cc, hA2, hM2, hU2, Unwraps_of_replaced hold hca ua,
    Unwraps_of_replaced hold hcb ub, Unwraps_of_replaced hold hcc uc, ?_, hdc _ _ hz,
    operand0_of_replaced hold h0, operand0_of_replaced hold h1, operand0_of_replaced hold h2⟩
  rcases hxy with h | h
  · exact Or.inl ⟨hdc _ _ h.1, hdc _ _ h.2⟩
  · exact Or.inr ⟨hdc _ _ h.1, hdc _ _ h.2⟩

theorem asAdd_iff_getInst {M : Module} {V l r : Value} :
    asAdd M V = some (l, r) ↔ ∃ J, M.getInst V = some J ∧ J.shape = .binop .add l r := by
  unfold asAdd
  cases hJ : M.getInst V with
  | none => simp
  | some J =>
    obtain ⟨id, name, ty, shape⟩ := J
    cases shape with
    | binop op a b => cases op <;> simp
    | _ => simp

theorem asMul_iff_getInst {M : Module} {V l r : Value} :
    asMul M V = some (l, r) ↔ ∃ J, M.getInst V = some J ∧ J.shape = .binop .mul l r := by
  unfold asMul
  cases hJ : M.getInst V with
  | none => simp
  | some J =>
    obtain ⟨id, name, ty, shape⟩ := J
    cases shape with
    | binop op a b => cases op <;> simp
    | _ => simp

theorem asTrunc_iff_getInst {M : Module} {V y : Value} :
    asTrunc M V = some y ↔ ∃ J, M.getInst V = some J ∧ J.shape = .cast .trunc y := by
  unfold asTrunc
  cases hJ : M.getInst V with
  | none => simp
  | some J =>
    obtain ⟨id, name, ty, shape⟩ := J
    cases shape with
    | cast op a => cases op <;> simp
    | _ => simp

theorem asCall_iff_getInst {M : Module} {V callee : Value} {fty : FunctionType}
    {args : List Value} :
    asCall M V = some (fty, args, callee) ↔
      ∃ J, M.getInst V = some J ∧ J.shape = .call fty args callee := by
  unfold asCall
  cases hJ : M.getInst V with
  | none => simp
  | some J =>
    obtain ⟨id, name, ty, shape⟩ := J
    cases shape <;> simp

theorem shape_replaced_binop {Old New : Value} {J : Instruction} {op : BinOp} {l' r' : Value}
    (h : (J.replaceUsesOfWith Old New).shape = .binop op l' r') :
    ∃ l r, J.shape = .binop op l r ∧ l' = (if l = Old then New else l) ∧
      r' = (if r = Old then New else r) := by
  obtain ⟨id, name, ty, shape⟩ := J
  cases shape with
  | binop op2 a b =>
    simp only [Instruction.replaceUsesOfWith, Shape.replaceUsesOfWith, Shape.binop.injEq] at h
    obtain ⟨rfl, rfl, rfl⟩ := h
    exact ⟨a, b, rfl, rfl, rfl⟩
  | _ => simp [Instruction.replaceUsesOfWith, Shape.replaceUsesOfWith] at h

theorem shape_replaced_cast {Old New : Value} {J : Instruction} {op : CastOp} {y' : Value}
    (h : (J.replaceUsesOfWith Old New).shape = .cast op y') :
    ∃ y, J.shape = .cast op y ∧ y' = (if y = Old then New else y) := by
  obtain ⟨id, name, ty, shape⟩ := J
  cases shape with
  | cast op2 a =>
    simp only [Instruction.replaceUsesOfWith, Shape.replaceUsesOfWith, Shape.cast.injEq] at h
    obtain ⟨rfl, rfl⟩ := h
    exact ⟨a, rfl, rfl⟩
  | _ => simp [Instruction.replaceUsesOfWith, Shape.replaceUsesOfWith] at h

theorem shape_replaced_call {Old New : Value} {J : Instruction} {fty : FunctionType}
    {args' : List Value} {callee' : Value}
    (h : (J.replaceUsesOfWith Old New).shape = .call fty args' callee') :
    ∃ args callee, J.shape = .call fty args callee ∧
      args' = args.map (fun a => if a = Old then New else a) ∧
      callee' = (if callee = Old then New else callee) := by
  obtain ⟨id, name, ty, shape⟩ := J
  cases shape with
  | call f a c =>
    simp only [Instruction.replaceUsesOfWith, Shape.replaceUsesOfWith, Shape.call.injEq] at h
    obtain ⟨rfl, rfl, rfl⟩ := h
    exact ⟨a, c, rfl, rfl, rfl⟩
  | _ => simp [Instruction.replaceUsesOfWith, Shape.replaceUsesOfWith] at h

theorem DirectCallTo_iff {M : Module} {V : Value} {N : String} :
    DirectCallTo M V N ↔
      ∃ fty args callee F, asCall M V = some (fty, args, callee) ∧
        M.getFunction callee = some F ∧ F.fty = fty ∧ F.name ≠ "" ∧ F.name = N := by
  unfold DirectCallTo directCallee Module.getCalledFunction
  cases hC : asCall M V with
  | none => simp
  | some t =>
    obtain ⟨fty, args, callee⟩ := t
    cases hF : M.getFunction callee with
    | none => simp [hF]
    | some F =>
      by_cases hty : F.fty = fty
      · simp only [hF, hty, if_true]
        constructor
        · intro h
          exact ⟨fty, args, callee, F, rfl, hF, hty, h.1, h.2⟩
        · rintro ⟨fty1, args1, callee1, F1, h1, h2, _, h4, h5⟩
          cases h1
          rw [hF] at h2
          cases h2
          exact ⟨h4, h5⟩
      · simp only [hF, hty, if_false, false_iff]
        rintro ⟨fty1, args1, callee1, F1, h1, h2, h3, _⟩
        cases h1
        rw [hF] at h2
        cases h2
        exact hty h3

/-- An instruction that matches after the loop body has rewritten `I` matched
before it, in a module whose functions have distinct identities. -/
theorem isGetGlobalIDPattern_rewriteMatch_bwd {S : PassState} {fi bi ii : Nat}
    {I : Instruction} {Dim : Value} (hI : S.M.instAt fi bi ii = some I)
    (hm : isGetGlobalIDPattern S.M I.value = .ok (some Dim))
    (hnd : (S.M.functions.map (fun F => F.id)).Nodup) {V d' : Value}
    (hV : isGetGlobalIDPattern (rewriteMatch S fi bi ii I Dim).1.M V = .ok (some d')) :
    ∃ d, isGetGlobalIDPattern S.M V = .ok (some d) := by
  obtain ⟨lhsI, rhsI, aI, bI, caI, cbI, ccI, hAI, _, _, _, _, _, _, _, h0I, _, _⟩ :=
    isGetGlobalIDPattern_some_imp hm
  obtain ⟨lhs', rhs', a', b', ca, cb, cc, hA', hM', hU', ua', ub', uc', hxy', hz', h0', h1',
    h2'⟩ := isGetGlobalIDPattern_some_imp hV
  obtain ⟨k, n2, C', hC', hlt, hIlt, hfr, hlog, hmem, hold, hinv, hfun, hfb, hnd2⟩ :=
    rewriteMatch_facts2 Dim hI
  obtain ⟨hk, _⟩ := hnd2 hnd
  have hfreshNone : ∀ n, S.M.freshInstId ≤ n → S.M.getInst (.inst n) = none := by
    intro n hn
    rw [getInst_eq_find]
    apply find?_eq_none_of_lt
    intro J hJ
    have := id_lt_freshInstId hJ
    omega
  have hC'none : S.M.getInst C' = none := by
    rw [hC']
    unfold newValue
    split
    · exact hfreshNone _ (le_refl _)
    · exact hfreshNone _ (by omega)
  have hfound : ∀ x J, S.M.getInst (if x = I.value then C' else x) = some J → x ≠ I.value := by
    intro x J h hx
    rw [if_pos hx, hC'none] at h
    cases h
  have invDirect : ∀ X N, N ≠ GetGlobalId →
      DirectCallTo (rewriteMatch S fi bi ii I Dim).1.M X N → DirectCallTo S.M X N := by
    intro X N hN h
    obtain ⟨fty, args', callee', F', hc, hF', hty, hne, hname⟩ := DirectCallTo_iff.1 h
    obtain ⟨J', hJ', hs'⟩ := asCall_iff_getInst.1 hc
    rcases hinv X J' hJ' with ⟨J, hJ, rfl⟩ | ⟨_, ⟨_, hs⟩ | ⟨_, op, hs⟩⟩
    · obtain ⟨args, callee, hs, rfl, rfl⟩ := shape_replaced_call hs'
      rcases hfb _ _ hF' with ⟨F, hF, hn, hf⟩ | hg
      · have hcal : (if callee = I.value then C' else callee) = callee := by
          by_cases hx : callee = I.value
          · rw [if_pos hx, hC'] at hF
            exfalso
            unfold newValue at hF
            split at hF <;> cases hF
          · rw [if_neg hx]
        rw [hcal] at hF
        exact DirectCallTo_iff.2 ⟨fty, args, callee, F, asCall_iff_getInst.2 ⟨J, hJ, hs⟩, hF,
          hf.symm.trans hty, fun e => hne (hn.trans e), hn.symm.trans hname⟩
      · exact absurd (hname.symm.trans hg) hN
    · rw [hs] at hs'
      simp only [Shape.call.injEq] at hs'
      obtain ⟨_, _, rfl⟩ := hs'
      exact absurd (hname.symm.trans (hk F' hF')) hN
    · rw [hs] at hs'
      cases hs'
  have invUnwrap : ∀ x c N, N ≠ GetGlobalId →
      Unwraps (rewriteMatch S fi bi ii I Dim).1.M (if x = I.value then C' else x) c →
      DirectCallTo (rewriteMatch S fi bi ii I Dim).1.M c N → Unwraps S.M x c := by
    intro x c N hN hu hd
    have hdS := invDirect c N hN hd
    obtain ⟨⟨fty, args, callee⟩, hcS⟩ := hdS.asCall_isSome
    obtain ⟨Jc, hJc, _⟩ := asCall_iff_getInst.1 hcS
    rcases hu with hu | hu
    · have hx : x ≠ I.value := hfound x Jc (hu ▸ hJc)
      left
      rw [hu, if_neg hx]
    · obtain ⟨Jt', hJt', hst'⟩ := asTrunc_iff_getInst.1 hu
      rcases hinv _ Jt' hJt' with ⟨Jt, hJt, rfl⟩ | ⟨_, ⟨_, hs⟩ | ⟨_, op, hs⟩⟩
      · have hxne := hfound x Jt hJt
        rw [if_neg hxne] at hJt
        obtain ⟨y, hst, hy⟩ := shape_replaced_cast hst'
        have hyne : y ≠ I.value := hfound y Jc (hy ▸ hJc)
        rw [if_neg hyne] at hy
        right
        rw [hy]
        exact asTrunc_iff_getInst.2 ⟨Jt, hJt, hst⟩
      · rw [hs] at hst'
        cases hst'
      · rw [hs] at hst'
        simp only [Shape.cast.injEq] at hst'
        rw [← hst'.2, hfreshNone _ (le_refl _)] at hJc
        cases hJc
  have hnames : GetGroupId ≠ GetGlobalId ∧ GetLocalSize ≠ GetGlobalId ∧
      GetLocalId ≠ GetGlobalId := by decide
  have hz := invDirect cc _ hnames.2.2 hz'
  have hx' : ∃ N, N ≠ GetGlobalId ∧ DirectCallTo (rewriteMatch S fi bi ii I Dim).1.M ca N := by
    rcases hxy' with h | h
    · exact ⟨_, hnames.1, h.1⟩
    · exact ⟨_, hnames.2.1, h.2⟩
  have hy' : ∃ N, N ≠ GetGlobalId ∧ DirectCallTo (rewriteMatch S fi bi ii I Dim).1.M cb N := by
    rcases hxy' with h | h
    · exact ⟨_, hnames.2.1, h.2⟩
    · exact ⟨_, hnames.1, h.1⟩
  obtain ⟨Na, hNa, hxa⟩ := hx'
  obtain ⟨Nb, hNb, hyb⟩ := hy'
  have hx := invDirect ca Na hNa hxa
  have hy := invDirect cb Nb hNb hyb
  have hxy : (DirectCallTo S.M ca GetGroupId ∧ DirectCallTo S.M cb GetLocalSize) ∨
      (DirectCallTo S.M cb GetGroupId ∧ DirectCallTo S.M ca GetLocalSize) := by
    rcases hxy' with h | h
    · exact Or.inl ⟨invDirect _ _ hnames.1 h.1, invDirect _ _ hnames.2.1 h.2⟩
    · exact Or.inr ⟨invDirect _ _ hnames.1 h.1, invDirect _ _ hnames.2.1 h.2⟩
  -- the addition
  obtain ⟨JV', hJV', hsV'⟩ := asAdd_iff_getInst.1 hA'
  rcases hinv V JV' hJV' with ⟨JV, hJV, rfl⟩ | ⟨_, ⟨_, hs⟩ | ⟨_, op, hs⟩⟩
  rotate_left
  · rw [hs] at hsV'
    cases hsV'
  · rw [hs] at hsV'
    cases hsV'
  obtain ⟨lhs, rhs, hsV, rfl, rfl⟩ := shape_replaced_binop hsV'
  have hA : asAdd S.M V = some (lhs, rhs) := asAdd_iff_getInst.2 ⟨JV, hJV, hsV⟩
  -- the multiplication
  obtain ⟨Jm', hJm', hsm'⟩ := asMul_iff_getInst.1 hM'
  rcases hinv _ Jm' hJm' with ⟨Jm, hJm, rfl⟩ | ⟨_, ⟨_, hs⟩ | ⟨_, op, hs⟩⟩
  rotate_left
  · rw [hs] at hsm'
    cases hsm'
  · rw [hs] at hsm'
    cases hsm'
  have hlhs : lhs ≠ I.value := hfound lhs Jm hJm
  rw [if_neg hlhs] at hJm hU'
  obtain ⟨a, b, hsm, rfl, rfl⟩ := shape_replaced_binop hsm'
  have hM : asMul S.M lhs = some (a, b) := asMul_iff_getInst.2 ⟨Jm, hJm, hsm⟩
  have ua := invUnwrap a ca Na hNa ua' hxa
  have ub := invUnwrap b cb Nb hNb ub' hyb
  have uc := invUnwrap rhs cc _ hnames.2.2 uc' hz'
  -- the single use of the multiplication
  have hU : S.M.numUses lhs = 1 := by
    have hlv := getInst_inst_of_some hJm
    have hlt2 : Jm.id < S.M.freshInstId := id_lt_freshInstId (getInst_mem hJm)
    have hD : lhs ≠ Dim := by
      intro hD
      obtain ⟨Jc, hJc, hdJc, _⟩ := operand0_getInst h0I
      have hDI : Dim ≠ I.value := hD ▸ hlhs
      have h1 : (gidCall S.M.freshInstId Dim (.func k)).replaceUsesOfWith I.value C' ∈
          (rewriteMatch S fi bi ii I Dim).1.M.insts :=
        (hmem _).2 ⟨_, rfl, Or.inr (gidCall_mem_newInsts _ _ _ _ _)⟩
      have h2 : Jc.replaceUsesOfWith I.value C' ∈ (rewriteMatch S fi bi ii I Dim).1.M.insts :=
        (hmem _).2 ⟨_, rfl, Or.inl (getInst_mem hJc)⟩
      have hne : (gidCall S.M.freshInstId Dim (.func k)).replaceUsesOfWith I.value C' ≠
          Jc.replaceUsesOfWith I.value C' := by
        intro h
        have := congrArg Instruction.id h
        simp only [replaceUsesOfWith_id, gidCall] at this
        have := id_lt_freshInstId (getInst_mem hJc)
        omega
      have m1 : Dim ∈ ((gidCall S.M.freshInstId Dim (.func k)).replaceUsesOfWith I.value
          C').operands := by
        rw [operands_replaceUsesOfWith]
        refine List.mem_map.2 ⟨Dim, ?_, if_neg hDI⟩
        simp [gidCall, Instruction.operands, Shape.operands]
      have m2 : Dim ∈ (Jc.replaceUsesOfWith I.value C').operands := by
        rw [operands_replaceUsesOfWith]
        exact List.mem_map.2 ⟨Dim, hdJc, if_neg hDI⟩
      have := two_le_numUses h1 h2 hne m1 m2
      rw [hD] at hU'
      omega
    rw [hlv] at hlhs hD hU' ⊢
    rw [numUses_rewriteMatch Dim hI hlt2 hlhs hD] at hU'
    exact hU'
  -- the dimensions
  obtain ⟨d0, h0⟩ := operand0_isSome_of_directCall hx
  obtain ⟨d1, h1⟩ := operand0_isSome_of_directCall hy
  obtain ⟨d2, h2⟩ := operand0_isSome_of_directCall hz
  have e0 := operand0_of_replaced hold h0
  have e1 := operand0_of_replaced hold h1
  have e2 := operand0_of_replaced hold h2
  rw [h0'] at e0
  rw [h1'] at e1
  rw [h2'] at e2
  have hnC : ∀ X d, operand0 S.M X = some d → d ≠ C' := by
    intro X d h
    obtain ⟨J, hJ, hd⟩ := operand0_mem h
    have := (hfr J hJ).2 d hd
    rw [hC']
    unfold newValue
    split
    · exact this.1
    · exact this.2
  have hinj : ∀ x y : Value, x ≠ C' → y ≠ C' →
      (if x = I.value then C' else x) = (if y = I.value then C' else y) → x = y := by
    intro x y hx hy h
    by_cases h1 : x = I.value <;> by_cases h2 : y = I.value
    · rw [h1, h2]
    · rw [if_pos h1, if_neg h2] at h
      exact absurd h.symm hy
    · rw [if_neg h1, if_pos h2] at h
      exact absurd h hx
    · rw [if_neg h1, if_neg h2] at h
      exact h
  have e01 : d0 = d1 := hinj d0 d1 (hnC _ _ h0) (hnC _ _ h1)
    ((Option.some.inj e0).symm.trans (Option.some.inj e1))
  have e02 : d0 = d2 := hinj d0 d2 (hnC _ _ h0) (hnC _ _ h2)
    ((Option.some.inj e0).symm.trans (Option.some.inj e2))
  refine ⟨d0, isGetGlobalIDPattern_of_idiom ⟨lhs, rhs, a, b, ca, cb, cc, hA, hM, hU, ua, ub, uc,
    hxy, hz, h0, e01 ▸ h1, e02 ▸ h2⟩⟩

/-! ## The loops with the trace -/

theorem runInstsTraced_cursor {Q : PassState → List Value → List Instruction → Prop}
    (hQ : TracedInvariant Q) (fi bi : Nat) :
    ∀ (r ii : Nat) (S : PassState) (tr : List Value), ii + r = S.M.blockSize fi bi →
      Q S tr (visitedBefore S.M fi bi ii) →
      ∃ S' tr', runInstsTraced fi bi r ii S tr = .ok (S', tr') ∧
        runInsts fi bi r ii S = .ok S' ∧
        Q S' tr' (visitedBefore S'.M fi bi (S'.M.blockSize fi bi)) ∧
        (∀ fj, fj < S.M.functions.length → S'.M.numBlocks fj = S.M.numBlocks fj) ∧
        S.M.functions.length ≤ S'.M.functions.length := by
  intro r
  induction r with
  | zero =>
    intro ii S tr hr h
    rw [Nat.add_zero] at hr
    rw [hr] at h
    exact ⟨S, tr, rfl, rfl, h, fun _ _ => rfl, le_refl _⟩
  | succ r ih =>
    intro ii S tr hr h
    obtain ⟨I, hI⟩ := @instAt_isSome_of_lt S.M fi bi ii (by omega)
    simp only [runInstsTraced, runInsts, hI]
    obtain ⟨res, hres⟩ := isGetGlobalIDPattern_ok S.M I.value
    cases res with
    | none =>
      simp only [hres]
      exact ih (ii + 1) S _ (by omega) (hQ.1 S tr fi bi ii I h hI hres)
    | some Dim =>
      simp only [hres]
      obtain ⟨k, n2, rest, _, _, _, _, hbs, hnb, hfl, _⟩ := rewriteMatch_cursor Dim hI
      obtain ⟨S', tr', hT', hS', hQ', hnb', hfl'⟩ :=
        ih (ii + (rewriteMatch S fi bi ii I Dim).2 + 1)
          (rewriteMatch S fi bi ii I Dim).1 (tr ++ [I.value]) (by rw [hbs]; omega)
          (hQ.2 S tr fi bi ii I Dim h hI hres)
      refine ⟨S', tr', hT', hS', hQ', ?_, le_trans hfl hfl'⟩
      intro fj hfj
      rw [hnb' fj (lt_of_lt_of_le hfj hfl), hnb fj hfj]

theorem runBlocksTraced_cursor {Q : PassState → List Value → List Instruction → Prop}
    (hQ : TracedInvariant Q) (fi : Nat) :
    ∀ (r bi : Nat) (S : PassState) (tr : List Value), bi + r = S.M.numBlocks fi →
      fi < S.M.functions.length → Q S tr (visitedBefore S.M fi bi 0) →
      ∃ S' tr', runBlocksTraced fi r bi S tr = .ok (S', tr') ∧
        runBlocks fi r bi S = .ok S' ∧
        Q S' tr' (visitedBefore S'.M fi (S'.M.numBlocks fi) 0) ∧
        (∀ fj, fj < S.M.functions.length → S'.M.numBlocks fj = S.M.numBlocks fj) ∧
        S.M.functions.length ≤ S'.M.functions.length := by
  intro r
  induction r with
  | zero =>
    intro bi S tr hr _ h
    rw [Nat.add_zero] at hr
    rw [hr] at h
    exact ⟨S, tr, rfl, rfl, h, fun _ _ => rfl, le_refl _⟩
  | succ r ih =>
    intro bi S tr hr hfi h
    simp only [runBlocksTraced, runBlocks]
    obtain ⟨S1, tr1, hT1, hS1, hQ1, hnb1, hfl1⟩ :=
      runInstsTraced_cursor hQ fi bi (S.M.blockSize fi bi) 0 S tr (by omega) h
    simp only [hT1, hS1]
    have hbi : bi < S1.M.numBlocks fi := by
      rw [hnb1 fi hfi]
      omega
    rw [visitedBefore_block_end hbi] at hQ1
    obtain ⟨S', tr', hT', hS', hQ', hnb', hfl'⟩ := ih (bi + 1) S1 tr1
      (by rw [hnb1 fi hfi]; omega) (lt_of_lt_of_le hfi hfl1) hQ1
    refine ⟨S', tr', hT', hS', hQ', ?_, le_trans hfl1 hfl'⟩
    intro fj hfj
    rw [hnb' fj (lt_of_lt_of_le hfj hfl1), hnb1 fj hfj]

theorem runFunctionsTraced_cursor {Q : PassState → List Value → List Instruction → Prop}
    (hQ : TracedInvariant Q) (n : Nat) :
    ∀ (r fi : Nat) (S : PassState) (tr : List Value), fi + r = n →
      n ≤ S.M.functions.length → Q S tr (visitedBefore S.M fi 0 0) →
      ∃ S' tr', runFunctionsTraced r fi S tr = .ok (S', tr') ∧
        runFunctions r fi S = .ok S' ∧ Q S' tr' (visitedBefore S'.M n 0 0) ∧
        n ≤ S'.M.functions.length := by
  intro r
  induction r with
  | zero =>
    intro fi S tr hr hn h
    rw [Nat.add_zero] at hr
    rw [hr] at h
    exact ⟨S, tr, rfl, rfl, h, hn⟩
  | succ r ih =>
    intro fi S tr hr hn h
    simp only [runFunctionsTraced, runFunctions]
    have hfi : fi < S.M.functions.length := by omega
    obtain ⟨S1, tr1, hT1, hS1, hQ1, _, hfl1⟩ :=
      runBlocksTraced_cursor hQ fi (S.M.numBlocks fi) 0 S tr (by omega) hfi h
    simp only [hT1, hS1]
    rw [visitedBefore_function_end (lt_of_lt_of_le hfi hfl1)] at hQ1
    exact ih (fi + 1) S1 tr1 (by omega) (le_trans hn hfl1) hQ1

/-- The loops with the trace end, in the state the loops of the driver end in,
and a property of the state, the trace and the instructions before the cursor
that holds at entry and is preserved by every move of the cursor holds at
exit. -/
theorem runLoopsTraced_cursor {Q : PassState → List Value → List Instruction → Prop}
    (hQ : TracedInvariant Q) (M : Module) (h0 : Q ⟨M, false, []⟩ [] []) :
    ∃ S tr, runLoopsTraced M = .ok (S, tr) ∧ runLoops M = .ok S ∧
      Q S tr (visitedBefore S.M M.functions.length 0 0) := by
  have h0' : Q ⟨M, false, []⟩ [] (visitedBefore (PassState.mk M false []).M 0 0 0) := by
    rw [visitedBefore_zero]
    exact h0
  obtain ⟨S, tr, hT, hS, hQS, _⟩ := runFunctionsTraced_cursor hQ M.functions.length
    M.functions.length 0 ⟨M, false, []⟩ [] (by omega) (le_refl _) h0'
  exact ⟨S, tr, hT, hS, hQS⟩

/-! ## The instructions rewritten are those that match at entry -/

theorem frame_replaceUsesOfWith (Old New : Value) (J : Instruction) :
    (J.replaceUsesOfWith Old New).frame = J.frame := by
  obtain ⟨id, name, ty, shape⟩ := J
  cases shape <;> rfl

theorem map_frame_replaceUses (Old New : Value) (l : List Instruction) :
    (l.map (Instruction.replaceUsesOfWith Old New)).map Instruction.frame =
      l.map Instruction.frame := by
  rw [List.map_map]
  apply List.map_congr_left
  intro J _
  exact frame_replaceUsesOfWith Old New J

theorem value_eq_of_frame {J T : Instruction} (h : T.frame = J.frame) : T.value = J.value := by
  have := congrArg Prod.fst h
  simp only [Instruction.frame] at this
  simp only [Instruction.value, this]

theorem isMatch_iff {M : Module} {V : Value} :
    isMatch M V = true ↔ ∃ d, isGetGlobalIDPattern M V = .ok (some d) := by
  unfold isMatch
  cases h : isGetGlobalIDPattern M V with
  | error e => simp
  | ok r =>
    cases r with
    | none => simp
    | some d => simp

theorem isMatch_rewriteMatch {S : PassState} {fi bi ii : Nat} {I : Instruction} {Dim : Value}
    (hI : S.M.instAt fi bi ii = some I)
    (hm : isGetGlobalIDPattern S.M I.value = .ok (some Dim))
    (hnd : (S.M.functions.map (fun F => F.id)).Nodup) (V : Value) :
    isMatch (rewriteMatch S fi bi ii I Dim).1.M V = isMatch S.M V := by
  rw [Bool.eq_iff_iff, isMatch_iff, isMatch_iff]
  constructor
  · rintro ⟨d, hd⟩
    exact isGetGlobalIDPattern_rewriteMatch_bwd hI hm hnd hd
  · rintro ⟨d, hd⟩
    exact isGetGlobalIDPattern_rewriteMatch_fwd hI hm hd

theorem matchSet_tracedInvariant (M0 : Module) (n : Nat) :
    TracedInvariant (MatchSetInv M0 n) := by
  refine ⟨?_, ?_⟩
  · intro S tr fi bi ii I h hI hres
    obtain ⟨after, done, todo, hins, hM0, hfr, htr, hlog, hst, hnd, hfresh, hnew, hgnd,
      htail⟩ := h
    obtain ⟨rest, hrest⟩ := insts_eq_visitedBefore hI
    have hafter : after = I :: rest := List.append_cancel_left (hins.symm.trans hrest)
    subst hafter
    cases todo with
    | nil => simp at hfr
    | cons T todo' =>
      simp only [List.map_cons, List.cons.injEq] at hfr
      have hval := value_eq_of_frame hfr.1.symm
      refine ⟨rest, done ++ [T], todo', ?_, ?_, hfr.2, ?_, ?_, hst, hnd, hfresh, hnew, hgnd,
        htail⟩
      · rw [visitedBefore_succ hI, hrest]
        simp
      · rw [hM0]
        simp
      · rw [htr, List.map_append, List.map_cons, List.map_nil, hval]
      · have hno : isMatch M0 T.value = false := by
          rw [← hst, hval]
          unfold isMatch
          rw [hres]
        rw [List.filter_append, hlog]
        simp [hno]
  · intro S tr fi bi ii I Dim h hI hres
    obtain ⟨after, done, todo, hins, hM0, hfr, htr, hlog, hst, hnd, hfresh, hnew, hgnd,
      htail⟩ := h
    obtain ⟨k, n2, rest, hlt, hrest, hinsR, hvbR, _, _, _, hlogR⟩ := rewriteMatch_cursor Dim hI
    obtain ⟨k3, n3, C3, hC3, hlt3, _, _, hlog3, _, _, _, _, _, hnd3⟩ := rewriteMatch_facts2 Dim hI
    have hafter : after = I :: rest := List.append_cancel_left (hins.symm.trans hrest)
    subst hafter
    cases todo with
    | nil => simp at hfr
    | cons T todo' =>
      simp only [List.map_cons, List.cons.injEq] at hfr
      have hval := value_eq_of_frame hfr.1.symm
      have hcallmem := getInst_rewriteMatch_call Dim hI
      have hfresh2 : S.M.freshInstId < (rewriteMatch S fi bi ii I Dim).1.M.freshInstId := by
        obtain ⟨k4, C4, h4⟩ := hcallmem
        exact id_lt_freshInstId (getInst_mem h4)
      refine ⟨rest.map (Instruction.replaceUsesOfWith I.value (newValue S.M.freshInstId n2 I.ty)),
        done ++ [T], todo', ?_, ?_, ?_, ?_, ?_, ?_, (hnd3 hnd).2, by omega, ?_, ?_,
        tail_stepInvariant n S fi bi ii I Dim htail hI hres⟩
      · rw [hvbR, hinsR]
        simp
      · rw [hM0]
        simp
      · rw [map_frame_replaceUses]
        exact hfr.2
      · rw [htr, List.map_append, List.map_cons, List.map_nil, hval]
      · have hyes : isMatch M0 T.value = true := by
          rw [← hst, hval]
          unfold isMatch
          rw [hres]
        rw [List.filter_append, hlog3, List.map_append, hlog]
        simp [hyes, hfr.1]
      · intro V
        rw [isMatch_rewriteMatch hI hres hnd V]
        exact hst V
      · intro e he
        rw [hlog3] at he
        rcases List.mem_append.1 he with he | he
        · obtain ⟨n1, m2, h1, h2, h3, h4, h5⟩ := hnew e he
          exact ⟨n1, m2, h1, by omega, h3, h4, h5⟩
        · simp only [List.mem_singleton] at he
          subst he
          rw [hC3]
          unfold newValue
          split
          · exact ⟨_, _, hfresh, hfresh2, hfresh, rfl, rfl⟩
          · exact ⟨_, _, hfresh, hfresh2, by omega, rfl, rfl⟩
      · rw [hlog3, List.map_append, List.nodup_append]
        refine ⟨hgnd, List.nodup_singleton _, ?_⟩
        intro v hv hv2
        simp only [List.map_cons, List.map_nil, List.mem_singleton] at hv2
        obtain ⟨e, he, rfl⟩ := List.mem_map.1 hv
        obtain ⟨n1, m2, _, h2, _, h4, _⟩ := hnew e he
        rw [h4] at hv2
        simp only [Value.inst.injEq] at hv2
        omega

theorem insts_eq_visitedBefore_end {M : Module} {n : Nat}
    (h : ∀ fj, n ≤ fj → M.numBlocks fj = 0) : M.insts = visitedBefore M n 0 0 := by
  have hvb : visitedBefore M n 0 0 = (M.functions.take n).flatMap Function.insts := by
    unfold visitedBefore
    cases M.functions[n]? with
    | none => simp
    | some F =>
      cases hB : F.blocks[0]? with
      | none => simp [hB]
      | some B => simp [hB]
  have hdrop : (M.functions.drop n).flatMap Function.insts = [] := by
    rw [List.flatMap_eq_nil_iff]
    intro F hF
    obtain ⟨j, hj⟩ := List.getElem?_of_mem hF
    rw [List.getElem?_drop] at hj
    have := h (n + j) (by omega)
    unfold Module.numBlocks at this
    rw [hj] at this
    simp only [List.length_eq_zero] at this
    simp [Function.insts, this]
  rw [hvb]
  conv_lhs => rw [Module.insts, ← List.take_append_drop n M.functions, List.flatMap_append, hdrop]
  simp

/-- The traversal of a module whose functions have distinct identities: the
loops end; the trace is the instructions of the module at entry, in order;
the log is the instructions of the module at entry that match in it, in
order; the values that match at exit are those that match at entry; and the
inserted values are not instructions of the module at entry. -/
theorem runLoops_matchSet (M : Module) (hnd : (M.functions.map (fun F => F.id)).Nodup) :
    ∃ S tr, runLoopsTraced M = .ok (S, tr) ∧ runLoops M = .ok S ∧
      tr = M.insts.map Instruction.value ∧
      S.log.map (fun e => e.I.frame) =
        (M.insts.filter (fun J => isMatch M J.value)).map Instruction.frame ∧
      (∀ V, isMatch S.M V = isMatch M V) ∧
      (∀ e ∈ S.log, ∃ n1 n2, M.freshInstId ≤ n1 ∧ M.freshInstId ≤ n2 ∧
        e.GIDCall = .inst n1 ∧ e.CastedGID = .inst n2) ∧
      (S.log.map (fun e => e.GIDCall)).Nodup := by
  have h0 : MatchSetInv M M.functions.length ⟨M, false, []⟩ [] [] := by
    refine ⟨M.insts, [], M.insts, rfl, rfl, rfl, rfl, rfl, fun _ => rfl, hnd, le_refl _,
      (fun e he => by cases he), List.nodup_nil, le_refl _, ?_⟩
    intro fj hfj
    simp only [Module.numBlocks]
    rw [List.getElem?_eq_none hfj]
  obtain ⟨S, tr, hT, hS, after, done, todo, hins, hM0, hfr, htr, hlog, hst, _, _, hnew, hgnd,
    htail⟩ := runLoopsTraced_cursor (matchSet_tracedInvariant M M.functions.length) M h0
  have hend := insts_eq_visitedBefore_end htail.2
  have hafter : after = [] := by
    have : visitedBefore S.M M.functions.length 0 0 ++ after =
        visitedBefore S.M M.functions.length 0 0 ++ [] := by
      rw [← hins, List.append_nil]
      exact hend
    exact List.append_cancel_left this
  subst hafter
  have htodo : todo = [] := by
    cases todo with
    | nil => rfl
    | cons T t => simp at hfr
  subst htodo
  rw [List.append_nil] at hM0
  subst hM0
  refine ⟨S, tr, hT, hS, htr, hlog, hst, ?_, hgnd⟩
  intro e he
  obtain ⟨n1, n2, h1, _, h3, h4, h5⟩ := hnew e he
  exact ⟨n1, n2, h1, h3, h4, h5⟩

theorem getInst_none_of_fresh {M : Module} {n : Nat} (h : M.freshInstId ≤ n) :
    M.getInst (.inst n) = none := by
  rw [getInst_eq_find]
  apply find?_eq_none_of_lt
  intro J hJ
  have := id_lt_freshInstId hJ
  omega

theorem isMatch_of_getInst_none {M : Module} {V : Value} (h : M.getInst V = none) :
    isMatch M V = false := by
  have hm : m_Muladd M V = none := by
    unfold m_Muladd
    rw [h]
  unfold isMatch
  rw [isGetGlobalIDPattern_of_no_muladd hm]

theorem value_not_mem_of_fresh {M : Module} {n : Nat} (h : M.freshInstId ≤ n) :
    Value.inst n ∉ M.insts.map Instruction.value := by
  intro hmem
  obtain ⟨J, hJ, hv⟩ := List.mem_map.1 hmem
  have := id_lt_freshInstId hJ
  simp only [Instruction.value, Value.inst.injEq] at hv
  omega

/-- C15. In one traversal of a module whose functions have distinct
identities the driver evaluates the matcher on each instruction of the module
at entry once, in order, and on nothing else; the instructions it rewrites are
exactly the instructions that match in the module at entry, so there are as
many inserted calls, all distinct, as matching instructions; a rewrite changes
the answer of the matcher on no value, and at exit the matcher answers on
every value as it did at entry; the inserted calls and casts are not
instructions of the module at entry, do not match, and are not visited. -/
theorem run_match_set (M : Module) (hnd : (M.functions.map (fun F => F.id)).Nodup) :
    ∃ S tr, runLoopsTraced M = .ok (S, tr) ∧ runLoops M = .ok S ∧
      tr = M.insts.map Instruction.value ∧
      S.log.map (fun e => e.I.frame) =
        (M.insts.filter (fun J => isMatch M J.value)).map Instruction.frame ∧
      (∀ V, isMatch S.M V = isMatch M V) ∧
      (∀ (S0 : PassState) (fi bi ii : Nat) (I : Instruction) (Dim : Value),
        (S0.M.functions.map (fun F => F.id)).Nodup → S0.M.instAt fi bi ii = some I →
        isGetGlobalIDPattern S0.M I.value = .ok (some Dim) →
        ∀ V, isMatch (rewriteMatch S0 fi bi ii I Dim).1.M V = isMatch S0.M V) ∧
      (∀ e ∈ S.log, M.getInst e.GIDCall = none ∧ M.getInst e.CastedGID = none ∧
        isMatch S.M e.GIDCall = false ∧ isMatch S.M e.CastedGID = false ∧
        e.GIDCall ∉ tr ∧ e.CastedGID ∉ tr) ∧
      (S.log.map (fun e => e.GIDCall)).Nodup ∧
      S.log.length = (M.insts.filter (fun J => isMatch M J.value)).length := by
  obtain ⟨S, tr, hT, hS, htr, hlog, hst, hnew, hgnd⟩ := runLoops_matchSet M hnd
  refine ⟨S, tr, hT, hS, htr, hlog, hst, ?_, ?_, hgnd, ?_⟩
  · intro S0 fi bi ii I Dim h0 hI hm V
    exact isMatch_rewriteMatch hI hm h0 V
  · intro e he
    obtain ⟨n1, n2, h1, h2, h3, h4⟩ := hnew e he
    rw [h3, h4, hst, hst, htr]
    exact ⟨getInst_none_of_fresh h1, getInst_none_of_fresh h2,
      isMatch_of_getInst_none (getInst_none_of_fresh h1),
      isMatch_of_getInst_none (getInst_none_of_fresh h2),
      value_not_mem_of_fresh h1, value_not_mem_of_fresh h2⟩
  · have := congrArg List.length hlog
    simpa using this

/-- C15 on the end-to-end scenario. -/
theorem run_match_set_witness :
    (exE2E.functions.map (fun F => F.id)).Nodup ∧
    ∃ S tr, runLoopsTraced exE2E = .ok (S, tr) ∧ runLoops exE2E = .ok S ∧
      tr = exE2E.insts.map Instruction.value ∧
      S.log.map (fun e => e.I.frame) =
        (exE2E.insts.filter (fun J => isMatch exE2E J.value)).map Instruction.frame ∧
      (∀ V, isMatch S.M V = isMatch exE2E V) ∧
      (∀ (S0 : PassState) (fi bi ii : Nat) (I : Instruction) (Dim : Value),
        (S0.M.functions.map (fun F => F.id)).Nodup → S0.M.instAt fi bi ii = some I →
        isGetGlobalIDPattern S0.M I.value = .ok (some Dim) →
        ∀ V, isMatch (rewriteMatch S0 fi bi ii I Dim).1.M V = isMatch S0.M V) ∧
      (∀ e ∈ S.log, exE2E.getInst e.GIDCall = none ∧ exE2E.getInst e.CastedGID = none ∧
        isMatch S.M e.GIDCall = false ∧ isMatch S.M e.CastedGID = false ∧
        e.GIDCall ∉ tr ∧ e.CastedGID ∉ tr) ∧
      (S.log.map (fun e => e.GIDCall)).Nodup ∧
      S.log.length = (exE2E.insts.filter (fun J => isMatch exE2E J.value)).length :=
  ⟨by decide, run_match_set exE2E (by decide)⟩

/-- The traversal of the end-to-end scenario visits the nine instructions in
order and rewrites the addition. -/
theorem runLoopsTraced_exE2E :
    (runLoopsTraced exE2E).map (fun T => (T.2, T.1.log.map (fun e => e.I.value))) =
      .ok ([.inst 0, .inst 1, .inst 2, .inst 3, .inst 4, .inst 5, .inst 6, .inst 7, .inst 8],
        [.inst 7]) := by
  decide

/-! ## Validity of the cast -/

theorem isIntUpTo_iff {t : Ty} {n : Nat} : t.isIntUpTo n ↔ ∃ w, t = .int w ∧ w ≤ n := by
  cases t <;> simp [Ty.isIntUpTo]

theorem typeOf_eq_some {M : Module} {V : Value} {t : Ty} (h : typeOf M V = some t) :
    ∃ J, M.getInst V = some J ∧ J.ty = t := by
  unfold typeOf at h
  cases hJ : M.getInst V with
  | none => simp [hJ] at h
  | some J =>
    simp only [hJ, Option.some.injEq] at h
    exact ⟨J, rfl, h⟩

/-- The type of a value that unwraps to a recognised call, in a module typed
by the rules of the verifier: an integer type of at most 64 bits. -/
theorem unwraps_width {M : Module} (htr : ∀ J ∈ M.insts, J.truncTyped M)
    (hcall : RecognisedCallsUpTo64 M) {x c : Value} {N : String} {t : Ty}
    (hN : N ∈ [GetGroupId, GetLocalSize, GetLocalId]) (hu : Unwraps M x c)
    (hd : DirectCallTo M c N) (ht : typeOf M x = some t) : t.isIntUpTo 64 := by
  obtain ⟨⟨fty, args, callee⟩, hc⟩ := hd.asCall_isSome
  obtain ⟨Jc, hJc, _⟩ := asCall_iff_getInst.1 hc
  have hcv := getInst_inst_of_some hJc
  have hcw : Jc.ty.isIntUpTo 64 := by
    apply hcall Jc (getInst_mem hJc) N hN
    rw [Instruction.value, ← hcv]
    exact hd
  obtain ⟨Jx, hJx, rfl⟩ := typeOf_eq_some ht
  rcases hu with hu | hu
  · subst hu
    rw [hJx] at hJc
    cases hJc
    exact hcw
  · obtain ⟨Jt, hJt, hst⟩ := asTrunc_iff_getInst.1 hu
    rw [hJx] at hJt
    cases hJt
    have h := htr Jx (getInst_mem hJx)
    unfold Instruction.truncTyped at h
    rw [hst] at h
    simp only [typeOf, hJc] at h
    obtain ⟨w, hw, hle⟩ := isIntUpTo_iff.1 hcw
    rw [hw] at h
    cases hty : Jx.ty with
    | int wd =>
      rw [hty] at h
      simp only at h
      simp only [Ty.isIntUpTo]
      omega
    | vec n b => rw [hty] at h; exact h.elim
    | ptr => rw [hty] at h; exact h.elim
    | void => rw [hty] at h; exact h.elim

/-- The type of an instruction the matcher accepts, in a module typed by the
rules of the verifier in which the recognised calls have an integer result of
at most 64 bits: an integer type of at most 64 bits, which is the type of the
operands of the multiplication and of the addend. -/
theorem matched_width {M : Module} (hbin : ∀ J ∈ M.insts, J.binopTyped M)
    (htr : ∀ J ∈ M.insts, J.truncTyped M) (hcall : RecognisedCallsUpTo64 M)
    {V d : Value} {I : Instruction} (hI : M.getInst V = some I)
    (hm : isGetGlobalIDPattern M V = .ok (some d)) :
    I.ty.isIntUpTo 64 ∧
    ∃ lhs rhs a b, asAdd M V = some (lhs, rhs) ∧ asMul M lhs = some (a, b) ∧
      typeOf M a = some I.ty ∧ typeOf M b = some I.ty ∧ typeOf M rhs = some I.ty := by
  obtain ⟨lhs, rhs, a, b, ca, cb, cc, hA, hM, hU, ua, ub, uc, hxy, hz, h0, h1, h2⟩ :=
    isGetGlobalIDPattern_some_imp hm
  obtain ⟨JV, hJV, hsV⟩ := asAdd_iff_getInst.1 hA
  rw [hI] at hJV
  cases hJV
  have hb1 := hbin I (getInst_mem hI)
  unfold Instruction.binopTyped at hb1
  rw [hsV] at hb1
  obtain ⟨hlA, hrA⟩ := hb1
  obtain ⟨Jm, hJm, hsm⟩ := asMul_iff_getInst.1 hM
  have hl : typeOf M lhs = some I.ty := typeOf_of_typeAgrees hlA hJm
  obtain ⟨Jr, hJr⟩ := getInst_of_unwraps uc hz
  have hr : typeOf M rhs = some I.ty := typeOf_of_typeAgrees hrA hJr
  obtain ⟨Jm2, hJm2, hty⟩ := typeOf_eq_some hl
  rw [hJm] at hJm2
  cases hJm2
  have hb2 := hbin Jm (getInst_mem hJm)
  unfold Instruction.binopTyped at hb2
  rw [hsm, hty] at hb2
  have hxN : ∃ N, DirectCallTo M ca N := by
    rcases hxy with h | h
    · exact ⟨_, h.1⟩
    · exact ⟨_, h.2⟩
  have hyN : ∃ N, DirectCallTo M cb N := by
    rcases hxy with h | h
    · exact ⟨_, h.2⟩
    · exact ⟨_, h.1⟩
  obtain ⟨Jxa, hJxa⟩ := getInst_of_unwraps ua hxN.choose_spec
  obtain ⟨Jxb, hJxb⟩ := getInst_of_unwraps ub hyN.choose_spec
  refine ⟨unwraps_width htr hcall (by simp) uc hz hr, lhs, rhs, a, b, hA, hM,
    typeOf_of_typeAgrees hb2.1 hJxa, typeOf_of_typeAgrees hb2.2 hJxb, hr⟩

/-- C17. In a module that obeys the rules of the verifier for binary operators
and truncations (an operand that is an instruction has the type the rule
asks for; constants and arguments are not constrained), with distinct
identities, in which every call to the three recognised functions has an
integer result of at most 64 bits: every
instruction the matcher accepts has an integer type of at most 64 bits, which
is the type of the operands of its multiplication and of its addend; so for
every rewrite of the run the driver asks `createTruncOrSelf` for a type of
width at most 64, and gets the 64-bit call itself when the width is 64 and a
truncation of the call to the narrower type when it is less. On a 64-bit
call `createTruncOrSelf` returns the call for the width 64 and inserts a
truncation for a smaller width. -/
theorem run_cast_validity (M : Module) (hids : (M.insts.map (fun J => J.id)).Nodup)
    (hfn : (M.functions.map (fun F => F.id)).Nodup)
    (hbin : ∀ J ∈ M.insts, J.binopTyped M) (htr : ∀ J ∈ M.insts, J.truncTyped M)
    (hcall : RecognisedCallsUpTo64 M) :
    (∀ V I d, M.getInst V = some I → isGetGlobalIDPattern M V = .ok (some d) →
      (∃ w, I.ty = .int w ∧ w ≤ 64) ∧
      ∃ lhs rhs a b, asAdd M V = some (lhs, rhs) ∧ asMul M lhs = some (a, b) ∧
        typeOf M a = some I.ty ∧ typeOf M b = some I.ty ∧ typeOf M rhs = some I.ty) ∧
    (∃ S, runLoops M = .ok S ∧ ∀ e ∈ S.log, ∃ w, e.I.ty = .int w ∧ w ≤ 64 ∧
      (w = 64 → e.CastedGID = e.GIDCall) ∧
      (w < 64 → ∃ C, S.M.getInst e.CastedGID = some C ∧ C.ty = .int w ∧
        C.shape = .cast .trunc e.GIDCall)) ∧
    (∀ (M1 : Module) (G : Instruction) (w fi bi ii : Nat), G.ty = I64Ty → w ≤ 64 →
      (w = 64 ∧ createTruncOrSelf M1 G (.int w) fi bi ii = (M1, G.value, 0)) ∨
      (w < 64 ∧ createTruncOrSelf M1 G (.int w) fi bi ii =
        (M1.insertBefore fi bi ii ⟨M1.freshInstId, "", .int w, .cast .trunc G.value⟩,
          .inst M1.freshInstId, 1))) := by
  refine ⟨?_, ?_, ?_⟩
  · intro V I d hI hm
    obtain ⟨hw, hrest⟩ := matched_width hbin htr hcall hI hm
    exact ⟨isIntUpTo_iff.1 hw, hrest⟩
  · obtain ⟨S, tr, _, hS, _, hlog, _, _, _⟩ := runLoops_matchSet M hfn
    obtain ⟨S2, hS2, hty⟩ := runLoops_inv logTyped_stepInvariant M (fun e he => by cases he)
    rw [hS] at hS2
    cases hS2
    refine ⟨S, hS, ?_⟩
    intro e he
    have hmem : e.I.frame ∈ S.log.map (fun e => e.I.frame) := List.mem_map.2 ⟨e, he, rfl⟩
    rw [hlog] at hmem
    obtain ⟨T, hT, hfr⟩ := List.mem_map.1 hmem
    rw [List.mem_filter] at hT
    obtain ⟨hTm, hTmatch⟩ := hT
    obtain ⟨d, hd⟩ := isMatch_iff.1 hTmatch
    have hget : M.getInst T.value = some T :=
      find?_eq_of_nodup (fun J : Instruction => J.id) M.insts hids T hTm
    obtain ⟨hw, _⟩ := matched_width hbin htr hcall hget hd
    have htyeq : T.ty = e.I.ty := by
      have := congrArg (fun p : Nat × String × Ty × Opcode => p.2.2.1) hfr
      exact this
    rw [htyeq] at hw
    obtain ⟨w, hw1, hw2⟩ := isIntUpTo_iff.1 hw
    obtain ⟨G, C, hG, hGty, _, hC, hCty, h64, hlt⟩ := hty e he
    refine ⟨w, hw1, hw2, ?_, ?_⟩
    · intro h
      apply h64
      rw [hw1, h]
      rfl
    · intro h
      exact ⟨C, hC, by rw [hCty, hw1], hlt w hw1 h⟩
  · intro M1 G w fi bi ii hG hw
    by_cases h : w = 64
    · left
      refine ⟨h, ?_⟩
      subst h
      unfold createTruncOrSelf
      rw [if_pos (by rw [hG]; rfl)]
    · right
      refine ⟨by omega, ?_⟩
      have hne : ¬ (G.ty = .int w) := by
        rw [hG]
        simp only [I64Ty, Ty.int.injEq]
        omega
      have hne2 : ¬ (64 = w) := by omega
      unfold createTruncOrSelf
      rw [if_neg hne]
      simp only [CastInst.CreateTruncOrBitCast, hG, I64Ty, Ty.getScalarSizeInBits, hne2, if_false,
        Instruction.value]

/-- C17 on the end-to-end scenario, alone and in a block that also has an
addition of a constant and a truncation of an argument: the addition has type
`i32`, and the run replaces it by a truncation of the 64-bit call to `i32`. -/
theorem run_cast_validity_witness :
    (((exE2E.insts.map (fun J => J.id)).Nodup ∧ (exE2E.functions.map (fun F => F.id)).Nodup ∧
      (∀ J ∈ exE2E.insts, J.binopTyped exE2E) ∧ (∀ J ∈ exE2E.insts, J.truncTyped exE2E) ∧
      RecognisedCallsUpTo64 exE2E) ∧
    ∃ S, runLoops exE2E = .ok S ∧ ∀ e ∈ S.log, ∃ w, e.I.ty = .int w ∧ w ≤ 64 ∧
      (w = 64 → e.CastedGID = e.GIDCall) ∧
      (w < 64 → ∃ C, S.M.getInst e.CastedGID = some C ∧ C.ty = .int w ∧
        C.shape = .cast .trunc e.GIDCall)) ∧
    (((exE2EConst.insts.map (fun J => J.id)).Nodup ∧
      (exE2EConst.functions.map (fun F => F.id)).Nodup ∧
      (∀ J ∈ exE2EConst.insts, J.binopTyped exE2EConst) ∧
      (∀ J ∈ exE2EConst.insts, J.truncTyped exE2EConst) ∧
      RecognisedCallsUpTo64 exE2EConst ∧ isMatch exE2EConst (.inst 7) = true) ∧
    ∃ S, runLoops exE2EConst = .ok S ∧ ∀ e ∈ S.log, ∃ w, e.I.ty = .int w ∧ w ≤ 64 ∧
      (w = 64 → e.CastedGID = e.GIDCall) ∧
      (w < 64 → ∃ C, S.M.getInst e.CastedGID = some C ∧ C.ty = .int w ∧
        C.shape = .cast .trunc e.GIDCall)) :=
  ⟨⟨⟨by decide, by decide, by decide, by decide, by decide⟩,
    (run_cast_validity exE2E (by decide) (by decide) (by decide) (by decide) (by decide)).2.1⟩,
   ⟨⟨by decide, by decide, by decide, by decide, by decide, by decide⟩,
    (run_cast_validity exE2EConst (by decide) (by decide) (by decide) (by decide)
      (by decide)).2.1⟩⟩

/-! ## The blocks of a module around a rewrite -/

theorem blockInsts_mapInsts (f : Instruction → Instruction) (M : Module) (fj bj : Nat) :
    (M.mapInsts f).blockInsts fj bj = (M.blockInsts fj bj).map f := by
  simp only [Module.blockInsts, Module.mapInsts, List.getElem?_map]
  cases M.functions[fj]? with
  | none => rfl
  | some F =>
    simp only [Option.map_some', Function.mapInsts, List.getElem?_map]
    cases F.blocks[bj]? with
    | none => rfl
    | some B => simp [BasicBlock.mapInsts]

theorem blockInsts_plug_self (Fs1 : List Function) (F : Function) (Bs1 : List BasicBlock)
    (l : List Instruction) (Bs2 : List BasicBlock) (Fs2 : List Function) :
    (plug Fs1 F Bs1 l Bs2 Fs2).blockInsts Fs1.length Bs1.length = l := by
  simp only [Module.blockInsts, plug, getElem?_append_cons_length]

theorem blockInsts_plug_other (Fs1 : List Function) (F : Function) (Bs1 : List BasicBlock)
    (l l2 : List Instruction) (Bs2 : List BasicBlock) (Fs2 extra : List Function)
    (hextra : ∀ G ∈ extra, G.blocks = []) (fj bj : Nat)
    (hne : ¬ (fj = Fs1.length ∧ bj = Bs1.length)) :
    (plug Fs1 F Bs1 l Bs2 (Fs2 ++ extra)).blockInsts fj bj =
      (plug Fs1 F Bs1 l2 Bs2 Fs2).blockInsts fj bj := by
  simp only [Module.blockInsts, plug]
  by_cases h1 : fj < Fs1.length
  · simp [List.getElem?_append_left h1]
  · by_cases h2 : fj = Fs1.length
    · subst h2
      simp only [getElem?_append_cons_length]
      have hb : bj ≠ Bs1.length := fun h => hne ⟨rfl, h⟩
      by_cases h3 : bj < Bs1.length
      · simp [List.getElem?_append_left h3]
      · have h4 : Bs1.length ≤ bj := by omega
        rw [List.getElem?_append_right h4, List.getElem?_append_right h4]
        obtain ⟨j, hj⟩ : ∃ j, bj - Bs1.length = j + 1 := ⟨bj - Bs1.length - 1, by omega⟩
        rw [hj]
        simp only [List.getElem?_cons_succ]
    · have h3 : Fs1.length ≤ fj := by omega
      rw [List.getElem?_append_right h3, List.getElem?_append_right h3]
      obtain ⟨j, hj⟩ : ∃ j, fj - Fs1.length = j + 1 := ⟨fj - Fs1.length - 1, by omega⟩
      rw [hj]
      simp only [List.getElem?_cons_succ]
      by_cases h4 : j < Fs2.length
      · rw [List.getElem?_append_left h4]
      · have h5 : Fs2.length ≤ j := by omega
        rw [List.getElem?_append_right h5, List.getElem?_eq_none h5]
        cases hG : extra[j - Fs2.length]? with
        | none => rfl
        | some G =>
          have := hextra G (List.getElem?_mem hG)
          simp [this]

theorem instAt_eq_blockInsts (M : Module) (fi bi ii : Nat) :
    M.instAt fi bi ii = (M.blockInsts fi bi)[ii]? := by
  unfold Module.instAt Module.blockInsts
  cases M.functions[fi]? with
  | none => rfl
  | some F =>
    cases hB : F.blocks[bi]? with
    | none => simp only [hB]; rfl
    | some B => simp only [hB]

/-- The loop body seen block by block: the block of `I` gets the new
instructions immediately before `I`, every block has the uses of `I` replaced,
and nothing else changes in any block. -/
theorem rewriteMatch_blocks {S : PassState} {fi bi ii : Nat} {I : Instruction} (Dim : Value)
    (hI : S.M.instAt fi bi ii = some I) :
    ∃ k n2 p q, S.M.freshInstId < n2 ∧
      S.M.blockInsts fi bi = p ++ I :: q ∧ p.length = ii ∧
      (rewriteMatch S fi bi ii I Dim).1.M.blockInsts fi bi =
        (p ++ newInsts S.M.freshInstId n2 I.ty Dim (.func k) ++ I :: q).map
          (Instruction.replaceUsesOfWith I.value (newValue S.M.freshInstId n2 I.ty)) ∧
      (∀ fj bj, ¬ (fj = fi ∧ bj = bi) →
        (rewriteMatch S fi bi ii I Dim).1.M.blockInsts fj bj =
          (S.M.blockInsts fj bj).map
            (Instruction.replaceUsesOfWith I.value (newValue S.M.freshInstId n2 I.ty))) ∧
      (rewriteMatch S fi bi ii I Dim).1.log =
        S.log ++ [⟨I, Dim, .inst S.M.freshInstId, newValue S.M.freshInstId n2 I.ty⟩] ∧
      (rewriteMatch S fi bi ii I Dim).2 =
        (newInsts S.M.freshInstId n2 I.ty Dim (.func k)).length ∧
      (∃ C, (rewriteMatch S fi bi ii I Dim).1.M.getInst (.inst S.M.freshInstId) =
        some ((gidCall S.M.freshInstId Dim (.func k)).replaceUsesOfWith I.value C)) := by
  obtain ⟨Fs1, F, Bs1, p, q, Bs2, Fs2, hM, rfl, rfl, rfl⟩ := instAt_plug hI
  obtain ⟨Fs2', k, n2, ⟨_, extra, rfl, hextra⟩, hlt, _, _, hrw⟩ :=
    rewriteMatch_plug S Fs1 F Bs1 p q Bs2 Fs2 I Dim hM
  obtain ⟨k2, C2, hcall⟩ := getInst_rewriteMatch_call Dim hI
  have hcall0 := hcall
  rw [hrw] at hcall
  simp only [Module.replaceAllUsesWith] at hcall
  have hk : k2 = k := by
    rw [getInst_eq_find, mod_insts_mapInsts, insts_plug, find?_map_replaceUses] at hcall
    have hp : (Fs1.flatMap Function.insts ++ Bs1.flatMap BasicBlock.insts ++ p).find?
        (fun I => I.id == S.M.freshInstId) = none := by
      apply find?_eq_none_of_lt
      intro J hJ
      apply id_lt_freshInstId
      rw [hM, insts_plug]
      simp only [List.mem_append, List.mem_cons] at hJ ⊢
      tauto
    have e : Fs1.flatMap Function.insts ++ Bs1.flatMap BasicBlock.insts ++
        (p ++ newInsts S.M.freshInstId n2 I.ty Dim (.func k) ++ I :: q) ++
        (Bs2.flatMap BasicBlock.insts ++ (Fs2 ++ extra).flatMap Function.insts) =
        (Fs1.flatMap Function.insts ++ Bs1.flatMap BasicBlock.insts ++ p) ++
        (newInsts S.M.freshInstId n2 I.ty Dim (.func k) ++ (I :: q ++
        (Bs2.flatMap BasicBlock.insts ++ (Fs2 ++ extra).flatMap Function.insts))) := by
      simp only [List.append_assoc, List.cons_append]
    rw [e, List.find?_append, hp, Option.none_or] at hcall
    have hnew : (newInsts S.M.freshInstId n2 I.ty Dim (.func k) ++ (I :: q ++
        (Bs2.flatMap BasicBlock.insts ++ (Fs2 ++ extra).flatMap Function.insts))).find?
        (fun I => I.id == S.M.freshInstId) = some (gidCall S.M.freshInstId Dim (.func k)) := by
      unfold newInsts
      split <;> simp [gidCall]
    rw [hnew] at hcall
    simp only [gidCall, Instruction.replaceUsesOfWith, Shape.replaceUsesOfWith,
      Instruction.value, Option.map_some', Option.some.injEq, Instruction.mk.injEq,
      Shape.call.injEq, reduceCtorEq, if_false, Value.func.injEq, true_and] at hcall
    exact hcall.2.symm
  subst hk
  refine ⟨k2, n2, p, q, hlt, ?_, rfl, ?_, ?_, ?_, ?_, ⟨C2, hcall0⟩⟩
  · rw [hM, blockInsts_plug_self]
  · rw [hrw]
    simp only [Module.replaceAllUsesWith]
    rw [blockInsts_mapInsts, blockInsts_plug_self]
  · intro fj bj hne
    rw [hrw]
    simp only [Module.replaceAllUsesWith]
    rw [blockInsts_mapInsts, hM,
      blockInsts_plug_other Fs1 F Bs1 _ (p ++ I :: q) Bs2 Fs2 extra hextra fj bj hne]
  · rw [hrw]
  · rw [hrw]

/-! ## The shape of a rewrite -/

/-- What `getOrInsertFunction` does on the name of `get_global_id`: it returns
the first function of that name when there is one, and else appends a
declaration without a body of the type asked for. -/
theorem getOrInsertFunction_cases (M : Module) (T : FunctionType) :
    ∃ k, (M.getOrInsertFunction GetGlobalId T).2 = ⟨T, .func k⟩ ∧
      (((M.getOrInsertFunction GetGlobalId T).1 = M ∧
          ∃ G ∈ M.functions, G.id = k ∧ G.name = GetGlobalId) ∨
        ((M.getOrInsertFunction GetGlobalId T).1 =
            ⟨M.functions ++ [⟨k, GetGlobalId, T, []⟩]⟩ ∧ k = M.freshFuncId ∧
          ∀ G ∈ M.functions, G.name ≠ GetGlobalId)) := by
  unfold Module.getOrInsertFunction
  cases hf : M.functions.find? (fun F => F.name == GetGlobalId) with
  | some G =>
    refine ⟨G.id, rfl, Or.inl ⟨rfl, G, List.mem_of_find?_eq_some hf, rfl, ?_⟩⟩
    simpa using List.find?_some hf
  | none =>
    refine ⟨M.freshFuncId, rfl, Or.inr ⟨rfl, rfl, ?_⟩⟩
    intro G hG hn
    rw [List.find?_eq_none] at hf
    exact hf G hG (by simp [hn])

/-- The module after the call and the cast have been created and before the
uses of `I` are replaced: the block of `I` has the new instructions
immediately before `I`, and no other block has changed. -/
theorem createTruncOrSelf_blocks {S : PassState} {fi bi ii : Nat} {I : Instruction}
    (Dim : Value) (hI : S.M.instAt fi bi ii = some I) :
    ∃ k n2 p q, S.M.freshInstId < n2 ∧
      S.M.blockInsts fi bi = p ++ I :: q ∧ p.length = ii ∧
      (S.M.getOrInsertFunction GetGlobalId ⟨I64Ty, [I32Ty]⟩).2 = ⟨⟨I64Ty, [I32Ty]⟩, .func k⟩ ∧
      (CallInst.Create (S.M.getOrInsertFunction GetGlobalId ⟨I64Ty, [I32Ty]⟩).1
        (S.M.getOrInsertFunction GetGlobalId ⟨I64Ty, [I32Ty]⟩).2 [Dim] "gid" fi bi ii).2 =
        gidCall S.M.freshInstId Dim (.func k) ∧
      (createTruncOrSelf
        (CallInst.Create (S.M.getOrInsertFunction GetGlobalId ⟨I64Ty, [I32Ty]⟩).1
          (S.M.getOrInsertFunction GetGlobalId ⟨I64Ty, [I32Ty]⟩).2 [Dim] "gid" fi bi ii).1
        (CallInst.Create (S.M.getOrInsertFunction GetGlobalId ⟨I64Ty, [I32Ty]⟩).1
          (S.M.getOrInsertFunction GetGlobalId ⟨I64Ty, [I32Ty]⟩).2 [Dim] "gid" fi bi ii).2
        I.ty fi bi (ii + 1)).2.1 = newValue S.M.freshInstId n2 I.ty ∧
      (createTruncOrSelf
        (CallInst.Create (S.M.getOrInsertFunction GetGlobalId ⟨I64Ty, [I32Ty]⟩).1
          (S.M.getOrInsertFunction GetGlobalId ⟨I64Ty, [I32Ty]⟩).2 [Dim] "gid" fi bi ii).1
        (CallInst.Create (S.M.getOrInsertFunction GetGlobalId ⟨I64Ty, [I32Ty]⟩).1
          (S.M.getOrInsertFunction GetGlobalId ⟨I64Ty, [I32Ty]⟩).2 [Dim] "gid" fi bi ii).2
        I.ty fi bi (ii + 1)).1.blockInsts fi bi =
        p ++ newInsts S.M.freshInstId n2 I.ty Dim (.func k) ++ I :: q ∧
      (∀ fj bj, ¬ (fj = fi ∧ bj = bi) →
        (createTruncOrSelf
          (CallInst.Create (S.M.getOrInsertFunction GetGlobalId ⟨I64Ty, [I32Ty]⟩).1
            (S.M.getOrInsertFunction GetGlobalId ⟨I64Ty, [I32Ty]⟩).2 [Dim] "gid" fi bi ii).1
          (CallInst.Create (S.M.getOrInsertFunction GetGlobalId ⟨I64Ty, [I32Ty]⟩).1
            (S.M.getOrInsertFunction GetGlobalId ⟨I64Ty, [I32Ty]⟩).2 [Dim] "gid" fi bi ii).2
          I.ty fi bi (ii + 1)).1.blockInsts fj bj = S.M.blockInsts fj bj) := by
  obtain ⟨Fs1, F, Bs1, p, q, Bs2, Fs2, hM, rfl, rfl, rfl⟩ := instAt_plug hI
  obtain ⟨Fs2', k, hg, hFs, extra, rfl, hextra⟩ :=
    getOrInsertFunction_plug Fs1 F Bs1 (p ++ I :: q) Bs2 Fs2 GetGlobalId ⟨I64Ty, [I32Ty]⟩
  have hfresh : (plug Fs1 F Bs1 (p ++ I :: q) Bs2 (Fs2 ++ extra)).freshInstId =
      S.M.freshInstId := by
    apply freshInstId_congr
    rw [hM, insts_plug, insts_plug, hFs]
  have hG : gidCall S.M.freshInstId Dim (.func k) ∈
      (plug Fs1 F Bs1 (p ++ gidCall S.M.freshInstId Dim (.func k) :: I :: q) Bs2
        (Fs2 ++ extra)).insts := by
    simp only [insts_plug]
    simp
  rw [hM] at hfresh
  refine ⟨k, (plug Fs1 F Bs1 (p ++ gidCall S.M.freshInstId Dim (.func k) :: I :: q) Bs2
    (Fs2 ++ extra)).freshInstId, p, q, id_lt_freshInstId hG, ?_, rfl, ?_, ?_, ?_, ?_, ?_⟩
  · rw [hM, blockInsts_plug_self]
  · rw [hM, hg]
  · rw [hM, hg]
    simp only [CallInst.Create, hfresh, gidCall]
  · simp only [hM, hg, CallInst.Create, insertBefore_plug, createTruncOrSelf,
      CastInst.CreateTruncOrBitCast]
    by_cases hty : I.ty = I64Ty
    · have hty2 : I64Ty = I.ty := hty.symm
      simp only [hty2, if_true, newValue, Instruction.value, hfresh]
    · have hty2 : ¬ I64Ty = I.ty := fun h => hty h.symm
      simp only [hty, hty2, if_false, newValue, Instruction.value, hfresh, insertBefore_plug,
        gidCall]
  · simp only [hM, hg, CallInst.Create, insertBefore_plug, createTruncOrSelf,
      CastInst.CreateTruncOrBitCast]
    by_cases hty : I.ty = I64Ty
    · have hty2 : I64Ty = I.ty := hty.symm
      simp only [hty2, if_true, newInsts, blockInsts_plug_self, hfresh, gidCall,
        List.append_assoc, List.cons_append, List.nil_append]
    · have hty2 : ¬ I64Ty = I.ty := fun h => hty h.symm
      simp only [hty, hty2, if_false, newInsts, insertBefore_plug_snoc,
        blockInsts_plug_self, hfresh, gidCall, gidCast, Instruction.value, List.append_assoc,
        List.cons_append, List.nil_append]
  · intro fj bj hne
    simp only [hM, hg, CallInst.Create, insertBefore_plug, createTruncOrSelf,
      CastInst.CreateTruncOrBitCast]
    by_cases hty : I.ty = I64Ty
    · have hty2 : I64Ty = I.ty := hty.symm
      simp only [hty2, if_true]
      exact blockInsts_plug_other Fs1 F Bs1 _ _ Bs2 Fs2 extra hextra fj bj hne
    · have hty2 : ¬ I64Ty = I.ty := fun h => hty h.symm
      simp only [hty2, if_false, insertBefore_plug_snoc]
      exact blockInsts_plug_other Fs1 F Bs1 _ _ Bs2 Fs2 extra hextra fj bj hne

theorem functions_header_insertBefore (M : Module) (fi bi ii : Nat) (X : Instruction) :
    (M.insertBefore fi bi ii X).functions.map Function.header =
      M.functions.map Function.header := by
  simp only [Module.insertBefore]
  generalize M.functions = l
  induction l generalizing fi with
  | nil => cases fi <;> rfl
  | cons F Fs ih =>
    cases fi with
    | zero => rfl
    | succ j =>
      simp only [modifyAt, List.map_cons, List.cons.injEq, true_and]
      exact ih j

theorem functions_header_insertCallAndCast (S : PassState) (fi bi ii : Nat) (I : Instruction)
    (Dim : Value) :
    (insertCallAndCast S fi bi ii I Dim).1.functions.map Function.header =
      (S.M.getOrInsertFunction GetGlobalId ⟨I64Ty, [I32Ty]⟩).1.functions.map
        Function.header := by
  unfold insertCallAndCast createTruncOrSelf
  simp only
  split
  · simp only [CallInst.Create, functions_header_insertBefore]
  · simp only [CastInst.CreateTruncOrBitCast, CallInst.Create, functions_header_insertBefore]

theorem rewriteMatch_eq_replace (S : PassState) (fi bi ii : Nat) (I : Instruction)
    (Dim : Value) :
    (rewriteMatch S fi bi ii I Dim).1.M =
      (insertCallAndCast S fi bi ii I Dim).1.replaceAllUsesWith I.value
        (insertCallAndCast S fi bi ii I Dim).2 := rfl

/-- C12. For a matched instruction `I` at index `ii` of its block, with
matched dimension `Dim`, the driver inserts into the block of `I`, immediately
before `I`, one call whose function type is `i64 (i32)`, whose only argument
is `Dim` and whose callee is a function named `_Z13get_global_idj`, followed,
when the type of `I` is not `i64`, by one cast of that call to the type of
`I`; the instructions before and after are as they were and no other block
changes. The function is the one the module has under that name, and when it
has none a declaration of type `i64 (i32)` is appended. The module the loop
body leaves is this one with the uses of `I` replaced, so the call still has
the argument `Dim` unless `Dim` is `I` itself. The loop of the driver at a
matched instruction does exactly this. -/
theorem rewriteMatch_shape (S : PassState) (fi bi ii : Nat) (I : Instruction) (Dim : Value)
    (hI : S.M.instAt fi bi ii = some I)
    (hm : isGetGlobalIDPattern S.M I.value = .ok (some Dim)) :
    runInsts fi bi 1 ii S = .ok (rewriteMatch S fi bi ii I Dim).1 ∧
    ∃ (k n1 n2 : Nat) (p q : List Instruction) (op : CastOp),
      S.M.blockInsts fi bi = p ++ I :: q ∧ p.length = ii ∧ n1 < n2 ∧
      (∀ J ∈ S.M.insts, J.id < n1) ∧
      (insertCallAndCast S fi bi ii I Dim).1.blockInsts fi bi =
        p ++ (if I.ty = I64Ty then [⟨n1, "gid", I64Ty, .call ⟨I64Ty, [I32Ty]⟩ [Dim] (.func k)⟩]
          else [⟨n1, "gid", I64Ty, .call ⟨I64Ty, [I32Ty]⟩ [Dim] (.func k)⟩,
            ⟨n2, "", I.ty, .cast op (.inst n1)⟩]) ++ I :: q ∧
      (∀ fj bj, ¬ (fj = fi ∧ bj = bi) →
        (insertCallAndCast S fi bi ii I Dim).1.blockInsts fj bj = S.M.blockInsts fj bj) ∧
      (∃ G ∈ (insertCallAndCast S fi bi ii I Dim).1.functions,
        G.id = k ∧ G.name = GetGlobalId) ∧
      ((∀ G ∈ S.M.functions, G.name ≠ GetGlobalId) →
        (insertCallAndCast S fi bi ii I Dim).1.functions.map Function.header =
          S.M.functions.map Function.header ++ [(k, GetGlobalId, ⟨I64Ty, [I32Ty]⟩)]) ∧
      ((∃ G ∈ S.M.functions, G.name = GetGlobalId) →
        (insertCallAndCast S fi bi ii I Dim).1.functions.map Function.header =
          S.M.functions.map Function.header) ∧
      (insertCallAndCast S fi bi ii I Dim).2 = (if I.ty = I64Ty then .inst n1 else .inst n2) ∧
      (rewriteMatch S fi bi ii I Dim).1.M =
        (insertCallAndCast S fi bi ii I Dim).1.replaceAllUsesWith I.value
          (insertCallAndCast S fi bi ii I Dim).2 ∧
      (Dim ≠ I.value →
        (rewriteMatch S fi bi ii I Dim).1.M.instAt fi bi ii =
          some ⟨n1, "gid", I64Ty, .call ⟨I64Ty, [I32Ty]⟩ [Dim] (.func k)⟩) := by
  refine ⟨by simp only [runInsts, hI, hm], ?_⟩
  obtain ⟨k, n2, p, q, hlt, hblk, hp, hcallee, hcall, hval, hins, hother⟩ :=
    createTruncOrSelf_blocks Dim hI
  obtain ⟨k2, hk2, hcases⟩ := getOrInsertFunction_cases S.M ⟨I64Ty, [I32Ty]⟩
  have hk : k2 = k := by
    rw [hcallee] at hk2
    simp only [FunctionCallee.mk.injEq, Value.func.injEq, true_and] at hk2
    exact hk2.symm
  subst hk
  have hhead := functions_header_insertCallAndCast S fi bi ii I Dim
  have hins2 : (insertCallAndCast S fi bi ii I Dim).1.blockInsts fi bi =
      p ++ newInsts S.M.freshInstId n2 I.ty Dim (.func k2) ++ I :: q := hins
  refine ⟨k2, S.M.freshInstId, n2, p, q,
    (if I64Ty.getScalarSizeInBits = I.ty.getScalarSizeInBits then .bitcast else .trunc),
    hblk, hp, hlt, fun J hJ => id_lt_freshInstId hJ, ?_, hother, ?_, ?_, ?_, ?_, rfl, ?_⟩
  · rw [hins2]
    unfold newInsts gidCall gidCast
    split <;> rfl
  · rcases hcases with ⟨h1, G, hG, hGk, hGn⟩ | ⟨h1, _, _⟩
    · rw [h1] at hhead
      have hm : G.header ∈ (insertCallAndCast S fi bi ii I Dim).1.functions.map
          Function.header := by
        rw [hhead]
        exact List.mem_map.2 ⟨G, hG, rfl⟩
      obtain ⟨G', hG', hh⟩ := List.mem_map.1 hm
      simp only [Function.header, Prod.mk.injEq] at hh
      exact ⟨G', hG', hh.1.trans hGk, hh.2.1.trans hGn⟩
    · rw [h1] at hhead
      have hm : (k2, GetGlobalId, (⟨I64Ty, [I32Ty]⟩ : FunctionType)) ∈
          (insertCallAndCast S fi bi ii I Dim).1.functions.map Function.header := by
        rw [hhead]
        simp [Function.header]
      obtain ⟨G', hG', hh⟩ := List.mem_map.1 hm
      simp only [Function.header, Prod.mk.injEq] at hh
      exact ⟨G', hG', hh.1, hh.2.1⟩
  · intro hno
    rcases hcases with ⟨_, G, hG, _, hGn⟩ | ⟨h1, _, _⟩
    · exact absurd hGn (hno G hG)
    · rw [hhead, h1]
      simp [Function.header]
  · rintro ⟨G0, hG0, hn0⟩
    rcases hcases with ⟨h1, _⟩ | ⟨_, _, hno⟩
    · rw [hhead, h1]
    · exact absurd hn0 (hno G0 hG0)
  · have : (insertCallAndCast S fi bi ii I Dim).2 = newValue S.M.freshInstId n2 I.ty := hval
    rw [this]
    rfl
  · intro hD
    rw [rewriteMatch_eq_replace, instAt_eq_blockInsts]
    simp only [Module.replaceAllUsesWith]
    rw [blockInsts_mapInsts, hins2, List.getElem?_map, ← hp, List.append_assoc,
      List.getElem?_append_right (le_refl _), Nat.sub_self]
    have hD2 : ¬ (Dim = .inst I.id) := hD
    unfold newInsts
    split <;>
      simp [gidCall, Instruction.replaceUsesOfWith, Shape.replaceUsesOfWith, Instruction.value,
        hD2]

/-- C12 on the end-to-end scenario: the loop body at the addition, instruction
7 of block 0 of function 3. -/
theorem rewriteMatch_shape_witness :
    (exState.M.instAt 3 0 7 = some exAdd ∧
      isGetGlobalIDPattern exState.M exAdd.value = .ok (some (.other 0))) ∧
    runInsts 3 0 1 7 exState = .ok (rewriteMatch exState 3 0 7 exAdd (.other 0)).1 ∧
    ∃ (k n1 n2 : Nat) (p q : List Instruction) (op : CastOp),
      exState.M.blockInsts 3 0 = p ++ exAdd :: q ∧ p.length = 7 ∧ n1 < n2 ∧
      (∀ J ∈ exState.M.insts, J.id < n1) ∧
      (insertCallAndCast exState 3 0 7 exAdd (.other 0)).1.blockInsts 3 0 =
        p ++ (if exAdd.ty = I64Ty then [⟨n1, "gid", I64Ty, .call ⟨I64Ty, [I32Ty]⟩ [.other 0] (.func k)⟩]
          else [⟨n1, "gid", I64Ty, .call ⟨I64Ty, [I32Ty]⟩ [.other 0] (.func k)⟩,
            ⟨n2, "", exAdd.ty, .cast op (.inst n1)⟩]) ++ exAdd :: q ∧
      (∀ fj bj, ¬ (fj = 3 ∧ bj = 0) →
        (insertCallAndCast exState 3 0 7 exAdd (.other 0)).1.blockInsts fj bj = exState.M.blockInsts fj bj) ∧
      (∃ G ∈ (insertCallAndCast exState 3 0 7 exAdd (.other 0)).1.functions,
        G.id = k ∧ G.name = GetGlobalId) ∧
      ((∀ G ∈ exState.M.functions, G.name ≠ GetGlobalId) →
        (insertCallAndCast exState 3 0 7 exAdd (.other 0)).1.functions.map Function.header =
          exState.M.functions.map Function.header ++ [(k, GetGlobalId, ⟨I64Ty, [I32Ty]⟩)]) ∧
      ((∃ G ∈ exState.M.functions, G.name = GetGlobalId) →
        (insertCallAndCast exState 3 0 7 exAdd (.other 0)).1.functions.map Function.header =
          exState.M.functions.map Function.header) ∧
      (insertCallAndCast exState 3 0 7 exAdd (.other 0)).2 = (if exAdd.ty = I64Ty then .inst n1 else .inst n2) ∧
      (rewriteMatch exState 3 0 7 exAdd (.other 0)).1.M =
        (insertCallAndCast exState 3 0 7 exAdd (.other 0)).1.replaceAllUsesWith exAdd.value
          (insertCallAndCast exState 3 0 7 exAdd (.other 0)).2 ∧
      ((.other 0 : Value) ≠ exAdd.value →
        (rewriteMatch exState 3 0 7 exAdd (.other 0)).1.M.instAt 3 0 7 =
          some ⟨n1, "gid", I64Ty, .call ⟨I64Ty, [I32Ty]⟩ [.other 0] (.func k)⟩) :=
  ⟨⟨by decide, by decide⟩,
    rewriteMatch_shape exState 3 0 7 exAdd (.other 0) (by decide) (by decide)⟩

/-! ## The frame of a run -/

theorem filter_id_map_replaceUses (Old New : Value) (n : Nat) (l : List Instruction) :
    (l.map (Instruction.replaceUsesOfWith Old New)).filter (fun J => J.id < n) =
      (l.filter (fun J => J.id < n)).map (Instruction.replaceUsesOfWith Old New) := by
  induction l with
  | nil => rfl
  | cons x xs ih =>
    simp only [List.map_cons, List.filter_cons, replaceUsesOfWith_id]
    split
    · simp only [List.map_cons, ih]
    · exact ih

theorem newInsts_filter_old {n0 n1 n2 : Nat} (Ty : Ty) (Dim callee : Value) (h1 : n0 ≤ n1)
    (h2 : n1 < n2) : (newInsts n1 n2 Ty Dim callee).filter (fun J => J.id < n0) = [] := by
  rw [List.filter_eq_nil_iff]
  intro J hJ
  have := (newInsts_ids n1 n2 Ty Dim callee h2).2 J.id (List.mem_map.2 ⟨J, hJ, rfl⟩)
  simp only [decide_eq_true_eq]
  omega

theorem value_replaceUsesOfWith (Old New : Value) (J : Instruction) :
    (J.replaceUsesOfWith Old New).value = J.value := rfl

theorem opcode_replaceUsesOfWith (Old New : Value) (J : Instruction) :
    (J.replaceUsesOfWith Old New).shape.opcode = J.shape.opcode := by
  obtain ⟨id, name, ty, shape⟩ := J
  cases shape <;> rfl

theorem mem_blockInsts {M : Module} {fi bi : Nat} {J : Instruction}
    (h : J ∈ M.blockInsts fi bi) : J ∈ M.insts := by
  unfold Module.blockInsts at h
  cases hF : M.functions[fi]? with
  | none => simp [hF] at h
  | some F =>
    simp only [hF] at h
    cases hB : F.blocks[bi]? with
    | none => simp [hB] at h
    | some B =>
      simp only [hB] at h
      simp only [Module.insts, Function.insts, List.mem_flatMap]
      exact ⟨F, List.getElem?_mem hF, B, List.getElem?_mem hB, h⟩

theorem frame_stepInvariant (M0 : Module) : StepInvariant (FrameInv M0) := by
  intro S fi bi ii I Dim h hI hm
  obtain ⟨hfresh, hlen, hnb, hold, hnew, hfun⟩ := h
  obtain ⟨k, n2, p, q, hlt, hblk, hp, hblkR, hother, hlog, _, ⟨C, hcall⟩⟩ :=
    rewriteMatch_blocks Dim hI
  obtain ⟨k3, n3, rest, _, _, _, _, _, hnbR, hflR, _⟩ := rewriteMatch_cursor Dim hI
  have hfresh2 : S.M.freshInstId < (rewriteMatch S fi bi ii I Dim).1.M.freshInstId :=
    id_lt_freshInstId (getInst_mem hcall)
  refine ⟨by omega, le_trans hlen hflR, ?_, ?_, ?_, ?_⟩
  · intro fj
    by_cases hfj : fj < S.M.functions.length
    · rw [hnbR fj hfj]
      exact hnb fj
    · rw [rewriteMatch_tail Dim hI fj (by omega), ← hnb fj]
      unfold Module.numBlocks
      rw [List.getElem?_eq_none (by omega)]
  · intro fj bj
    by_cases hpos : fj = fi ∧ bj = bi
    · obtain ⟨rfl, rfl⟩ := hpos
      rw [hblkR, filter_id_map_replaceUses, map_frame_replaceUses, ← hold fj bj, hblk]
      simp only [List.filter_append, newInsts_filter_old I.ty Dim (.func k) hfresh hlt,
        List.append_nil]
    · rw [hother fj bj hpos, filter_id_map_replaceUses, map_frame_replaceUses]
      exact hold fj bj
  · intro fj bj J' hJ' hge
    have hcases : ∃ J, J' = J.replaceUsesOfWith I.value (newValue S.M.freshInstId n2 I.ty) ∧
        (J ∈ S.M.blockInsts fj bj ∨ J ∈ newInsts S.M.freshInstId n2 I.ty Dim (.func k)) := by
      by_cases hpos : fj = fi ∧ bj = bi
      · obtain ⟨rfl, rfl⟩ := hpos
        rw [hblkR] at hJ'
        obtain ⟨J, hJ, rfl⟩ := List.mem_map.1 hJ'
        refine ⟨J, rfl, ?_⟩
        rw [hblk]
        simp only [List.mem_append, List.mem_cons] at hJ ⊢
        tauto
      · rw [hother fj bj hpos] at hJ'
        obtain ⟨J, hJ, rfl⟩ := List.mem_map.1 hJ'
        exact ⟨J, rfl, Or.inl hJ⟩
    obtain ⟨J, rfl, hJ⟩ := hcases
    rw [value_replaceUsesOfWith, opcode_replaceUsesOfWith]
    rw [replaceUsesOfWith_id] at hge
    rcases hJ with hJ | hJ
    · obtain ⟨e, he, h⟩ := hnew fj bj J hJ hge
      exact ⟨e, by rw [hlog]; exact List.mem_append_left _ he, h⟩
    · refine ⟨⟨I, Dim, .inst S.M.freshInstId, newValue S.M.freshInstId n2 I.ty⟩,
        by rw [hlog]; simp, ?_⟩
      unfold newInsts at hJ
      split at hJ
      · simp only [List.mem_singleton] at hJ
        subst hJ
        left
        exact ⟨rfl, rfl⟩
      · rename_i hty
        simp only [List.mem_cons, List.mem_singleton, List.not_mem_nil, or_false] at hJ
        rcases hJ with rfl | rfl
        · left
          exact ⟨rfl, rfl⟩
        · right
          refine ⟨?_, _, rfl⟩
          simp only [newValue, if_neg hty]
          rfl
  · obtain ⟨k4, extra, hh, _, hcase⟩ := rewriteMatch_functions Dim hI
    rcases hcase with ⟨rfl, _⟩ | ⟨rfl, _, hno⟩
    · rw [hh]
      simpa using hfun
    · rcases hfun with hfun | ⟨k5, hfun⟩
      · right
        refine ⟨k4, ?_⟩
        rw [hh, hfun]
        rfl
      · exfalso
        have hm5 : (k5, GetGlobalId, (⟨I64Ty, [I32Ty]⟩ : FunctionType)) ∈
            S.M.functions.map Function.header := by
          rw [hfun]
          simp
        obtain ⟨G, hG, hGh⟩ := List.mem_map.1 hm5
        simp only [Function.header, Prod.mk.injEq] at hGh
        exact hno G hG hGh.2.1

/-- C13. After the run every block holds the instructions it held before the
run, in the same order and with the identity, name, type and opcode they had;
every other instruction of a block is the call or the cast of one of the
rewrites of the run; no block is added or removed; and the functions are
those of the module at entry, followed by at most one declaration of
`_Z13get_global_idj` of type `i64 (i32)`. In particular the rewritten
instructions are left in place. -/
theorem run_frame (M : Module) :
    ∃ S, runLoops M = .ok S ∧
      (∀ J ∈ M.insts, J.id < M.freshInstId) ∧
      (∀ fi, S.M.numBlocks fi = M.numBlocks fi) ∧
      (∀ fi bi, ((S.M.blockInsts fi bi).filter (fun J => J.id < M.freshInstId)).map
        Instruction.frame = (M.blockInsts fi bi).map Instruction.frame) ∧
      (∀ fi bi, ∀ J ∈ S.M.blockInsts fi bi, M.freshInstId ≤ J.id →
        ∃ e ∈ S.log, (J.value = e.GIDCall ∧ J.shape.opcode = .call) ∨
          (J.value = e.CastedGID ∧ ∃ op, J.shape.opcode = .cast op)) ∧
      (S.M.functions.map Function.header = M.functions.map Function.header ∨
        ∃ k, S.M.functions.map Function.header =
          M.functions.map Function.header ++ [(k, GetGlobalId, ⟨I64Ty, [I32Ty]⟩)]) := by
  have h0 : FrameInv M ⟨M, false, []⟩ := by
    refine ⟨le_refl _, le_refl _, fun _ => rfl, ?_, ?_, Or.inl rfl⟩
    · intro fi bi
      congr 1
      rw [List.filter_eq_self]
      intro J hJ
      simp only [decide_eq_true_eq]
      exact id_lt_freshInstId (mem_blockInsts hJ)
    · intro fi bi J hJ hge
      have := id_lt_freshInstId (mem_blockInsts hJ)
      simp only at this hge
      omega
  obtain ⟨S, hS, _, _, hnb, hold, hnew, hfun⟩ := runLoops_inv (frame_stepInvariant M) M h0
  exact ⟨S, hS, fun J hJ => id_lt_freshInstId hJ, hnb, hold, hnew, hfun⟩

end HipThreadIDPatterns
